import Mathlib

/-!
# anarch, x64 virtual-memory core: page table and address space

Shallow embedding of `src/arch/x64/vmm/page-table.cpp` and
`src/arch/x64/vmm/user/user-map.cpp`.

Modelling conventions.

* 64-bit words (`uint64_t`, `VirtAddr`, `PhysAddr`, `size_t`) are natural
  numbers; additions that can leave 64 bits are reduced `% 2 ^ 64`.
* Memory is the store the running code dereferences: a map from the byte
  address of an 8-byte word to the word held there.  The page table is reached
  through the fixed self-referential windows computed by `GetTableEntry`, so a
  page-table entry is the word at the address `GetTableEntry addr depth`, and
  two paths share an entry exactly when these addresses coincide.  What the
  hardware shows in a window below an entry that is absent is not modelled:
  the code reads such a table only after `Set` zero-filled it.  Nor is the
  change of frame under a window when the address bits of a present ancestor
  are rewritten, which the code does only if `parentMask` carries address bits.
* `FreeTableRecursive` runs on a table that is not active and reads its frames
  by physical address; it takes the physical memory as an argument.
* `Panic(...)` and a failed `assert(...)` stop the kernel: functions that can
  reach one return `Except Halt _`.
* The frame allocator, the TLB and the virtual free list are collaborators
  whose code is not part of the page table: the allocator is a pool of frames
  it will hand out together with logs of what was handed out and what was
  returned; the TLB is a log of the invalidations requested; the free list is
  a set of addresses kept as a list of regions.
* An address space (`UserMap.Space`) is the machine with its page table
  together with the free list; `PageTable::KernelEnd` is a parameter.
-/

set_option maxRecDepth 100000

namespace PageTable

/-- Fatal stops: one constructor for each `Panic` and each `assert` of the embedded code. -/
inductive Halt where
  | assertNoncritical
  | assertIsSet
  | assertNotIsSet
  | assertDepthRange
  | assertAligned
  | assertEntryNonzero
  | assertDepthAtLeastTwo
  | assertAboveKernelEnd
  | panicCalcDepth
  | panicSetAllocationFailed
  | panicUnsetNoMapping
  | panicSetListSetFailed
  | panicUnmapUnsetFailed
  | panicReserveAtFailed
  | panicCopyToKernelNoDelegate
  | panicCopyFromKernelNoDelegate
  deriving DecidableEq, Repr

/-- Modelled from the spec: the record `MemoryMap::Attributes`, declared in
`anarch/api/memory-map` (not among the sources), with the three fields the code uses. -/
structure Attributes where
  executable : Bool
  writable : Bool
  cachable : Bool
  deriving DecidableEq, Repr

/-- Modelled from the spec: the record `MemoryMap::Size`, declared in
`anarch/api/memory-map` (not among the sources), with the two fields the code uses. -/
structure Size where
  pageSize : Nat
  pageCount : Nat
  deriving DecidableEq, Repr

/-- Modelled from the spec: the physical frame allocator (`anarch/api/allocator`, not
among the sources) seen from the page table.  `pool` lists the frames the next calls of
`Alloc` hand out (an empty pool is a failed allocation), `allocated` and `freed` log the
frames handed out and the addresses passed to `Free`, latest first. -/
structure Allocator where
  pool : List Nat
  allocated : List Nat
  freed : List Nat
  deriving DecidableEq, Repr

/-- Modelled from the spec: the call `Alloc(fresh, 0x1000, 0x1000)` of the allocator,
`none` when the allocation fails. -/
def Allocator.Alloc (a : Allocator) : Option (Nat × Allocator) :=
  match a.pool with
  | [] => none
  | fresh :: rest => some (fresh, { a with pool := rest, allocated := fresh :: a.allocated })

/-- Modelled from the spec: the call `Free(addr)` of the allocator. -/
def Allocator.Free (a : Allocator) (addr : Nat) : Allocator :=
  { a with freed := addr :: a.freed }

/-- The machine and the `PageTable` object: the memory, the register `cr3`, the
table root `pml4`, whether the core is in a critical section, the allocator and the log
of `Tlb::DistributeInvlpg(start, size)` calls, latest first. -/
structure State where
  mem : Nat → Nat
  cr3 : Nat
  pml4 : Nat
  critical : Bool
  allocator : Allocator
  invlpg : List (Nat × Nat)

/-- `PageTable::CalcDepth`. -/
def CalcDepth (size : Nat) : Except Halt Nat :=
  if size = 0x1000 then .ok 3
  else if size = 0x200000 then .ok 2
  else if size = 0x40000000 then .ok 1
  else .error Halt.panicCalcDepth

/-- `PageTable::CalcMask`. -/
def CalcMask (pageSize : Nat) (kernel : Bool) (attributes : Attributes) : Nat :=
  1 ||| (if pageSize = 0x1000 then 0 else 0x80) ||| (if kernel then 0x100 else 0x4)
    ||| (if attributes.executable then 0 else 1 <<< 63)
    ||| (if attributes.writable then 2 else 0)

/-- `PageTable::IsSet`: the table is the one loaded in `cr3`. -/
def IsSet (s : State) : Bool :=
  s.cr3 == s.pml4

/-- `PageTable::GetTableEntry`: the address of the entry for `address` at `depth`
inside the self-referential windows (the code returns a reference to that word).
The code asserts `0 <= depth < 4`; every caller passes such a depth. -/
def GetTableEntry (address : Nat) (depth : Nat) : Nat :=
  let address := address &&& 0xFFFFFFFFFFFF
  if depth = 3 then
    let inner := (address / 0x200) &&& 0xFFFFFFFFFFFFFFF8
    0xFFFFFF8000000000 + inner
  else if depth = 2 then
    let inner := (address / 0x40000) &&& 0xFFFFFFFFFFFFFFF8
    0xFFFFFFFFC0000000 + inner
  else if depth = 1 then
    let inner := (address / 0x8000000) &&& 0xFFFFFFFFFFFFFFF8
    0xFFFFFFFFFFE00000 + inner
  else
    let inner := (address / 0x1000000000) &&& 0xFFFFFFFFFFFFFFF8
    0xFFFFFFFFFFFFF000 + inner

/-- `PageTable::GetTableStart`: the start of the 4 KiB table holding that entry. -/
def GetTableStart (address : Nat) (depth : Nat) : Nat :=
  GetTableEntry address depth &&& 0xFFFFFFFFFFFFF000

/-- Modelled from the spec: `ansa::Bzero(ptr, len)` (library `ansa`, not among the
sources) zero-fills the `len` bytes from `ptr`. -/
def Bzero (mem : Nat → Nat) (ptr len : Nat) : Nat → Nat :=
  fun a => if ptr ≤ a ∧ a < ptr + len then 0 else mem a

/-- The checks `AssertNoncritical(); assert(IsSet());` that open every operation on
the active table. -/
def entryChecks (s : State) : Except Halt Unit :=
  if s.critical then .error Halt.assertNoncritical
  else if IsSet s then .ok ()
  else .error Halt.assertIsSet

/-- What `PageTable::Walk` hands back: the returned depth (`-1` is not-found), the
entry left in the out-parameter and the size written through the size pointer. -/
structure WalkResult where
  depth : Int
  entry : Nat
  size : Nat
  deriving DecidableEq, Repr

/-- The loop of `PageTable::Walk` (lines 67-72): `fuel` is `4 - depth`; the result is
the depth and the entry at loop exit. -/
def WalkLoop (mem : Nat → Nat) (addr : Nat) : Nat → Nat → Nat → Nat × Nat
  | 0, depth, entry => (depth, entry)
  | fuel + 1, depth, _ =>
    let entry := mem (GetTableEntry addr depth)
    if entry &&& 0x80 ≠ 0 ∨ entry &&& 1 = 0 then (depth, entry)
    else WalkLoop mem addr fuel (depth + 1) entry

/-- `PageTable::Walk`. -/
def Walk (s : State) (addr : Nat) : Except Halt WalkResult :=
  match entryChecks s with
  | .error h => .error h
  | .ok _ =>
    let r := WalkLoop s.mem addr 4 0 0
    let depth := r.1
    let entry := r.2
    if depth = 4 ∨ entry &&& 0x80 ≠ 0 then
      let depth := if depth = 4 then 3 else depth
      .ok { depth := (depth : Int), entry := entry, size := 0x1000 <<< (27 - 9 * depth) }
    else
      .ok { depth := -1, entry := entry, size := 0x1000 <<< (27 - 9 * depth) }

/-- The loop of `PageTable::Set` over the ancestors (lines 91-107): `fuel` is
`theDepth - depth`.  The boolean is `false` when the loop left through
`return false`. -/
def SetLoop (addr parentMask : Nat) : Nat → Nat → State → Except Halt (Bool × State)
  | 0, _, s => .ok (true, s)
  | fuel + 1, depth, s =>
    let nextPage := s.mem (GetTableEntry addr depth)
    if nextPage &&& 1 = 0 then
      match s.allocator.Alloc with
      | none => .error Halt.panicSetAllocationFailed
      | some (fresh, a) =>
        let m1 := Function.update s.mem (GetTableEntry addr depth) (fresh ||| parentMask)
        let m2 := Bzero m1 (GetTableStart addr (depth + 1)) 0x1000
        SetLoop addr parentMask fuel (depth + 1) { s with mem := m2, allocator := a }
    else if nextPage &&& 0x80 ≠ 0 then .ok (false, s)
    else
      let m1 := Function.update s.mem (GetTableEntry addr depth) (nextPage ||| parentMask)
      SetLoop addr parentMask fuel (depth + 1) { s with mem := m1 }

/-- What `PageTable::Set` hands back: the returned boolean, the boolean behind the
`overwrote` pointer (`none` for a null pointer) and the machine afterwards. -/
structure SetResult where
  ok : Bool
  overwrote : Option Bool
  state : State

/-- `PageTable::Set`.  The argument `overwrote` is the pointer: `none` is `NULL`,
`some b` points at a boolean holding `b`. -/
def Set (s : State) (addr entry parentMask theDepth : Nat) (overwrote : Option Bool) :
    Except Halt SetResult :=
  match entryChecks s with
  | .error h => .error h
  | .ok _ =>
    if ¬ theDepth < 4 then .error Halt.assertDepthRange
    else if addr % (0x1000 <<< (27 - 9 * theDepth)) ≠ 0 then .error Halt.assertAligned
    else
      match SetLoop addr parentMask theDepth 0 s with
      | .error h => .error h
      | .ok (false, s1) => .ok { ok := false, overwrote := overwrote, state := s1 }
      | .ok (true, s1) =>
        let entryRef := s1.mem (GetTableEntry addr theDepth)
        .ok { ok := true
              overwrote := overwrote.map (fun _ => decide (entryRef ≠ 0))
              state := { s1 with mem := Function.update s1.mem (GetTableEntry addr theDepth) entry } }

/-- The first loop of `PageTable::Unset` (lines 121-127): `fuel` is `3 - depth`;
the result is the depth at loop exit. -/
def UnsetLoop (mem : Nat → Nat) (addr : Nat) : Nat → Nat → Except Halt Nat
  | 0, depth => .ok depth
  | fuel + 1, depth =>
    let entry := mem (GetTableEntry addr depth)
    if entry &&& 0x80 ≠ 0 then .ok depth
    else if entry &&& 1 = 0 then .error Halt.panicUnsetNoMapping
    else UnsetLoop mem addr fuel (depth + 1)

/-- The inner loop of `PageTable::Unset` (lines 134-137): no entry of the table at
`tablePtr` is non-zero. -/
def TableEmpty (mem : Nat → Nat) (tablePtr : Nat) : Bool :=
  (List.range 0x200).all (fun i => mem (tablePtr + 8 * i) == 0)

/-- The second loop of `PageTable::Unset` (lines 131-145), from `depth` down to 1. -/
def UnsetPrune (addr : Nat) : Nat → State → State
  | 0, s => s
  | depth + 1, s =>
    let tablePtr := GetTableStart addr (depth + 1)
    if TableEmpty s.mem tablePtr then
      let parentEntry := s.mem (GetTableEntry addr depth)
      let memory := parentEntry &&& 0x7FFFFFFFFFFFF000
      UnsetPrune addr depth
        { s with mem := Function.update s.mem (GetTableEntry addr depth) 0
                 invlpg := (tablePtr, 0x1000) :: s.invlpg
                 allocator := s.allocator.Free memory }
    else s

/-- `PageTable::Unset`. -/
def Unset (s : State) (addr : Nat) : Except Halt (Bool × State) :=
  match entryChecks s with
  | .error h => .error h
  | .ok _ =>
    if addr &&& 0xfff ≠ 0 then .error Halt.assertAligned
    else
      match UnsetLoop s.mem addr 3 0 with
      | .error h => .error h
      | .ok depth =>
        let s1 := { s with mem := Function.update s.mem (GetTableEntry addr depth) 0 }
        .ok (true, UnsetPrune addr depth s1)

/-- The loop of `PageTable::SetList` (lines 158-171), `fuel` pages to go.  `ptr` is the
local pointer `overwrote` (set to `NULL` once an overwrite was seen), `out` is the
boolean of the caller behind the original pointer (`none` when that was `NULL`). -/
def SetListLoop (pageSize parentMask depth : Nat) :
    Nat → Nat → Nat → Option Bool → Option Bool → State → Except Halt (Option Bool × State)
  | 0, _, _, _, out, s => .ok (out, s)
  | fuel + 1, curVirt, curPhys, ptr, out, s =>
    match Set s curVirt curPhys parentMask depth ptr with
    | .error h => .error h
    | .ok r =>
      if r.ok = false then .error Halt.panicSetListSetFailed
      else
        let out := if ptr.isSome then r.overwrote else out
        let ptr := if r.overwrote = some true then none else r.overwrote
        SetListLoop pageSize parentMask depth fuel ((curVirt + pageSize) % 2 ^ 64)
          ((curPhys + pageSize) % 2 ^ 64) ptr out r.state

/-- `PageTable::SetList`: the result is the boolean of the caller behind `overwrote`
after the call, and the machine. -/
def SetList (s : State) (virt phys : Nat) (size : Size) (parentMask : Nat)
    (overwrote : Option Bool) : Except Halt (Option Bool × State) :=
  match entryChecks s with
  | .error h => .error h
  | .ok _ =>
    match CalcDepth size.pageSize with
    | .error h => .error h
    | .ok depth =>
      SetListLoop size.pageSize parentMask depth size.pageCount virt phys overwrote overwrote s

/-- What `PageTable::Read` hands back: the returned boolean and the three
out-parameters (`phys` and `attr` are `none` when the code did not write them). -/
structure ReadResult where
  found : Bool
  phys : Option Nat
  attr : Option Attributes
  size : Nat
  deriving DecidableEq, Repr

/-- `PageTable::Read`, called with three non-null out-pointers. -/
def Read (s : State) (addr : Nat) : Except Halt ReadResult :=
  match entryChecks s with
  | .error h => .error h
  | .ok _ =>
    match Walk s addr with
    | .error h => .error h
    | .ok w =>
      if w.depth < 0 then .ok { found := false, phys := none, attr := none, size := w.size }
      else if w.entry = 0 then .error Halt.assertEntryNonzero
      else if w.depth < 2 then .error Halt.assertDepthAtLeastTwo
      else
        let phys := if w.depth = 3 then w.entry &&& 0x7ffffffffffff000
                    else w.entry &&& 0x7fffffffffe00000
        let attr : Attributes :=
          { executable := decide (w.entry &&& (1 <<< 63) = 0)
            writable := decide (w.entry &&& 2 ≠ 0)
            cachable := true }
        .ok { found := true, phys := some phys, attr := some attr, size := w.size }

/-! ## Definitions used to state the properties -/

/-- The address lies in the last top-level slot (index `0x1ff`), the slot through which
the table maps itself. -/
abbrev InFractalSlot (addr : Nat) : Prop :=
  (addr &&& 0xFFFFFFFFFFFF) / 0x8000000000 = 0x1ff

/-- Every entry on the path of `addr` above depth `k` is present and is not a large page. -/
def AncestorsLinked (mem : Nat → Nat) (addr k : Nat) : Prop :=
  ∀ j, j < k → mem (GetTableEntry addr j) % 2 = 1 ∧ mem (GetTableEntry addr j) / 128 % 2 = 0

/-- A machine with an all-zero memory, the table loaded, and six frames in the pool. -/
def blankMachine : State where
  mem := fun _ => 0
  cr3 := 0x1000
  pml4 := 0x1000
  critical := false
  allocator := { pool := [0x2000, 0x3000, 0x4000, 0x5000, 0x6000, 0x7000], allocated := [], freed := [] }
  invlpg := []

/-- The result of a `Set` that did not halt (a failed `Set` on `s` when it did). -/
def setResultOf (s : State) (x : Except Halt SetResult) : SetResult :=
  match x with
  | .ok r => r
  | .error _ => { ok := false, overwrote := none, state := s }

/-- `Set` followed, when it returned `true`, by `Read` of the same address. -/
def readAfterSet (s : State) (addr entry parentMask theDepth : Nat) : Except Halt ReadResult :=
  match Set s addr entry parentMask theDepth none with
  | .error h => .error h
  | .ok r => if r.ok then Read r.state addr else .ok { found := false, phys := none, attr := none, size := 0 }

/-- A machine in which the address `0x8000000000` lies inside a 1 GiB large page: its
top-level entry is present (read-only), its depth-1 entry has the large-page bit. -/
def largePageMachine : State where
  mem := fun a =>
    if a = GetTableEntry 0x8000000000 0 then 0x2001
    else if a = GetTableEntry 0x8000000000 1 then 0x40000081
    else 0
  cr3 := 0x1000
  pml4 := 0x1000
  critical := false
  allocator := { pool := [0x5000], allocated := [], freed := [] }
  invlpg := []

/-- A machine in which every table on the path of `0x8000000000` is present, the
neighbouring page `0x8000001000` is mapped and `0x8000000000` itself is not. -/
def sparseMachine : State where
  mem := fun a =>
    if a = GetTableEntry 0x8000000000 0 then 0x2007
    else if a = GetTableEntry 0x8000000000 1 then 0x3007
    else if a = GetTableEntry 0x8000000000 2 then 0x4007
    else if a = GetTableEntry 0x8000001000 3 then 0x9003
    else 0
  cr3 := 0x1000
  pml4 := 0x1000
  critical := false
  allocator := { pool := [0x5000], allocated := [0x4000, 0x3000, 0x2000], freed := [] }
  invlpg := []

/-- The result of a 4 KiB `Set` at `0x8000000000` on `largePageMachine`. -/
def blockedSet : SetResult :=
  setResultOf largePageMachine (Set largePageMachine 0x8000000000 0x9003 7 3 none)

/-- The result of mapping `0x8000001000` again on `sparseMachine`. -/
def remapped : SetResult :=
  setResultOf sparseMachine (Set sparseMachine 0x8000001000 0xa003 7 3 (some false))

/-- The mapping of `addr` at depth `D` is in place with leaf entry `v`: every entry on
the path above depth `D` is present, and the entry at depth `D` is `v`. -/
def Installed (mem : Nat → Nat) (addr D v : Nat) : Prop :=
  (∀ j, j < D → mem (GetTableEntry addr j) % 2 = 1) ∧ mem (GetTableEntry addr D) = v

/-- The page size `size` is one `CalcDepth` accepts and `D` is the depth it returns. -/
def SizeDepth (size D : Nat) : Prop :=
  (size = 0x1000 ∧ D = 3) ∨ (size = 0x200000 ∧ D = 2) ∨ (size = 0x40000000 ∧ D = 1)

/-- The flags of the individual `Set` calls of a `SetList` run, in order: the same calls
on the same machines, each with a pointer of its own, and whether each reported an
overwrite. -/
def SetListFlags (pageSize parentMask depth : Nat) :
    Nat → Nat → Nat → State → Except Halt (List Bool)
  | 0, _, _, _ => .ok []
  | fuel + 1, curVirt, curPhys, s =>
    match Set s curVirt curPhys parentMask depth (some false) with
    | .error h => .error h
    | .ok r =>
      if r.ok = false then .error Halt.panicSetListSetFailed
      else
        match SetListFlags pageSize parentMask depth fuel ((curVirt + pageSize) % 2 ^ 64)
            ((curPhys + pageSize) % 2 ^ 64) r.state with
        | .error h => .error h
        | .ok flags => .ok ((r.overwrote == some true) :: flags)

/-- The result of a `SetList` that did not halt (`s` unchanged when it did). -/
def setListResultOf (s : State) (x : Except Halt (Option Bool × State)) : Option Bool × State :=
  match x with
  | .ok r => r
  | .error _ => (none, s)

/-- Three 4 KiB pages mapped at `0x8000000000` on the blank machine. -/
def threePages : Option Bool × State :=
  setListResultOf blankMachine
    (SetList blankMachine 0x8000000000 (0x5000 ||| CalcMask 0x1000 false ⟨false, true, true⟩)
      ⟨0x1000, 3⟩ 7 none)

/-- Three 4 KiB pages mapped at `0x8000000000` on `sparseMachine`, whose second page is
already mapped. -/
def threeOver : Option Bool × State :=
  setListResultOf sparseMachine
    (SetList sparseMachine 0x8000000000 0x5003 ⟨0x1000, 3⟩ 7 (some false))

/-- The frames `Unset` passes to `Free` when it prunes `n` tables below depth `d`: the
addresses held in the parent entries at depths `d - n`, ..., `d - 1`, in the memory
before the call (the log is latest first, so the parent nearest the root comes first). -/
def prunedFrames (mem : Nat → Nat) (addr d n : Nat) : List Nat :=
  (List.range n).map (fun i => mem (GetTableEntry addr (d - n + i)) &&& 0x7FFFFFFFFFFFF000)

/-- The invalidations `Unset` requests when it prunes `n` tables below depth `d`: one
page for each pruned table, at depths `d - n + 1`, ..., `d`, latest first. -/
def prunedInvlpg (addr d n : Nat) : List (Nat × Nat) :=
  (List.range n).map (fun i => (GetTableStart addr (d - n + i + 1), 0x1000))

/-- A machine with a single 4 KiB mapping, at `0x8000000000`, and the three tables that
lead to it. -/
def singleMapping : State where
  mem := fun a =>
    if a = GetTableEntry 0x8000000000 0 then 0x2007
    else if a = GetTableEntry 0x8000000000 1 then 0x3007
    else if a = GetTableEntry 0x8000000000 2 then 0x4007
    else if a = GetTableEntry 0x8000000000 3 then 0x9003
    else 0
  cr3 := 0x1000
  pml4 := 0x1000
  critical := false
  allocator := { pool := [0x5000], allocated := [0x4000, 0x3000, 0x2000], freed := [] }
  invlpg := []

/-- The result of an `Unset` that did not halt (`s` unchanged when it did). -/
def unsetResultOf (s : State) (x : Except Halt (Bool × State)) : Bool × State :=
  match x with
  | .ok r => r
  | .error _ => (false, s)

/-- The result of unmapping the only page of `singleMapping`. -/
def unmappedSingle : Bool × State :=
  unsetResultOf singleMapping (Unset singleMapping 0x8000000000)

/-- The loop of `PageTable::FreeTableRecursive` (lines 247-252) over the entries
`start <= i < end` of the table frame at `addr`, with `rec` the recursive call on a
sub-table.  `phys` is the physical memory, which the code reads through an `EasyMap`
window on the frame: `entries[i]` is the word at `addr + 8 * i`. -/
def FreeTableEntries (phys : Nat → Nat) (rec : Nat → Allocator → Allocator)
    (addr start count : Nat) (a : Allocator) : Allocator :=
  (List.range' start count).foldl
    (fun acc i =>
      let entry := phys (addr + 8 * i)
      if entry = 0 ∨ entry &&& 0x80 ≠ 0 then acc
      else rec (entry &&& 0x7FFFFFFFFFFFF000) acc)
    a

/-- Modelled from the spec: the default argument of `start` in
`FreeTableRecursive(phys, depth + 1)`, declared in `page-table.hpp` (not among the
sources); the teardown of a sub-table starts at its first entry. -/
def defaultStart : Nat := 0

/-- Modelled from the spec: the default argument of `end` in
`FreeTableRecursive(phys, depth + 1)`, declared in `page-table.hpp` (not among the
sources); the teardown of a sub-table goes through all 512 entries. -/
def defaultEnd : Nat := 0x200

/-- `PageTable::FreeTableRecursive(addr, depth, start, end)` with `levels = 3 - depth`. -/
def FreeTableRecursive (phys : Nat → Nat) : Nat → Nat → Nat → Nat → Allocator → Allocator
  | 0, addr, _, _, a => a.Free addr
  | levels + 1, addr, start, end_, a =>
    (FreeTableEntries phys
      (fun sub acc => FreeTableRecursive phys levels sub defaultStart defaultEnd acc)
      addr start (end_ - start) a).Free addr

/-- `PageTable::FreeTable(start)` on the physical memory `phys`.  The check
`AssertNoncritical()` that every recursive call repeats is made once: nothing in the
teardown changes the critical flag. -/
def FreeTable (phys : Nat → Nat) (s : State) (start : Nat) : Except Halt State :=
  if s.critical then .error Halt.assertNoncritical
  else if IsSet s then .error Halt.assertNotIsSet
  else .ok { s with allocator := FreeTableRecursive phys 3 s.pml4 start 0x1ff s.allocator }

/-- Modelled from the spec: `MemoryMap::Size::Bytes()`, declared in
`anarch/api/memory-map` (not among the sources); a range of `pageCount` pages has
`pageSize * pageCount` bytes. -/
def Size.Bytes (size : Size) : Nat :=
  (size.pageSize * size.pageCount) % 2 ^ 64

end PageTable

namespace UserMap

open PageTable

/-- `UserMap::DistInvlpg`: the request is handed to `Tlb::DistributeInvlpg`, whose code
is not among the sources and which is modelled as the log `invlpg`. -/
def DistInvlpg (s : State) (start size : Nat) : State :=
  { s with invlpg := (start, size) :: s.invlpg }

/-- `UserMap::MapAt` on the page table of the space (the lock it holds orders callers
and has no effect on a single caller).  `kernelEnd` is the constant
`PageTable::KernelEnd` (declared in `page-table.hpp`, not among the sources);
`uninit` is the indeterminate initial value of the local `bool overwrote`. -/
def MapAt (kernelEnd : Nat) (uninit : Bool) (s : State) (addr phys : Nat) (size : Size)
    (attributes : Attributes) : Except Halt State :=
  if s.critical then .error Halt.assertNoncritical
  else if ¬ (kernelEnd ≤ addr ∧ kernelEnd ≤ (addr + size.Bytes) % 2 ^ 64) then
    .error Halt.assertAboveKernelEnd
  else
    let mask := CalcMask size.pageSize false attributes
    match SetList s addr (phys ||| mask) size 7 (some uninit) with
    | .error h => .error h
    | .ok (overwrote, s1) =>
      if overwrote = some true then .ok (DistInvlpg s1 addr size.Bytes) else .ok s1

/-- The destructor `UserMap::~UserMap`: `table.FreeTable(1)`. -/
def Destroy (phys : Nat → Nat) (s : State) : Except Halt State :=
  FreeTable phys s 1

end UserMap

namespace PageTable

/-- The physical memory as far as the table frames listed in `frames` go: each pair is
a frame and the window page through which the active table `view` shows it. -/
def frameImage (view : Nat → Nat) (frames : List (Nat × Nat)) : Nat → Nat :=
  fun p =>
    match frames.find? (fun fw => decide (fw.1 ≤ p ∧ p < fw.1 + 0x1000)) with
    | some fw => view (fw.2 + (p - fw.1))
    | none => 0

/-- An address space right after its construction and activation: root frame `0x1000`
obtained from the allocator, top-level entry 0 the kernel table (here at `0x100000`),
top-level entry `0x1ff` the root itself, all else zero. -/
def freshSpace : State where
  mem := fun a =>
    if a = 0xFFFFFFFFFFFFF000 then 0x100003
    else if a = 0xFFFFFFFFFFFFFFF8 then 0x1003
    else 0
  cr3 := 0x1000
  pml4 := 0x1000
  critical := false
  allocator := { pool := [0x2000, 0x3000, 0x4000, 0x5000], allocated := [0x1000], freed := [] }
  invlpg := []

/-- `freshSpace` after `MapAt` of one 4 KiB page at `0x8000000000` and then `MapAt` of
one 2 MiB page at the same address. -/
def smallThenLarge : Except Halt State :=
  match UserMap.MapAt 0x8000000000 false freshSpace 0x8000000000 0x9000 ⟨0x1000, 1⟩
      ⟨false, true, true⟩ with
  | .error h => .error h
  | .ok s1 =>
    UserMap.MapAt 0x8000000000 false s1 0x8000000000 0x600000 ⟨0x200000, 1⟩ ⟨false, true, true⟩

/-- The table frames reachable from the root of `s` along the path of `0x8000000000`
down to its page directory, each with the window page that shows it: the frame held in
the entry at depth `k` is the table seen through the window of depth `k + 1`. -/
def pathTables (s : State) : List (Nat × Nat) :=
  [ (s.pml4, GetTableStart 0x8000000000 0),
    (s.mem (GetTableEntry 0x8000000000 0) &&& 0x7FFFFFFFFFFFF000, GetTableStart 0x8000000000 1),
    (s.mem (GetTableEntry 0x8000000000 1) &&& 0x7FFFFFFFFFFFF000, GetTableStart 0x8000000000 2) ]

/-- The scenario of `smallThenLarge` followed by a switch to another address space and
the destruction of this one. -/
def smallThenLargeDestroyed : Except Halt State :=
  match smallThenLarge with
  | .error h => .error h
  | .ok s2 =>
    UserMap.Destroy (frameImage s2.mem (pathTables s2)) { s2 with cr3 := 0x200000 }

/-- The mapping of `addr` at depth `D` is in place with leaf entry `v` and can be walked:
every entry on the path above depth `D` is present and not large, and the entry at depth
`D` is `v`. -/
def Reachable (mem : Nat → Nat) (addr D v : Nat) : Prop :=
  AncestorsLinked mem addr D ∧ mem (GetTableEntry addr D) = v

/-- The depth at which the reference walk of the specification ends: the smallest depth
in `0..3` whose entry on the path of `addr` is absent or has the large-page bit, or `3`
if there is none. -/
def firstStop (mem : Nat → Nat) (addr : Nat) : Nat :=
  if mem (GetTableEntry addr 0) &&& 1 = 0 ∨ mem (GetTableEntry addr 0) &&& 0x80 ≠ 0 then 0
  else if mem (GetTableEntry addr 1) &&& 1 = 0 ∨ mem (GetTableEntry addr 1) &&& 0x80 ≠ 0 then 1
  else if mem (GetTableEntry addr 2) &&& 1 = 0 ∨ mem (GetTableEntry addr 2) &&& 0x80 ≠ 0 then 2
  else 3

/-- The reference walk in the words of the specification: not-found (`-1`) exactly when
the entry at depth `firstStop` is absent, otherwise that depth; with the entry and the
size `4 KiB << 9 * (3 - d)`. -/
def referenceWalk (mem : Nat → Nat) (addr : Nat) : WalkResult :=
  let d := firstStop mem addr
  let e := mem (GetTableEntry addr d)
  { depth := if e &&& 1 = 0 then -1 else (d : Int)
    entry := e
    size := 0x1000 <<< (9 * (3 - d)) }

/-- The reference walk as the code has it: not-found (`-1`) exactly when the entry at depth
`firstStop` is absent and does not have the large-page bit. -/
def referenceWalkLargeFirst (mem : Nat → Nat) (addr : Nat) : WalkResult :=
  let d := firstStop mem addr
  let e := mem (GetTableEntry addr d)
  { depth := if e &&& 1 = 0 ∧ e &&& 0x80 = 0 then -1 else (d : Int)
    entry := e
    size := 0x1000 <<< (9 * (3 - d)) }

/-- A machine whose top-level entry for `0x8000000000` has the large-page bit and not the
present bit. -/
def absentLargeMachine : State where
  mem := fun a => if a = GetTableEntry 0x8000000000 0 then 0x80 else 0
  cr3 := 0x1000
  pml4 := 0x1000
  critical := false
  allocator := { pool := [], allocated := [], freed := [] }
  invlpg := []

/-- The base address of the self-referential window of depth `d`, in the words of the
specification. -/
def windowBase (d : Nat) : Nat :=
  if d = 0 then 0xFFFFFFFFFFFFF000
  else if d = 1 then 0xFFFFFFFFFFE00000
  else if d = 2 then 0xFFFFFFFFC0000000
  else 0xFFFFFF8000000000

/-- The values the individual `Set` calls of a `SetList` run replace, in order: for each
page, the word in the slot of its entry immediately before `Set` writes it (that is, in the
machine the ancestor loop of that `Set` leaves). -/
def SetListReplaced (pageSize parentMask depth : Nat) :
    Nat → Nat → Nat → State → Except Halt (List Nat)
  | 0, _, _, _ => .ok []
  | fuel + 1, curVirt, curPhys, s =>
    match SetLoop curVirt parentMask depth 0 s with
    | .error h => .error h
    | .ok (_, s1) =>
      match Set s curVirt curPhys parentMask depth none with
      | .error h => .error h
      | .ok r =>
        if r.ok = false then .error Halt.panicSetListSetFailed
        else
          match SetListReplaced pageSize parentMask depth fuel ((curVirt + pageSize) % 2 ^ 64)
              ((curPhys + pageSize) % 2 ^ 64) r.state with
          | .error h => .error h
          | .ok old => .ok (s1.mem (GetTableEntry curVirt depth) :: old)

/-- The machine after a `MapAt` that did not halt (`s` unchanged when it did). -/
def mapAtResultOf (s : State) (x : Except Halt State) : State :=
  match x with
  | .ok r => r
  | .error _ => s

/-- `freshSpace` after `MapAt` of one 4 KiB page at `0x8000000000`. -/
def onePageSpace : State :=
  mapAtResultOf freshSpace
    (UserMap.MapAt 0x8000000000 false freshSpace 0x8000000000 0x9000 ⟨0x1000, 1⟩
      ⟨false, true, true⟩)

/-- `onePageSpace` after `MapAt` of two 4 KiB pages at `0x8000000000`, the first of which
is mapped already. -/
def twoPagesOver : State :=
  mapAtResultOf onePageSpace
    (UserMap.MapAt 0x8000000000 false onePageSpace 0x8000000000 0xa000 ⟨0x1000, 2⟩
      ⟨false, true, true⟩)

end PageTable

namespace UserMap

open PageTable

/-- What a kernel copy helper did when it returned: the byte copy `Memcpy(dest, src, size)`,
or the call `delegate(addr, isWrite)` of the registered page-fault delegate. -/
inductive CopyOutcome where
  | copied (dest src size : Nat)
  | delegated (addr : Nat) (isWrite : Bool)
  deriving DecidableEq, Repr

/-- `UserMap::CopyToKernel(dest, start, size)`.  `kernelEnd` is `PageTable::KernelEnd`,
`delegate` tells whether `GetGlobalPageDelegate()` is non-null; `start + size` is a 64-bit
sum. -/
def CopyToKernel (kernelEnd : Nat) (delegate : Bool) (dest start size : Nat) :
    Except Halt CopyOutcome :=
  if (start + size) % 2 ^ 64 < start ∨ start < kernelEnd then
    if ¬ delegate then .error Halt.panicCopyToKernelNoDelegate
    else .ok (.delegated start false)
  else .ok (.copied dest start size)

/-- `UserMap::CopyFromKernel(dest, start, size)`, with the parameters of `CopyToKernel`. -/
def CopyFromKernel (kernelEnd : Nat) (delegate : Bool) (dest start size : Nat) :
    Except Halt CopyOutcome :=
  if (dest + size) % 2 ^ 64 < dest ∨ dest < kernelEnd then
    if ¬ delegate then .error Halt.panicCopyFromKernelNoDelegate
    else .ok (.delegated dest true)
  else .ok (.copied dest start size)

/-- The address lies in the always-mapped kernel region, the addresses below
`PageTable::KernelEnd`. -/
def InKernelRegion (kernelEnd addr : Nat) : Prop := addr < kernelEnd

instance (kernelEnd addr : Nat) : Decidable (InKernelRegion kernelEnd addr) :=
  inferInstanceAs (Decidable (addr < kernelEnd))

end UserMap

namespace PageTable

end PageTable

namespace UserMap

open PageTable

/-- Modelled from the spec: a run of free addresses, `start <= x < start + size`. -/
structure Region where
  start : Nat
  size : Nat
  deriving DecidableEq, Repr

/-- Modelled from the spec: the free-list allocator of an address space (`FreeList`, not
among the sources), "a set of addresses that Alloc/AllocAt remove from and Free adds to",
kept as the list of the regions that make it up, latest release first. -/
structure FreeList where
  regions : List Region
  deriving DecidableEq, Repr

/-- The address `x` lies in the region. -/
def Region.Has (r : Region) (x : Nat) : Prop := r.start ≤ x ∧ x < r.start + r.size

instance (r : Region) (x : Nat) : Decidable (r.Has x) :=
  inferInstanceAs (Decidable (r.start ≤ x ∧ x < r.start + r.size))

/-- The address `x` is in the free list. -/
def FreeList.Has (l : FreeList) (x : Nat) : Prop := ∃ r, r ∈ l.regions ∧ r.Has x

instance (l : FreeList) (x : Nat) : Decidable (l.Has x) :=
  inferInstanceAs (Decidable (∃ r, r ∈ l.regions ∧ r.Has x))

/-- Modelled from the spec: `FreeList::Free(addr, pageSize, pageCount)` adds the addresses of
the extent of `pageCount` pages of `pageSize` bytes at `addr` to the set. -/
def FreeList.Free (l : FreeList) (addr pageSize pageCount : Nat) : FreeList :=
  { regions := { start := addr, size := pageSize * pageCount } :: l.regions }

/-- What is left of a region once the addresses `a <= x < b` are taken out of it. -/
def Region.cut (r : Region) (a b : Nat) : List Region :=
  (if r.start < min a (r.start + r.size) then
    [{ start := r.start, size := min a (r.start + r.size) - r.start }] else []) ++
  (if max b r.start < r.start + r.size then
    [{ start := max b r.start, size := r.start + r.size - max b r.start }] else [])

/-- The free list without the addresses `a <= x < b`. -/
def FreeList.remove (l : FreeList) (a b : Nat) : FreeList :=
  { regions := (l.regions.map (fun r => r.cut a b)).flatten }

/-- Modelled from the spec: `FreeList::AllocAt(addr, pageSize, pageCount)` succeeds when one
region of the list holds the whole extent, and then removes the extent from the set. -/
def FreeList.AllocAt (l : FreeList) (addr pageSize pageCount : Nat) : Bool × FreeList :=
  if l.regions.any (fun r =>
      decide (r.start ≤ addr ∧ addr + pageSize * pageCount ≤ r.start + r.size)) then
    (true, l.remove addr (addr + pageSize * pageCount))
  else (false, l)

/-- The first address at or above `start` that is a multiple of `pageSize`. -/
def alignUp (start pageSize : Nat) : Nat :=
  if pageSize = 0 then start else (start + pageSize - 1) / pageSize * pageSize

/-- Modelled from the spec: `FreeList::Alloc(pageSize, pageCount)`, first fit: the extent is
taken at the first `pageSize`-aligned address of the first region that has room for it, and
removed from the set; the result is `0`, with the list unchanged, when no region has room. -/
def FreeList.Alloc (l : FreeList) (pageSize pageCount : Nat) : Nat × FreeList :=
  match l.regions.find? (fun r =>
      decide (alignUp r.start pageSize ≠ 0 ∧
        alignUp r.start pageSize + pageSize * pageCount ≤ r.start + r.size)) with
  | some r =>
    (alignUp r.start pageSize,
      l.remove (alignUp r.start pageSize) (alignUp r.start pageSize + pageSize * pageCount))
  | none => (0, l)

/-- An address space (`UserMap`): the page table it owns, here with the machine the table
lives on, and its free list. -/
structure Space where
  table : State
  freeList : FreeList

/-- The free list the constructor `UserMap::UserMap` leaves (lines 65-69): two calls of
`Free` on the empty list. -/
def seedFreeList (kernelEnd : Nat) : FreeList :=
  (FreeList.Free (FreeList.Free { regions := [] } kernelEnd 0x8000000000 0xff)
    0xFFFF800000000000 0x800000000 0xff)

/-- The loop of `UserMap::Unmap` (lines 127-132), `fuel` pages to go. -/
def UnmapLoop (pageSize : Nat) : Nat → Nat → State → Except Halt State
  | 0, _, s => .ok s
  | fuel + 1, next, s =>
    match Unset s next with
    | .error h => .error h
    | .ok (ok, s1) =>
      if ok = false then .error Halt.panicUnmapUnsetFailed
      else UnmapLoop pageSize fuel ((next + pageSize) % 2 ^ 64) s1

/-- `UserMap::Unmap`. -/
def Unmap (u : Space) (addr : Nat) (size : Size) : Except Halt Space :=
  if u.table.critical then .error Halt.assertNoncritical
  else
    match UnmapLoop size.pageSize size.pageCount addr u.table with
    | .error h => .error h
    | .ok t =>
      .ok { table := DistInvlpg t addr size.Bytes
            freeList := u.freeList.Free addr size.pageSize size.pageCount }

/-- The loop of `UserMap::UnmapAndReserve` (lines 143-148), `fuel` pages to go. -/
def UnmapAndReserveLoop (pageSize : Nat) : Nat → Nat → State → Except Halt State
  | 0, _, s => .ok s
  | fuel + 1, next, s =>
    match Unset s next with
    | .error h => .error h
    | .ok (ok, s1) =>
      if ok = false then .error Halt.panicUnmapUnsetFailed
      else UnmapAndReserveLoop pageSize fuel ((next + pageSize) % 2 ^ 64) s1

/-- `UserMap::UnmapAndReserve`. -/
def UnmapAndReserve (u : Space) (addr : Nat) (size : Size) : Except Halt Space :=
  if u.table.critical then .error Halt.assertNoncritical
  else
    match UnmapAndReserveLoop size.pageSize size.pageCount addr u.table with
    | .error h => .error h
    | .ok t => .ok { u with table := DistInvlpg t addr size.Bytes }

/-- `UserMap::Map`: the returned boolean, the address left in the reference parameter
`addr`, and the space. -/
def Map (kernelEnd : Nat) (u : Space) (phys : Nat) (size : Size) (attributes : Attributes) :
    Except Halt (Bool × Nat × Space) :=
  if u.table.critical then .error Halt.assertNoncritical
  else
    let alloc := u.freeList.Alloc size.pageSize size.pageCount
    if alloc.1 = 0 then .ok (false, 0, { u with freeList := alloc.2 })
    else if ¬ kernelEnd ≤ alloc.1 then .error Halt.assertAboveKernelEnd
    else
      let mask := CalcMask size.pageSize false attributes
      match SetList u.table alloc.1 (phys ||| mask) size 7 none with
      | .error h => .error h
      | .ok (_, t) => .ok (true, alloc.1, { table := t, freeList := alloc.2 })

/-- `UserMap::Reserve`: the returned boolean, the address left in `addr`, and the space. -/
def Reserve (u : Space) (size : Size) : Except Halt (Bool × Nat × Space) :=
  if u.table.critical then .error Halt.assertNoncritical
  else
    let alloc := u.freeList.Alloc size.pageSize size.pageCount
    .ok (decide (alloc.1 ≠ 0), alloc.1, { u with freeList := alloc.2 })

/-- `UserMap::ReserveAt`. -/
def ReserveAt (kernelEnd : Nat) (u : Space) (addr : Nat) (size : Size) : Except Halt Space :=
  if ¬ kernelEnd ≤ addr then .error Halt.assertAboveKernelEnd
  else if ¬ kernelEnd ≤ (addr + size.Bytes) % 2 ^ 64 then .error Halt.assertAboveKernelEnd
  else
    let alloc := u.freeList.AllocAt addr size.pageSize size.pageCount
    if alloc.1 = false then .error Halt.panicReserveAtFailed
    else .ok { u with freeList := alloc.2 }

/-- `UserMap::Unreserve`. -/
def Unreserve (u : Space) (addr : Nat) (size : Size) : Except Halt Space :=
  if u.table.critical then .error Halt.assertNoncritical
  else .ok { u with freeList := u.freeList.Free addr size.pageSize size.pageCount }

end UserMap

namespace PageTable

/-- The path of `x` ends on a zero entry: some entry at a depth `d <= 3` is zero and every
entry above it is either zero or present and not large, so that the walk of `x` stops on
a zero entry. -/
def Cleared (mem : Nat → Nat) (x : Nat) : Prop :=
  ∃ d, d ≤ 3 ∧ mem (GetTableEntry x d) = 0 ∧
    ∀ j, j < d → (mem (GetTableEntry x j) % 2 = 1 ∧ mem (GetTableEntry x j) / 128 % 2 = 0) ∨
      mem (GetTableEntry x j) = 0

/-- The result of mapping the 4 KiB page `0x8000200000` on `sparseMachine`: the two upper
tables on its path exist, the third is allocated. -/
def newTableSet : SetResult :=
  setResultOf sparseMachine (Set sparseMachine 0x8000200000 0xb003 7 3 none)

/-- The result of a 4 KiB `Set` at `0xFFFFFFFFFFFFF000`, the page of the self-referential
slot whose four path entries are one and the same word, on `freshSpace`. -/
def fractalSet : SetResult :=
  setResultOf freshSpace (Set freshSpace 0xFFFFFFFFFFFFF000 0x5003 7 3 none)

/-- The test of the teardown loop (line 249): the entry is followed into a sub-table when
it is non-zero and has no large-page bit. -/
def followedByTeardown (entry : Nat) : Bool :=
  decide (¬ (entry = 0 ∨ entry &&& 0x80 ≠ 0))

/-- The entry is present and is not a large page. -/
def presentNonLarge (entry : Nat) : Bool :=
  decide (entry &&& 1 ≠ 0 ∧ entry &&& 0x80 = 0)

/-- The frame a path of entry indices leads to, from the table frame `addr`. -/
def frameAt (phys : Nat → Nat) : Nat → List Nat → Nat
  | addr, [] => addr
  | addr, i :: p => frameAt phys (phys (addr + 8 * i) &&& 0x7FFFFFFFFFFFF000) p

/-- The path `p` of entry indices leads from the table frame `addr`, which has `levels`
levels of tables below it, to a table frame through entries that pass the test `follow`;
its first index lies in `start <= i < end_`, the others in `0 <= i < 0x200`. -/
def PathOf (follow : Nat → Bool) (phys : Nat → Nat) :
    Nat → Nat → Nat → Nat → List Nat → Prop
  | _, _, _, _, [] => True
  | 0, _, _, _, _ :: _ => False
  | levels + 1, addr, start, end_, i :: p =>
    start ≤ i ∧ i < end_ ∧ follow (phys (addr + 8 * i)) = true ∧
      PathOf follow phys levels (phys (addr + 8 * i) &&& 0x7FFFFFFFFFFFF000) 0 0x200 p

/-- The tree below the root frame is well formed for the test `follow`: the entries that
pass the test at depths 0-2, the top-level entry `0x1ff` apart, point to distinct table
frames, none of which is the root (two different paths never lead to the same frame). -/
def DistinctTables (follow : Nat → Bool) (phys : Nat → Nat) (root : Nat) : Prop :=
  ∀ p q, PathOf follow phys 3 root 0 0x1ff p → PathOf follow phys 3 root 0 0x1ff q →
    frameAt phys root p = frameAt phys root q → p = q

/-- The paths the teardown goes through from the table frame `addr`, in the order in which
it frees the frames they lead to: for each entry `start <= i < start + count` that is
followed, the paths through the sub-table, then the empty path (the table itself). -/
def tablePaths (phys : Nat → Nat) : Nat → Nat → Nat → Nat → List (List Nat)
  | 0, _, _, _ => [[]]
  | levels + 1, addr, start, count =>
    ((List.range' start count).map (fun i =>
      if followedByTeardown (phys (addr + 8 * i)) then
        (tablePaths phys levels (phys (addr + 8 * i) &&& 0x7FFFFFFFFFFFF000) 0 0x200).map
          (fun p => i :: p)
      else [])).flatten ++ [[]]

/-- A physical memory with a root table at `0x1000` whose entry 1 is present and points to
the empty table `0x2000` and whose entry 2 is not present but holds the same address. -/
def aliasedAbsentEntry : Nat → Nat :=
  fun a => if a = 0x1008 then 0x2007 else if a = 0x1010 then 0x2006 else 0

/-- An address space with its root table at `0x1000` that is not the active one (`cr3`
holds another root), with two table frames obtained from the allocator. -/
def inactiveSpace : State where
  mem := fun _ => 0
  cr3 := 0x200000
  pml4 := 0x1000
  critical := false
  allocator := { pool := [], allocated := [0x2000, 0x1000], freed := [] }
  invlpg := []

/-- A physical memory with a root table at `0x1000` whose entry 1 points to the empty
table `0x2000` and whose entry `0x1ff` points to the root itself. -/
def oneTableTree : Nat → Nat :=
  fun a => if a = 0x1008 then 0x2007 else if a = 0x1ff8 then 0x1003 else 0

/-- The address `x` has a mapping in the table: its path goes through present entries that
are not large down to an entry at a depth `d` that has the large-page bit or, at depth 3,
is present (the condition under which `Walk` reports a depth `>= 0`). -/
def Mapped (mem : Nat → Nat) (x : Nat) : Prop :=
  ∃ d, d ≤ 3 ∧ AncestorsLinked mem x d ∧
    (mem (GetTableEntry x d) / 128 % 2 = 1 ∨ (d = 3 ∧ mem (GetTableEntry x 3) % 2 = 1))

/-- The address is a canonical 64-bit address: bits 48-63 repeat bit 47. -/
def Canonical (x : Nat) : Prop :=
  x < 0x800000000000 ∨ (0xFFFF800000000000 ≤ x ∧ x < 2 ^ 64)

/-- The address is canonical and lies outside the self-referential slot. -/
def UserAddress (x : Nat) : Prop := Canonical x ∧ ¬ InFractalSlot x

/-- Every address of the extent `addr <= x < addr + bytes` is a `UserAddress`. -/
def UserExtent (addr bytes : Nat) : Prop :=
  ∀ x, addr ≤ x → x < addr + bytes → UserAddress x

end PageTable

namespace UserMap

open PageTable

/-- The operations of an address space that change it. -/
inductive Op where
  | map (phys : Nat) (size : Size) (attributes : Attributes)
  | mapAt (addr phys : Nat) (size : Size) (attributes : Attributes) (uninit : Bool)
  | unmap (addr : Nat) (size : Size)
  | unmapAndReserve (addr : Nat) (size : Size)
  | reserve (size : Size)
  | reserveAt (addr : Nat) (size : Size)
  | unreserve (addr : Nat) (size : Size)

/-- One operation on the space. -/
def step (kernelEnd : Nat) (u : Space) : Op → Except Halt Space
  | .map phys size attributes =>
    match Map kernelEnd u phys size attributes with
    | .error h => .error h
    | .ok r => .ok r.2.2
  | .mapAt addr phys size attributes uninit =>
    match MapAt kernelEnd uninit u.table addr phys size attributes with
    | .error h => .error h
    | .ok t => .ok { u with table := t }
  | .unmap addr size => Unmap u addr size
  | .unmapAndReserve addr size => UnmapAndReserve u addr size
  | .reserve size =>
    match Reserve u size with
    | .error h => .error h
    | .ok r => .ok r.2.2
  | .reserveAt addr size => ReserveAt kernelEnd u addr size
  | .unreserve addr size => Unreserve u addr size

/-- A sequence of operations, stopping at the first fatal halt. -/
def run (kernelEnd : Nat) : Space → List Op → Except Halt Space
  | u, [] => .ok u
  | u, op :: ops =>
    match step kernelEnd u op with
    | .error h => .error h
    | .ok u1 => run kernelEnd u1 ops

/-- What the caller of an operation has to see to for the joint invariant to survive it:
`MapAt` on an extent of user addresses none of which is free; `Unmap` of an extent of user
addresses, aligned to a page size `CalcDepth` accepts, none of whose pages is covered by a
table of smaller pages; `Unreserve` of an extent of user addresses none of which is
mapped.  The other operations need nothing. -/
def Op.Safe (u : Space) : Op → Prop
  | .mapAt addr _ size _ _ =>
    UserExtent addr (size.pageSize * size.pageCount) ∧
    ∀ x, addr ≤ x → x < addr + size.pageSize * size.pageCount → ¬ u.freeList.Has x
  | .unmap addr size =>
    UserExtent addr (size.pageSize * size.pageCount) ∧ addr % size.pageSize = 0 ∧
    ∃ D, CalcDepth size.pageSize = .ok D ∧
      ∀ i, i < size.pageCount → D = 3 ∨
        ¬ (u.table.mem (GetTableEntry (addr + i * size.pageSize) D) % 2 = 1 ∧
          u.table.mem (GetTableEntry (addr + i * size.pageSize) D) / 128 % 2 = 0)
  | .unreserve addr size =>
    UserExtent addr (size.pageSize * size.pageCount) ∧
    ∀ x, addr ≤ x → x < addr + size.pageSize * size.pageCount → ¬ Mapped u.table.mem x
  | _ => True

/-- Every operation of the sequence is `Safe` on the space it is applied to. -/
def SafeRun (kernelEnd : Nat) : Space → List Op → Prop
  | _, [] => True
  | u, op :: ops =>
    op.Safe u ∧ ∀ u1, step kernelEnd u op = .ok u1 → SafeRun kernelEnd u1 ops

/-- The joint invariant of an address space: no mapped address is in the free list; with
it, that the free list holds user addresses only and that the frames the allocator hands
out are 4 KiB-aligned. -/
structure Inv (u : Space) : Prop where
  disjoint : ∀ x, Mapped u.table.mem x → ¬ u.freeList.Has x
  freeUser : ∀ x, u.freeList.Has x → UserAddress x
  poolAligned : ∀ f, f ∈ u.table.allocator.pool → f % 0x1000 = 0

/-- A space as the constructor `UserMap::UserMap` leaves it, seen once it is the active
one, with the kernel region ending at `0x8000000000`: the free list is the seeded one and
the top-level entries 1 to `0x1fe` are zero. -/
def Fresh (u : Space) : Prop :=
  u.freeList = seedFreeList 0x8000000000 ∧
  (∀ f, f ∈ u.table.allocator.pool → f % 0x1000 = 0) ∧
  ∀ i, 1 ≤ i → i < 0x1ff → u.table.mem (0xFFFFFFFFFFFFF000 + 8 * i) = 0

/-- The space made of `freshSpace` and the seeded free list. -/
def newSpace : Space where
  table := freshSpace
  freeList := seedFreeList 0x8000000000

/-- The space after a `run` that did not halt (`u` unchanged when it did). -/
def spaceAfter (u : Space) (x : Except Halt Space) : Space :=
  match x with
  | .ok v => v
  | .error _ => u

end UserMap

namespace PageTable

end PageTable

namespace UserMap

open PageTable

/-- The space after `MapAt` of one 4 KiB page at `0x8000000000`, an address `newSpace` has
in its free list. -/
def mappedWhileFree : Space :=
  spaceAfter newSpace
    (run 0x8000000000 newSpace
      [Op.mapAt 0x8000000000 0x9000 ⟨0x1000, 1⟩ ⟨false, true, true⟩ false])

/-- One 4 KiB page mapped with `Map` and unmapped again with `Unmap`. -/
def mapThenUnmap : List Op :=
  [Op.map 0x9000 ⟨0x1000, 1⟩ ⟨false, true, true⟩, Op.unmap 0xFFFF800000000000 ⟨0x1000, 1⟩]

end UserMap

namespace PageTable

/-- The result of `Unset(0xFFFFFFFFFFFFF000)`, the page of the self-referential slot whose
four path entries are one and the same word, on `freshSpace`. -/
def fractalUnset : Bool × State :=
  unsetResultOf freshSpace (Unset freshSpace 0xFFFFFFFFFFFFF000)

-- The definitions end here; the lemmas and the theorems on the claims follow.

/-! ## Bit masks as arithmetic -/

theorem testBit_pow_sub_pow (lo hi i : Nat) (h : lo ≤ hi) :
    (2 ^ hi - 2 ^ lo).testBit i = (decide (i < hi) && !decide (i < lo)) := by
  have h1 : 2 ^ lo - 1 < 2 ^ hi := by
    have : 2 ^ lo ≤ 2 ^ hi := Nat.pow_le_pow_right (by decide) h
    have : 0 < 2 ^ lo := Nat.two_pow_pos lo
    omega
  have h2 := Nat.testBit_two_pow_sub_succ h1 i
  have h3 : 2 ^ lo - 1 + 1 = 2 ^ lo := by
    have : 0 < 2 ^ lo := Nat.two_pow_pos lo
    omega
  rw [h3] at h2
  rw [h2, Nat.testBit_two_pow_sub_one]

theorem and_range (x lo hi : Nat) (h : lo ≤ hi) :
    x &&& (2 ^ hi - 2 ^ lo) = 2 ^ lo * (x % 2 ^ hi / 2 ^ lo) := by
  apply Nat.eq_of_testBit_eq
  intro i
  rw [Nat.testBit_and, testBit_pow_sub_pow lo hi i h, Nat.testBit_mul_pow_two,
    ← Nat.shiftRight_eq_div_pow, Nat.testBit_shiftRight, Nat.testBit_mod_two_pow]
  by_cases h1 : i < lo
  · simp [h1]
  · have h2 : lo + (i - lo) = i := by omega
    simp [h1, h2, Nat.le_of_not_lt h1]
    by_cases h3 : i < hi <;> simp [h3]

theorem and_ffffffffffff (x : Nat) : x &&& 0xFFFFFFFFFFFF = x % 0x1000000000000 := by
  have := and_range x 0 48 (by decide)
  simpa using this

theorem and_not7 (x : Nat) : x &&& 0xFFFFFFFFFFFFFFF8 = 8 * (x % 0x10000000000000000 / 8) := by
  have := and_range x 3 64 (by decide)
  simpa using this

theorem and_notfff (x : Nat) : x &&& 0xFFFFFFFFFFFFF000 = 4096 * (x % 0x10000000000000000 / 4096) := by
  have := and_range x 12 64 (by decide)
  simpa using this

theorem and_80 (x : Nat) : x &&& 0x80 = 128 * (x / 128 % 2) := by
  have := and_range x 7 8 (by decide)
  norm_num at this
  omega


theorem GetTableEntry_zero (a : Nat) :
    GetTableEntry a 0 = 0xFFFFFFFFFFFFF000 + 8 * (a % 0x1000000000000 / 0x8000000000) := by
  simp only [GetTableEntry, and_ffffffffffff, and_not7]
  simp
  omega

theorem GetTableEntry_one (a : Nat) :
    GetTableEntry a 1 = 0xFFFFFFFFFFE00000 + 8 * (a % 0x1000000000000 / 0x40000000) := by
  simp only [GetTableEntry, and_ffffffffffff, and_not7]
  simp
  omega

theorem GetTableEntry_two (a : Nat) :
    GetTableEntry a 2 = 0xFFFFFFFFC0000000 + 8 * (a % 0x1000000000000 / 0x200000) := by
  simp only [GetTableEntry, and_ffffffffffff, and_not7]
  simp
  omega

theorem GetTableEntry_three (a : Nat) :
    GetTableEntry a 3 = 0xFFFFFF8000000000 + 8 * (a % 0x1000000000000 / 0x1000) := by
  simp only [GetTableEntry, and_ffffffffffff, and_not7]
  simp
  omega

theorem GetTableEntry_lt (a d : Nat) : GetTableEntry a d < 0x10000000000000000 := by
  unfold GetTableEntry
  simp only [and_ffffffffffff, and_not7]
  split_ifs <;> omega

theorem GetTableStart_eq (a d : Nat) :
    GetTableStart a d = 4096 * (GetTableEntry a d / 4096) := by
  have h := GetTableEntry_lt a d
  simp only [GetTableStart, and_notfff]
  omega

theorem inFractalSlot_iff (a : Nat) :
    InFractalSlot a ↔ a % 0x1000000000000 / 0x8000000000 = 511 := by
  simp only [InFractalSlot, and_ffffffffffff]

/-- Entries of different depths never share an address outside the self-referential slot. -/
theorem entry_level_inj (x y j k : Nat) (hj : j ≤ 3) (hk : k ≤ 3)
    (hx : ¬ InFractalSlot x) (hy : ¬ InFractalSlot y)
    (h : GetTableEntry x j = GetTableEntry y k) : j = k := by
  rw [inFractalSlot_iff] at hx hy
  interval_cases j <;> interval_cases k <;>
    simp only [GetTableEntry_zero, GetTableEntry_one, GetTableEntry_two,
      GetTableEntry_three] at h <;> omega

theorem entry_in_table_level (x y j m : Nat) (hj : j ≤ 3) (hm : m ≤ 3)
    (hx : ¬ InFractalSlot x) (hy : ¬ InFractalSlot y)
    (h1 : GetTableStart y m ≤ GetTableEntry x j)
    (h2 : GetTableEntry x j < GetTableStart y m + 0x1000) : j = m := by
  rw [inFractalSlot_iff] at hx hy
  rw [GetTableStart_eq] at h1 h2
  interval_cases j <;> interval_cases m <;>
    simp only [GetTableEntry_zero, GetTableEntry_one, GetTableEntry_two,
      GetTableEntry_three] at h1 h2 <;> omega

theorem entry_in_table_parent (x y k : Nat) (hk : k < 3)
    (h1 : GetTableStart y (k + 1) ≤ GetTableEntry x (k + 1))
    (h2 : GetTableEntry x (k + 1) < GetTableStart y (k + 1) + 0x1000) :
    GetTableEntry x k = GetTableEntry y k := by
  rw [GetTableStart_eq] at h1 h2
  interval_cases k <;>
    simp only [Nat.reduceAdd, GetTableEntry_zero, GetTableEntry_one, GetTableEntry_two,
      GetTableEntry_three] at h1 h2 ⊢ <;> omega

theorem entry_in_own_table (y m : Nat) :
    GetTableStart y m ≤ GetTableEntry y m ∧ GetTableEntry y m < GetTableStart y m + 0x1000 := by
  rw [GetTableStart_eq]
  omega

theorem or_bit_iff (a b k : Nat) :
    (a ||| b) / 2 ^ k % 2 = 1 ↔ a / 2 ^ k % 2 = 1 ∨ b / 2 ^ k % 2 = 1 := by
  have h := Nat.testBit_or a b k
  simp only [Nat.testBit_to_div_mod] at h
  by_cases h1 : a / 2 ^ k % 2 = 1 <;> by_cases h2 : b / 2 ^ k % 2 = 1 <;>
    simp [h1, h2] at h ⊢ <;> omega

theorem or_bit7_iff (a b : Nat) :
    (a ||| b) / 128 % 2 = 1 ↔ a / 128 % 2 = 1 ∨ b / 128 % 2 = 1 :=
  or_bit_iff a b 7

theorem or_bit0_iff (a b : Nat) :
    (a ||| b) % 2 = 1 ↔ a % 2 = 1 ∨ b % 2 = 1 := by
  have h := or_bit_iff a b 0
  simp only [Nat.pow_zero, Nat.div_one] at h
  exact h

/-- Invariant rule for the ancestor loop of `Set`. -/
theorem SetLoop_rule (addr parentMask D : Nat) (P : Nat → State → Prop)
    (hA : ∀ k s fresh a, k < D → P k s → s.mem (GetTableEntry addr k) % 2 = 0 →
      s.allocator.Alloc = some (fresh, a) →
      P (k + 1) { s with
        mem := Bzero (Function.update s.mem (GetTableEntry addr k) (fresh ||| parentMask))
          (GetTableStart addr (k + 1)) 0x1000
        allocator := a })
    (hP : ∀ k s, k < D → P k s → s.mem (GetTableEntry addr k) % 2 = 1 →
      s.mem (GetTableEntry addr k) / 128 % 2 = 0 →
      P (k + 1) { s with
        mem := Function.update s.mem (GetTableEntry addr k)
          (s.mem (GetTableEntry addr k) ||| parentMask) }) :
    ∀ fuel depth s b s', depth + fuel = D → P depth s →
      SetLoop addr parentMask fuel depth s = .ok (b, s') →
      (b = true → P D s') ∧
      (b = false → ∃ k, k < D ∧ P k s' ∧ s'.mem (GetTableEntry addr k) % 2 = 1 ∧
        s'.mem (GetTableEntry addr k) / 128 % 2 = 1) := by
  intro fuel
  induction fuel with
  | zero =>
    intro depth s b s' hd hp h
    simp only [SetLoop, Except.ok.injEq, Prod.mk.injEq] at h
    obtain ⟨rfl, rfl⟩ := h
    simp only [Nat.add_zero] at hd
    subst hd
    simp [hp]
  | succ n ih =>
    intro depth s b s' hd hp h
    have hlt : depth < D := by omega
    simp only [SetLoop, Nat.and_one_is_mod, and_80] at h
    split at h
    · rename_i habs
      split at h
      · simp at h
      · rename_i fresh a hal
        exact ih (depth + 1) _ b s' (by omega) (hA depth s fresh a hlt hp habs hal) h
    · rename_i hpres
      split at h
      · rename_i hlarge
        simp only [Except.ok.injEq, Prod.mk.injEq] at h
        obtain ⟨rfl, rfl⟩ := h
        refine ⟨by simp, fun _ => ⟨depth, hlt, hp, by omega, by omega⟩⟩
      · rename_i hsmall
        exact ih (depth + 1) _ b s' (by omega) (hP depth s hlt hp (by omega) (by omega)) h

theorem Alloc_some {a a' : Allocator} {fresh : Nat} (h : a.Alloc = some (fresh, a')) :
    a.pool = fresh :: a'.pool ∧ a'.allocated = fresh :: a.allocated ∧ a'.freed = a.freed := by
  unfold Allocator.Alloc at h
  split at h
  · simp at h
  · rename_i f rest hp
    simp only [Option.some.injEq, Prod.mk.injEq] at h
    obtain ⟨rfl, rfl⟩ := h
    simp [hp]

/-- After the ancestor loop of a successful `Set`, every ancestor is present and not large. -/
theorem SetLoop_links (addr parentMask D : Nat) (s s' : State) (hD : D ≤ 3)
    (hnf : ¬ InFractalSlot addr) (hpm0 : parentMask % 2 = 1) (hpm7 : parentMask / 128 % 2 = 0)
    (hpool : ∀ f ∈ s.allocator.pool, f % 0x1000 = 0)
    (h : SetLoop addr parentMask D 0 s = .ok (true, s')) :
    AncestorsLinked s'.mem addr D := by
  have key := SetLoop_rule addr parentMask D
    (fun k t => AncestorsLinked t.mem addr k ∧ ∀ f ∈ t.allocator.pool, f % 0x1000 = 0)
    ?_ ?_ D 0 s true s' (by omega) ⟨fun j hj => absurd hj (Nat.not_lt_zero j), hpool⟩ h
  · exact (key.1 rfl).1
  · intro k t fresh a hk hp habs hal
    obtain ⟨hp1, hp2⟩ := hp
    obtain ⟨hpl, -, -⟩ := Alloc_some hal
    have hfresh : fresh % 0x1000 = 0 := hp2 fresh (by simp [hpl])
    refine ⟨?_, fun f hf => hp2 f (by simp [hpl, hf])⟩
    intro j hj
    have hout : ¬ (GetTableStart addr (k + 1) ≤ GetTableEntry addr j ∧
        GetTableEntry addr j < GetTableStart addr (k + 1) + 0x1000) := by
      intro hin
      have := entry_in_table_level addr addr j (k + 1) (by omega) (by omega) hnf hnf hin.1 hin.2
      omega
    simp only [Bzero, hout, if_false]
    by_cases hjk : j = k
    · subst hjk
      simp only [Function.update_same]
      refine ⟨(or_bit0_iff _ _).2 (Or.inr hpm0), ?_⟩
      have := or_bit7_iff fresh parentMask
      omega
    · have hne : GetTableEntry addr j ≠ GetTableEntry addr k := fun he =>
        hjk (entry_level_inj addr addr j k (by omega) (by omega) hnf hnf he)
      simp only [Function.update_noteq hne]
      exact hp1 j (by omega)
  · intro k t hk hp hpres hsmall
    obtain ⟨hp1, hp2⟩ := hp
    refine ⟨?_, hp2⟩
    intro j hj
    by_cases hjk : j = k
    · subst hjk
      simp only [Function.update_same]
      refine ⟨(or_bit0_iff _ _).2 (Or.inr hpm0), ?_⟩
      have := or_bit7_iff (t.mem (GetTableEntry addr j)) parentMask
      omega
    · have hne : GetTableEntry addr j ≠ GetTableEntry addr k := fun he =>
        hjk (entry_level_inj addr addr j k (by omega) (by omega) hnf hnf he)
      simp only [Function.update_noteq hne]
      exact hp1 j (by omega)

theorem WalkLoop_step (mem : Nat → Nat) (addr fuel depth e : Nat) :
    WalkLoop mem addr (fuel + 1) depth e =
      if mem (GetTableEntry addr depth) / 128 % 2 = 1 ∨ mem (GetTableEntry addr depth) % 2 = 0
      then (depth, mem (GetTableEntry addr depth))
      else WalkLoop mem addr fuel (depth + 1) (mem (GetTableEntry addr depth)) := by
  simp only [WalkLoop, Nat.and_one_is_mod, and_80]
  have : (128 * (mem (GetTableEntry addr depth) / 128 % 2) ≠ 0) ↔
      mem (GetTableEntry addr depth) / 128 % 2 = 1 := by omega
  simp only [this]

/-- The loop of `Walk` passes every linked ancestor. -/
theorem WalkLoop_linked (mem : Nat → Nat) (addr D : Nat) (h : AncestorsLinked mem addr D) :
    ∀ n fuel e, n ≤ D → WalkLoop mem addr (D - n + fuel) n e =
      if D = n then WalkLoop mem addr fuel D e
      else WalkLoop mem addr fuel D (mem (GetTableEntry addr (D - 1))) := by
  intro n fuel e hn
  generalize hk : D - n = m
  induction m generalizing n e with
  | zero =>
    have : D = n := by omega
    subst this
    simp
  | succ m ih =>
    have h1 := h n (by omega)
    have hne : D ≠ n := by omega
    rw [Nat.add_right_comm, WalkLoop_step]
    have hcond : ¬ (mem (GetTableEntry addr n) / 128 % 2 = 1 ∨ mem (GetTableEntry addr n) % 2 = 0) := by
      omega
    rw [if_neg hcond]
    have := ih (n + 1) (mem (GetTableEntry addr n)) (by omega) (by omega)
    rw [this]
    by_cases h2 : D = n + 1
    · subst h2
      simp
    · simp [h2, hne]

theorem Walk_of_linked (s : State) (addr D e : Nat) (hchk : entryChecks s = .ok ())
    (hD : D ≤ 3) (hanc : AncestorsLinked s.mem addr D) (he : s.mem (GetTableEntry addr D) = e)
    (hleaf : e / 128 % 2 = 1 ∨ (D = 3 ∧ e % 2 = 1)) :
    Walk s addr = .ok { depth := (D : Int), entry := e, size := 0x1000 <<< (27 - 9 * D) } := by
  have h1 := WalkLoop_linked s.mem addr D hanc 0 (4 - D) 0 (Nat.zero_le _)
  have h2 : D - 0 + (4 - D) = 4 := by omega
  rw [h2] at h1
  have h3 : 4 - D = (3 - D) + 1 := by omega
  have h4 : ∀ e0, WalkLoop s.mem addr (4 - D) D e0 =
      if e / 128 % 2 = 1 ∨ e % 2 = 0 then (D, e) else WalkLoop s.mem addr (3 - D) (D + 1) e := by
    intro e0
    rw [h3, WalkLoop_step, he]
  simp only [h4] at h1
  simp only [ite_self] at h1
  unfold Walk
  simp only [hchk, h1]
  rcases hleaf with h7 | ⟨h3', h0⟩
  · have hc : e / 128 % 2 = 1 ∨ e % 2 = 0 := Or.inl h7
    simp only [if_pos hc, and_80]
    have hD4 : D ≠ 4 := by omega
    have : 128 * (e / 128 % 2) ≠ 0 := by omega
    simp [hD4, this]
  · subst h3'
    by_cases h7 : e / 128 % 2 = 1
    · have hc : e / 128 % 2 = 1 ∨ e % 2 = 0 := Or.inl h7
      simp only [if_pos hc, and_80]
      have : 128 * (e / 128 % 2) ≠ 0 := by omega
      simp [this]
    · have hc : ¬ (e / 128 % 2 = 1 ∨ e % 2 = 0) := by omega
      simp only [if_neg hc]
      simp [WalkLoop]

theorem entryChecks_ok_iff (s : State) :
    entryChecks s = .ok () ↔ s.critical = false ∧ s.cr3 = s.pml4 := by
  unfold entryChecks IsSet
  cases hc : s.critical <;> by_cases h3 : s.cr3 = s.pml4 <;> simp [h3]

theorem entryChecks_congr (s t : State) (h1 : t.critical = s.critical) (h2 : t.cr3 = s.cr3)
    (h3 : t.pml4 = s.pml4) : entryChecks t = entryChecks s := by
  unfold entryChecks IsSet
  rw [h1, h2, h3]

/-- The ancestor loop of `Set` touches only the memory and the allocator. -/
theorem SetLoop_fields (addr parentMask D : Nat) (s s' : State) (b : Bool)
    (h : SetLoop addr parentMask D 0 s = .ok (b, s')) :
    s'.cr3 = s.cr3 ∧ s'.pml4 = s.pml4 ∧ s'.critical = s.critical ∧ s'.invlpg = s.invlpg := by
  have key := SetLoop_rule addr parentMask D
    (fun _ t => t.cr3 = s.cr3 ∧ t.pml4 = s.pml4 ∧ t.critical = s.critical ∧ t.invlpg = s.invlpg)
    (fun k t fresh a _ hp _ _ => hp) (fun k t _ hp _ _ => hp) D 0 s b s' (by omega)
    ⟨rfl, rfl, rfl, rfl⟩ h
  cases b
  · obtain ⟨k, -, hk, -⟩ := key.2 rfl
    exact hk
  · exact key.1 rfl

/-- Inversion of a `Set` that returned `true`. -/
theorem Set_true_inv (s : State) (addr entry parentMask D : Nat) (ow : Option Bool)
    (r : SetResult) (h : Set s addr entry parentMask D ow = .ok r) (hok : r.ok = true) :
    entryChecks s = .ok () ∧ D < 4 ∧ addr % (0x1000 <<< (27 - 9 * D)) = 0 ∧
    ∃ s1, SetLoop addr parentMask D 0 s = .ok (true, s1) ∧
      r.overwrote = ow.map (fun _ => decide (s1.mem (GetTableEntry addr D) ≠ 0)) ∧
      r.state = { s1 with mem := Function.update s1.mem (GetTableEntry addr D) entry } := by
  unfold Set at h
  split at h
  · simp at h
  · rename_i hchk
    split at h
    · simp at h
    · rename_i hD
      split at h
      · simp at h
      · rename_i hal
        split at h
        · simp at h
        · simp only [Except.ok.injEq] at h
          subst h
          simp at hok
        · rename_i s1 hloop
          simp only [Except.ok.injEq] at h
          subst h
          refine ⟨?_, by omega, by simpa using hal, s1, hloop, rfl, rfl⟩
          cases hc : entryChecks s with
          | error e => rw [hc] at hchk; simp at hchk
          | ok u => rfl

/-- Inversion of a `Set` that returned `false`. -/
theorem Set_false_inv (s : State) (addr entry parentMask D : Nat) (ow : Option Bool)
    (r : SetResult) (h : Set s addr entry parentMask D ow = .ok r) (hok : r.ok = false) :
    entryChecks s = .ok () ∧ D < 4 ∧ addr % (0x1000 <<< (27 - 9 * D)) = 0 ∧
    SetLoop addr parentMask D 0 s = .ok (false, r.state) ∧ r.overwrote = ow := by
  unfold Set at h
  split at h
  · simp at h
  · rename_i hchk
    split at h
    · simp at h
    · rename_i hD
      split at h
      · simp at h
      · rename_i hal
        split at h
        · simp at h
        · rename_i s1 hloop
          simp only [Except.ok.injEq] at h
          subst h
          refine ⟨?_, by omega, by simpa using hal, hloop, rfl⟩
          cases hc : entryChecks s with
          | error e => rw [hc] at hchk; simp at hchk
          | ok u => rfl
        · simp only [Except.ok.injEq] at h
          subst h
          simp at hok

/-- After a successful `Set` outside the self-referential slot, `Walk` on the same
address stops at the depth that was set and yields the entry that was written. -/
theorem Set_then_Walk (s : State) (addr entry parentMask D : Nat) (ow : Option Bool)
    (r : SetResult) (hnf : ¬ InFractalSlot addr)
    (hpm0 : parentMask % 2 = 1) (hpm7 : parentMask / 128 % 2 = 0)
    (hpool : ∀ f ∈ s.allocator.pool, f % 0x1000 = 0)
    (hleaf : entry / 128 % 2 = 1 ∨ (D = 3 ∧ entry % 2 = 1))
    (h : Set s addr entry parentMask D ow = .ok r) (hok : r.ok = true) :
    Walk r.state addr =
      .ok { depth := (D : Int), entry := entry, size := 0x1000 <<< (27 - 9 * D) } := by
  obtain ⟨hchk, hD, -, s1, hloop, -, hst⟩ := Set_true_inv s addr entry parentMask D ow r h hok
  have hlinks := SetLoop_links addr parentMask D s s1 (by omega) hnf hpm0 hpm7 hpool hloop
  obtain ⟨f1, f2, f3, -⟩ := SetLoop_fields addr parentMask D s s1 true hloop
  have hchk' : entryChecks r.state = .ok () := by
    rw [← hchk]
    apply entryChecks_congr <;> simp [hst, f1, f2, f3]
  apply Walk_of_linked r.state addr D entry hchk' (by omega) _ _ hleaf
  · intro j hj
    have hne : GetTableEntry addr j ≠ GetTableEntry addr D := fun he => by
      have := entry_level_inj addr addr j D (by omega) (by omega) hnf hnf he
      omega
    rw [hst]
    simp only [Function.update_noteq hne]
    exact hlinks j hj
  · rw [hst]
    simp

theorem CalcMask_bits (size : Nat) (kernel : Bool) (attrs : Attributes) :
    CalcMask size kernel attrs % 2 = 1 ∧
    CalcMask size kernel attrs / 128 % 2 = (if size = 0x1000 then 0 else 1) ∧
    CalcMask size kernel attrs / 2 % 2 = (if attrs.writable then 1 else 0) ∧
    CalcMask size kernel attrs / 0x8000000000000000 % 2 = (if attrs.executable then 0 else 1) ∧
    CalcMask size kernel attrs % 0x8000000000000000 < 4096 := by
  obtain ⟨e, w, c⟩ := attrs
  by_cases hs : size = 0x1000 <;> cases kernel <;> cases e <;> cases w <;>
    simp [CalcMask, hs]

theorem or_flags_eq_add (p M : Nat) (hp : p % 4096 = 0) (hp63 : p < 0x8000000000000000)
    (hM : M % 0x8000000000000000 < 4096) : p ||| M = p + M := by
  have e1 : p + M % 0x8000000000000000 = p ||| M % 0x8000000000000000 := by
    have := Nat.mul_add_lt_is_or (i := 12) (b := M % 0x8000000000000000) (by simpa using hM)
      (p / 4096)
    have hp' : 2 ^ 12 * (p / 4096) = p := by norm_num; omega
    rw [hp'] at this
    exact this
  have e2 := Nat.mul_add_lt_is_or (i := 63) (b := M % 0x8000000000000000)
    (by norm_num; omega) (M / 0x8000000000000000)
  have e3 := Nat.mul_add_lt_is_or (i := 63) (b := p + M % 0x8000000000000000)
    (by norm_num; omega) (M / 0x8000000000000000)
  have hM' : M = 2 ^ 63 * (M / 0x8000000000000000) + M % 0x8000000000000000 := by
    norm_num; omega
  calc p ||| M = p ||| (2 ^ 63 * (M / 0x8000000000000000) ||| M % 0x8000000000000000) := by
        rw [← e2, ← hM']
    _ = 2 ^ 63 * (M / 0x8000000000000000) ||| (p ||| M % 0x8000000000000000) := by
        rw [← Nat.or_assoc, Nat.or_comm p, Nat.or_assoc]
    _ = 2 ^ 63 * (M / 0x8000000000000000) + (p + M % 0x8000000000000000) := by
        rw [← e1, ← e3]
    _ = p + M := by omega

theorem and_7ffffffffffff000 (x : Nat) :
    x &&& 0x7ffffffffffff000 = 4096 * (x % 0x8000000000000000 / 4096) := by
  have := and_range x 12 63 (by decide)
  simpa using this

theorem and_7fffffffffe00000 (x : Nat) :
    x &&& 0x7fffffffffe00000 = 0x200000 * (x % 0x8000000000000000 / 0x200000) := by
  have := and_range x 21 63 (by decide)
  simpa using this

theorem and_bit63 (x : Nat) :
    x &&& (1 <<< 63) = 0x8000000000000000 * (x % 0x10000000000000000 / 0x8000000000000000) := by
  have := and_range x 63 64 (by decide)
  simpa using this

theorem and_2 (x : Nat) : x &&& 2 = 2 * (x / 2 % 2) := by
  have := and_range x 1 2 (by decide)
  norm_num at this
  omega

theorem and_fff (x : Nat) : x &&& 0xfff = x % 4096 := by
  have := and_range x 0 12 (by decide)
  simpa using this

/-- `Read` in terms of what `Walk` found. -/
theorem Read_of_Walk (s : State) (addr D e sz : Nat) (hchk : entryChecks s = .ok ())
    (hw : Walk s addr = .ok { depth := (D : Int), entry := e, size := sz })
    (hD : 2 ≤ D) (he : e ≠ 0) :
    Read s addr = .ok
      { found := true
        phys := some (if D = 3 then e &&& 0x7ffffffffffff000 else e &&& 0x7fffffffffe00000)
        attr := some { executable := decide (e &&& (1 <<< 63) = 0)
                       writable := decide (e &&& 2 ≠ 0)
                       cachable := true }
        size := sz } := by
  unfold Read
  simp only [hchk, hw]
  have h1 : ¬ ((D : Int) < 0) := by omega
  have h2 : ¬ ((D : Int) < 2) := by omega
  have h3 : ((D : Int) = 3) ↔ D = 3 := by omega
  simp only [h1, h2, he, h3, if_false]

/-- A mapping installed by `Set` with an entry built by `CalcMask`, read back. -/
theorem Set_then_Read (s : State) (addr p parentMask size D : Nat) (kernel : Bool)
    (attrs : Attributes) (ow : Option Bool) (r : SetResult)
    (hsize : size = 0x1000 ∨ size = 0x200000) (hD : CalcDepth size = .ok D)
    (hnf : ¬ InFractalSlot addr) (hp : p % size = 0) (hp63 : p < 2 ^ 63)
    (hpm0 : parentMask &&& 1 ≠ 0) (hpm7 : parentMask &&& 0x80 = 0)
    (hpool : ∀ f ∈ s.allocator.pool, f % 0x1000 = 0)
    (h : Set s addr (p ||| CalcMask size kernel attrs) parentMask D ow = .ok r)
    (hok : r.ok = true) :
    Read r.state addr = .ok
      { found := true
        phys := some p
        attr := some { executable := attrs.executable, writable := attrs.writable,
                       cachable := true }
        size := size } := by
  rw [Nat.and_one_is_mod] at hpm0
  rw [and_80] at hpm7
  obtain ⟨m0, m7, m1, m63, mlow⟩ := CalcMask_bits size kernel attrs
  have hp4 : p % 4096 = 0 := by rcases hsize with rfl | rfl <;> omega
  have hsum := or_flags_eq_add p (CalcMask size kernel attrs) hp4 (by simpa using hp63) mlow
  have hD' : (size = 0x1000 ∧ D = 3) ∨ (size = 0x200000 ∧ D = 2) := by
    rcases hsize with rfl | rfl <;> simp [CalcDepth] at hD <;> simp [hD]
  have hleaf : (p ||| CalcMask size kernel attrs) / 128 % 2 = 1 ∨
      (D = 3 ∧ (p ||| CalcMask size kernel attrs) % 2 = 1) := by
    rw [hsum]
    rcases hD' with ⟨rfl, rfl⟩ | ⟨rfl, rfl⟩
    · right; exact ⟨rfl, by omega⟩
    · left; simp at m7; omega
  have hw := Set_then_Walk s addr _ parentMask D ow r hnf (by omega) (by omega) hpool hleaf h hok
  obtain ⟨hchk, -, -, s1, hloop, -, hst⟩ := Set_true_inv s addr _ parentMask D ow r h hok
  obtain ⟨f1, f2, f3, -⟩ := SetLoop_fields addr parentMask D s s1 true hloop
  have hchk' : entryChecks r.state = .ok () := by
    rw [← hchk]
    apply entryChecks_congr <;> simp [hst, f1, f2, f3]
  have hne : p ||| CalcMask size kernel attrs ≠ 0 := by rw [hsum]; omega
  rw [Read_of_Walk r.state addr D _ _ hchk' hw (by rcases hD' with ⟨-, rfl⟩ | ⟨-, rfl⟩ <;> omega) hne]
  simp only [and_7ffffffffffff000, and_7fffffffffe00000, and_bit63, and_2, hsum]
  have hsz : 0x1000 <<< (27 - 9 * D) = size := by
    rcases hD' with ⟨rfl, rfl⟩ | ⟨rfl, rfl⟩ <;> rfl
  have hph : (if D = 3 then
      4096 * ((p + CalcMask size kernel attrs) % 0x8000000000000000 / 4096)
      else 0x200000 * ((p + CalcMask size kernel attrs) % 0x8000000000000000 / 0x200000)) = p := by
    rcases hD' with ⟨rfl, rfl⟩ | ⟨rfl, rfl⟩
    · simp only [if_true]; omega
    · simp only [show ¬ (2 = 3) by decide, if_false]; omega
  have hex : decide (0x8000000000000000 *
      ((p + CalcMask size kernel attrs) % 0x10000000000000000 / 0x8000000000000000) = 0)
      = attrs.executable := by
    cases hx : attrs.executable <;> simp [hx] at m63 ⊢ <;> omega
  have hwr : decide (2 * ((p + CalcMask size kernel attrs) / 2 % 2) ≠ 0) = attrs.writable := by
    cases hx : attrs.writable <;> simp [hx] at m1 ⊢ <;> omega
  rw [hsz, hph, hex, hwr]

/-! ## Claims -/

/-- C2 (counterexample): a 4 KiB page mapped writable and not cachable reads back as
cachable. -/
theorem C2_counterexample :
    readAfterSet blankMachine 0x8000000000
      (0x5000 ||| CalcMask 0x1000 false ⟨false, true, false⟩) 7 3
      = .ok { found := true, phys := some 0x5000, attr := some ⟨false, true, true⟩,
              size := 0x1000 } ∧
    (⟨false, true, true⟩ : Attributes) ≠ ⟨false, true, false⟩ :=
  ⟨rfl, by decide⟩

/-- C2 (amended): under the conditions of the address round trip (4 KiB or 2 MiB page,
address outside the self-referential slot, `p < 2 ^ 63` aligned, parent flags with the
present bit and without the large-page bit, aligned frames), the attributes `Read` returns
after `Set` installed `p | CalcMask(size, kernel, attrs)` have the executable and writable
fields of `attrs`, and the cachable field is always `true`. -/
theorem Set_Read_attributes (s : State) (addr p parentMask size D : Nat) (kernel : Bool)
    (attrs : Attributes) (ow : Option Bool) (r : SetResult)
    (hsize : size = 0x1000 ∨ size = 0x200000) (hD : CalcDepth size = .ok D)
    (hnf : ¬ InFractalSlot addr) (hp : p % size = 0) (hp63 : p < 2 ^ 63)
    (hpm0 : parentMask &&& 1 ≠ 0) (hpm7 : parentMask &&& 0x80 = 0)
    (hpool : ∀ f ∈ s.allocator.pool, f % 0x1000 = 0)
    (h : Set s addr (p ||| CalcMask size kernel attrs) parentMask D ow = .ok r)
    (hok : r.ok = true) :
    ∃ rr, Read r.state addr = .ok rr ∧
      rr.attr = some { executable := attrs.executable, writable := attrs.writable,
                       cachable := true } :=
  ⟨_, Set_then_Read s addr p parentMask size D kernel attrs ow r hsize hD hnf hp hp63 hpm0 hpm7
    hpool h hok, rfl⟩

/-- C2 (witness): a writable, not executable, not cachable 4 KiB page. -/
theorem Set_Read_attributes_witness :
    ∃ rr, Read (setResultOf blankMachine (Set blankMachine 0x8000000000
        (0x5000 ||| CalcMask 0x1000 false ⟨false, true, false⟩) 7 3 none)).state 0x8000000000
      = .ok rr ∧ rr.attr = some { executable := false, writable := true, cachable := true } :=
  Set_Read_attributes blankMachine 0x8000000000 0x5000 7 0x1000 3 false
    ⟨false, true, false⟩ none _ (Or.inl rfl) rfl (by decide) (by decide) (by decide)
    (by decide) (by decide) (by decide) rfl rfl

/-- The ancestor loop of `Set` leaving through `return false`: nothing was allocated and
the memory differs from the initial one only in the entries above the blocking one, which
hold their old value OR `parentMask`. -/
theorem SetLoop_false (addr parentMask D : Nat) (s s' : State)
    (h : SetLoop addr parentMask D 0 s = .ok (false, s')) :
    s'.allocator = s.allocator ∧
    ∃ k, k < D ∧ s'.mem (GetTableEntry addr k) % 2 = 1 ∧
      s'.mem (GetTableEntry addr k) / 128 % 2 = 1 ∧
      ∀ a, s'.mem a =
        if ∃ j, j < k ∧ a = GetTableEntry addr j then s.mem a ||| parentMask else s.mem a := by
  have key := SetLoop_rule addr parentMask D
    (fun k t => (t.allocator = s.allocator ∧ ∀ a, t.mem a =
        if ∃ j, j < k ∧ a = GetTableEntry addr j then s.mem a ||| parentMask else s.mem a) ∨
      t.mem (GetTableEntry addr k) = 0)
    ?_ ?_ D 0 s false s' (by omega) (Or.inl ⟨rfl, fun a => by simp⟩) h
  · obtain ⟨k, hk, hp, h0, h7⟩ := key.2 rfl
    rcases hp with ⟨ha, hm⟩ | hz
    · exact ⟨ha, k, hk, h0, h7, hm⟩
    · rw [hz] at h0
      omega
  · intro k t fresh a _ _ _ _
    right
    have hin := entry_in_own_table addr (k + 1)
    simp only [Bzero, hin.1, hin.2, and_self, if_true]
  · intro k t _ hp hpres _
    rcases hp with ⟨ha, hm⟩ | hz
    · left
      refine ⟨ha, fun a => ?_⟩
      by_cases hak : a = GetTableEntry addr k
      · subst hak
        have hex : ∃ j, j < k + 1 ∧ GetTableEntry addr k = GetTableEntry addr j :=
          ⟨k, by omega, rfl⟩
        simp only [Function.update_same, if_pos hex]
        rw [hm]
        split
        · rw [Nat.or_assoc, Nat.or_self]
        · rfl
      · simp only [Function.update_noteq hak]
        rw [hm]
        have hiff : (∃ j, j < k + 1 ∧ a = GetTableEntry addr j) ↔
            (∃ j, j < k ∧ a = GetTableEntry addr j) := by
          constructor
          · rintro ⟨j, hj, he⟩
            refine ⟨j, ?_, he⟩
            by_cases hjk : j = k
            · subst hjk; exact absurd he hak
            · omega
          · rintro ⟨j, hj, he⟩
            exact ⟨j, by omega, he⟩
        simp only [hiff]
    · rw [hz] at hpres
      omega

/-- C3 (counterexample): a 4 KiB `Set` inside a 1 GiB large page returns `false`, and the
top-level entry on the path changed from `0x2001` to `0x2007`. -/
theorem C3_counterexample :
    largePageMachine.mem (GetTableEntry 0x8000000000 0) = 0x2001 ∧
    (Set largePageMachine 0x8000000000 0x9003 7 3 none).toOption.map
      (fun r => (r.ok, r.state.mem (GetTableEntry 0x8000000000 0))) = some (false, 0x2007) :=
  ⟨rfl, rfl⟩

/-- C3 (amended): when `Set` returns `false`, blocked by a present entry with the
large-page bit at a depth `k` above the requested one, no frame was allocated or freed,
no invalidation was requested, and every word of memory has its old value, except that
each entry on the path above depth `k` holds its old value OR `parentMask`. -/
theorem Set_false_effect (s : State) (addr entry parentMask theDepth : Nat) (ow : Option Bool)
    (r : SetResult) (h : Set s addr entry parentMask theDepth ow = .ok r)
    (hok : r.ok = false) :
    r.state.allocator = s.allocator ∧ r.state.invlpg = s.invlpg ∧ r.overwrote = ow ∧
    ∃ k, k < theDepth ∧ r.state.mem (GetTableEntry addr k) &&& 1 ≠ 0 ∧
      r.state.mem (GetTableEntry addr k) &&& 0x80 ≠ 0 ∧
      ∀ a, r.state.mem a =
        if ∃ j, j < k ∧ a = GetTableEntry addr j then s.mem a ||| parentMask else s.mem a := by
  obtain ⟨-, -, -, hloop, how⟩ := Set_false_inv s addr entry parentMask theDepth ow r h hok
  obtain ⟨ha, k, hk, h0, h7, hm⟩ := SetLoop_false addr parentMask theDepth s r.state hloop
  obtain ⟨-, -, -, hi⟩ := SetLoop_fields addr parentMask theDepth s r.state false hloop
  refine ⟨ha, hi, how, k, hk, ?_, ?_, hm⟩
  · rw [Nat.and_one_is_mod]; omega
  · rw [and_80]; omega

/-- C3 (witness): the blocked `Set` on the machine with a 1 GiB large page. -/
theorem Set_false_effect_witness :
    blockedSet.state.allocator = largePageMachine.allocator ∧
    blockedSet.state.invlpg = largePageMachine.invlpg ∧ blockedSet.overwrote = none ∧
    ∃ k, k < 3 ∧ blockedSet.state.mem (GetTableEntry 0x8000000000 k) &&& 1 ≠ 0 ∧
      blockedSet.state.mem (GetTableEntry 0x8000000000 k) &&& 0x80 ≠ 0 ∧
      ∀ a, blockedSet.state.mem a =
        if ∃ j, j < k ∧ a = GetTableEntry 0x8000000000 j then largePageMachine.mem a ||| 7
        else largePageMachine.mem a :=
  Set_false_effect largePageMachine 0x8000000000 0x9003 7 3 none blockedSet rfl rfl

/-- C4 (the code at the failing input): every table on the path of `0x8000000000` is
present and its 4 KiB entry is zero; `Walk` reports not-found, and `Unset` does not halt
but returns `true`. -/
theorem Unset_unmapped_leaf_returns_true :
    sparseMachine.mem (GetTableEntry 0x8000000000 3) = 0 ∧
    (Walk sparseMachine 0x8000000000).toOption.map (fun w => w.depth) = some (-1) ∧
    (Unset sparseMachine 0x8000000000).toOption.map (fun x => x.1) = some true := by
  refine ⟨rfl, rfl, ?_⟩
  decide

/-- The ancestor loop of a successful `Set`: either nothing was allocated and every word of
memory is non-zero exactly when it was, or a table was allocated and the slot of the
entry to write is zero. -/
theorem SetLoop_slot (addr parentMask D : Nat) (s s1 : State)
    (h : SetLoop addr parentMask D 0 s = .ok (true, s1)) :
    (s1.allocator = s.allocator ∧ ∀ a, (s1.mem a ≠ 0 ↔ s.mem a ≠ 0)) ∨
    (s.allocator.allocated.length < s1.allocator.allocated.length ∧
      s1.mem (GetTableEntry addr D) = 0) := by
  have key := SetLoop_rule addr parentMask D
    (fun k t => (t.allocator = s.allocator ∧ ∀ a, (t.mem a ≠ 0 ↔ s.mem a ≠ 0)) ∨
      (s.allocator.allocated.length < t.allocator.allocated.length ∧
        t.mem (GetTableEntry addr k) = 0))
    ?_ ?_ D 0 s true s1 (by omega) (Or.inl ⟨rfl, fun a => Iff.rfl⟩) h
  · exact key.1 rfl
  · intro k t fresh a _ hp _ hal
    right
    obtain ⟨-, hlog, -⟩ := Alloc_some hal
    have hin := entry_in_own_table addr (k + 1)
    refine ⟨?_, by simp only [Bzero, hin.1, hin.2, and_self, if_true]⟩
    simp only [hlog, List.length_cons]
    rcases hp with ⟨ha, -⟩ | ⟨hl, -⟩
    · rw [ha]; omega
    · omega
  · intro k t _ hp hpres _
    rcases hp with ⟨ha, hm⟩ | ⟨-, hz⟩
    · left
      refine ⟨ha, fun a => ?_⟩
      by_cases hak : a = GetTableEntry addr k
      · subst hak
        simp only [Function.update_same]
        have h1 : (t.mem (GetTableEntry addr k) ||| parentMask) % 2 = 1 :=
          (or_bit0_iff _ _).2 (Or.inl hpres)
        have h2 := hm (GetTableEntry addr k)
        constructor
        · intro _
          apply h2.1
          omega
        · intro _
          omega
      · simp only [Function.update_noteq hak]
        exact hm a
    · rw [hz] at hpres
      omega

/-- C5: a `Set` that returns `true` with a non-null `overwrote` pointer reports `true`
exactly when the slot of the entry held a non-zero value immediately before the write
(`s1` is the machine at that point, after the ancestor loop).  The flag is `false` when the
slot was zero before the call, and when this call allocated a table (the slot is then a
zero-filled one); when it allocated nothing, the flag tells whether the slot was non-zero
before the call. -/
theorem Set_overwrote (s : State) (addr entry parentMask theDepth : Nat) (b : Bool)
    (r : SetResult) (h : Set s addr entry parentMask theDepth (some b) = .ok r)
    (hok : r.ok = true) :
    ∃ s1, SetLoop addr parentMask theDepth 0 s = .ok (true, s1) ∧
      r.state = { s1 with mem := Function.update s1.mem (GetTableEntry addr theDepth) entry } ∧
      r.overwrote = some (decide (s1.mem (GetTableEntry addr theDepth) ≠ 0)) ∧
      (s.mem (GetTableEntry addr theDepth) = 0 → r.overwrote = some false) ∧
      (r.state.allocator ≠ s.allocator →
        s1.mem (GetTableEntry addr theDepth) = 0 ∧ r.overwrote = some false) ∧
      (r.state.allocator = s.allocator →
        r.overwrote = some (decide (s.mem (GetTableEntry addr theDepth) ≠ 0))) := by
  obtain ⟨-, -, -, s1, hloop, how, hst⟩ :=
    Set_true_inv s addr entry parentMask theDepth (some b) r h hok
  simp only [Option.map_some'] at how
  have hal : r.state.allocator = s1.allocator := by rw [hst]
  refine ⟨s1, hloop, hst, how, ?_, ?_, ?_⟩
  · intro hz
    rw [how]
    rcases SetLoop_slot addr parentMask theDepth s s1 hloop with ⟨-, hm⟩ | ⟨-, hz1⟩
    · have := hm (GetTableEntry addr theDepth)
      simp only [hz, ne_eq, not_true_eq_false, iff_false, not_not] at this
      simp [this]
    · simp [hz1]
  · intro hne
    rw [how]
    rcases SetLoop_slot addr parentMask theDepth s s1 hloop with ⟨ha, -⟩ | ⟨-, hz1⟩
    · exact absurd (hal.trans ha) hne
    · simp [hz1]
  · intro heq
    rw [how]
    rcases SetLoop_slot addr parentMask theDepth s s1 hloop with ⟨-, hm⟩ | ⟨hl, -⟩
    · have := hm (GetTableEntry addr theDepth)
      simp only [ne_eq] at this
      simp only [ne_eq, this]
    · rw [← hal, heq] at hl
      omega

/-- C5 (witness): mapping `0x8000001000` on `sparseMachine`, where it is already mapped. -/
theorem Set_overwrote_witness :
    ∃ s1, SetLoop 0x8000001000 7 3 0 sparseMachine = .ok (true, s1) ∧
      remapped.state =
        { s1 with mem := Function.update s1.mem (GetTableEntry 0x8000001000 3) 0xa003 } ∧
      remapped.overwrote = some (decide (s1.mem (GetTableEntry 0x8000001000 3) ≠ 0)) ∧
      (sparseMachine.mem (GetTableEntry 0x8000001000 3) = 0 → remapped.overwrote = some false) ∧
      (remapped.state.allocator ≠ sparseMachine.allocator →
        s1.mem (GetTableEntry 0x8000001000 3) = 0 ∧ remapped.overwrote = some false) ∧
      (remapped.state.allocator = sparseMachine.allocator →
        remapped.overwrote =
          some (decide (sparseMachine.mem (GetTableEntry 0x8000001000 3) ≠ 0))) :=
  Set_overwrote sparseMachine 0x8000001000 0xa003 7 3 false remapped rfl rfl

theorem UnsetLoop_step (mem : Nat → Nat) (addr fuel depth : Nat) :
    UnsetLoop mem addr (fuel + 1) depth =
      if mem (GetTableEntry addr depth) / 128 % 2 = 1 then .ok depth
      else if mem (GetTableEntry addr depth) % 2 = 0 then .error Halt.panicUnsetNoMapping
      else UnsetLoop mem addr fuel (depth + 1) := by
  simp only [UnsetLoop, Nat.and_one_is_mod, and_80]
  have : (128 * (mem (GetTableEntry addr depth) / 128 % 2) ≠ 0) ↔
      mem (GetTableEntry addr depth) / 128 % 2 = 1 := by omega
  simp only [this]

/-- Where `Walk` finds a mapping, the first loop of `Unset` ends without a panic, at a
depth below which every entry is present and not large. -/
theorem UnsetLoop_of_WalkLoop (mem : Nat → Nat) (addr : Nat) :
    ∀ fuel depth e0,
      ((WalkLoop mem addr (fuel + 1) depth e0).1 = depth + fuel + 1 ∨
        (WalkLoop mem addr (fuel + 1) depth e0).2 / 128 % 2 = 1) →
      ∃ d, UnsetLoop mem addr fuel depth = .ok d ∧ depth ≤ d ∧ d ≤ depth + fuel ∧
        ∀ j, depth ≤ j → j < d →
          mem (GetTableEntry addr j) % 2 = 1 ∧ mem (GetTableEntry addr j) / 128 % 2 = 0 := by
  intro fuel
  induction fuel with
  | zero =>
    intro depth e0 _
    exact ⟨depth, rfl, by omega, by omega, fun j h1 h2 => by omega⟩
  | succ n ih =>
    intro depth e0 h
    rw [WalkLoop_step] at h
    rw [UnsetLoop_step]
    by_cases h7 : mem (GetTableEntry addr depth) / 128 % 2 = 1
    · exact ⟨depth, by simp [h7], by omega, by omega, fun j h1 h2 => by omega⟩
    · by_cases h0 : mem (GetTableEntry addr depth) % 2 = 0
      · have hc : mem (GetTableEntry addr depth) / 128 % 2 = 1 ∨
            mem (GetTableEntry addr depth) % 2 = 0 := Or.inr h0
        rw [if_pos hc] at h
        simp only at h
        omega
      · have hc : ¬ (mem (GetTableEntry addr depth) / 128 % 2 = 1 ∨
            mem (GetTableEntry addr depth) % 2 = 0) := by omega
        rw [if_neg hc] at h
        have h' : (WalkLoop mem addr (n + 1) (depth + 1) (mem (GetTableEntry addr depth))).1 =
              depth + 1 + n + 1 ∨
            (WalkLoop mem addr (n + 1) (depth + 1) (mem (GetTableEntry addr depth))).2 / 128 % 2
              = 1 := by
          rcases h with h | h
          · left; omega
          · right; exact h
        obtain ⟨d, hd, h1, h2, h3⟩ := ih (depth + 1) _ h'
        refine ⟨d, by simp [h7, h0, hd], by omega, by omega, fun j hj1 hj2 => ?_⟩
        by_cases hj : j = depth
        · subst hj; omega
        · exact h3 j (by omega) hj2

/-- The pruning loop of `Unset` only writes zeros, and touches neither `cr3`, `pml4` nor
the critical flag. -/
theorem UnsetPrune_zeros (addr : Nat) :
    ∀ depth s, (∀ a, (UnsetPrune addr depth s).mem a = s.mem a ∨
        (UnsetPrune addr depth s).mem a = 0) ∧
      (UnsetPrune addr depth s).cr3 = s.cr3 ∧ (UnsetPrune addr depth s).pml4 = s.pml4 ∧
      (UnsetPrune addr depth s).critical = s.critical := by
  intro depth
  induction depth with
  | zero => intro s; simp [UnsetPrune]
  | succ n ih =>
    intro s
    simp only [UnsetPrune]
    split
    · obtain ⟨h1, h2, h3, h4⟩ := ih
        { s with mem := Function.update s.mem (GetTableEntry addr n) 0
                 invlpg := (GetTableStart addr (n + 1), 0x1000) :: s.invlpg
                 allocator := s.allocator.Free (s.mem (GetTableEntry addr n) &&& 0x7FFFFFFFFFFFF000) }
      refine ⟨fun a => ?_, h2, h3, h4⟩
      rcases h1 a with h | h
      · rw [h]
        by_cases ha : a = GetTableEntry addr n
        · subst ha; right; simp
        · left; simp [Function.update_noteq ha]
      · right; exact h
    · simp

/-- On a memory where the entry at depth `d` is zero and the entries above it are linked
or zero, the loop of `Walk` stops on a zero entry. -/
theorem WalkLoop_zero (mem : Nat → Nat) (addr d : Nat)
    (hz : mem (GetTableEntry addr d) = 0)
    (hanc : ∀ j, j < d → (mem (GetTableEntry addr j) % 2 = 1 ∧
      mem (GetTableEntry addr j) / 128 % 2 = 0) ∨ mem (GetTableEntry addr j) = 0) :
    ∀ fuel depth e0, depth ≤ d → d < depth + fuel →
      ∃ k, k ≤ d ∧ WalkLoop mem addr fuel depth e0 = (k, 0) := by
  intro fuel
  induction fuel with
  | zero => intro depth e0 h1 h2; omega
  | succ n ih =>
    intro depth e0 h1 h2
    rw [WalkLoop_step]
    by_cases hd : depth = d
    · subst hd
      refine ⟨depth, by omega, ?_⟩
      simp [hz]
    · rcases hanc depth (by omega) with ⟨h0, h7⟩ | h0
      · have hc : ¬ (mem (GetTableEntry addr depth) / 128 % 2 = 1 ∨
            mem (GetTableEntry addr depth) % 2 = 0) := by omega
        rw [if_neg hc]
        exact ih (depth + 1) _ (by omega) (by omega)
      · refine ⟨depth, by omega, ?_⟩
        simp [h0]

/-- `Walk` reports not-found when the loop stopped on a zero entry. -/
theorem Walk_not_found (s : State) (addr k : Nat) (hchk : entryChecks s = .ok ())
    (hk : k ≤ 3) (h : WalkLoop s.mem addr 4 0 0 = (k, 0)) :
    Walk s addr = .ok { depth := -1, entry := 0, size := 0x1000 <<< (27 - 9 * k) } := by
  unfold Walk
  simp only [hchk, h]
  have : k ≠ 4 := by omega
  simp [this]

theorem Walk_ok_checks (s : State) (addr : Nat) (w : WalkResult) (h : Walk s addr = .ok w) :
    entryChecks s = .ok () := by
  unfold Walk at h
  split at h
  · simp at h
  · rename_i u hu
    cases u
    exact hu

/-- C6: for a 4 KiB-aligned address on which `Walk` finds a mapping (a depth `>= 0`),
`Unset` returns `true`, and on the machine it leaves `Walk` of that address returns `-1`
and `Read` returns `false`. -/
theorem Unset_then_not_found (s : State) (addr : Nat) (w : WalkResult)
    (halign : addr &&& 0xfff = 0) (hw : Walk s addr = .ok w) (hfound : 0 ≤ w.depth) :
    ∃ s', Unset s addr = .ok (true, s') ∧
      (∃ w', Walk s' addr = .ok w' ∧ w'.depth = -1) ∧
      (∃ rr, Read s' addr = .ok rr ∧ rr.found = false) := by
  have hchk := Walk_ok_checks s addr w hw
  have hwl : (WalkLoop s.mem addr 4 0 0).1 = 4 ∨ (WalkLoop s.mem addr 4 0 0).2 / 128 % 2 = 1 := by
    unfold Walk at hw
    simp only [hchk, and_80] at hw
    split at hw
    · rename_i hc
      rcases hc with hc | hc
      · left; exact hc
      · right; omega
    · simp only [Except.ok.injEq] at hw
      subst hw
      simp at hfound
  obtain ⟨d, hd, -, hd3, hlinked⟩ := UnsetLoop_of_WalkLoop s.mem addr 3 0 0 (by simpa using hwl)
  obtain ⟨hz, f1, f2, f3⟩ := UnsetPrune_zeros addr d
    { s with mem := Function.update s.mem (GetTableEntry addr d) 0 }
  have hU : Unset s addr = .ok (true, UnsetPrune addr d
      { s with mem := Function.update s.mem (GetTableEntry addr d) 0 }) := by
    unfold Unset
    simp only [hchk, halign, hd]
    simp
  generalize UnsetPrune addr d
    { s with mem := Function.update s.mem (GetTableEntry addr d) 0 } = s' at hU hz f1 f2 f3
  simp only at hz f1 f2 f3
  have hchk' : entryChecks s' = .ok () := by
    rw [← hchk]
    exact entryChecks_congr _ _ f3 f1 f2
  have hzero : s'.mem (GetTableEntry addr d) = 0 := by
    rcases hz (GetTableEntry addr d) with h | h
    · rw [h]; simp
    · exact h
  have hanc : ∀ j, j < d → (s'.mem (GetTableEntry addr j) % 2 = 1 ∧
      s'.mem (GetTableEntry addr j) / 128 % 2 = 0) ∨ s'.mem (GetTableEntry addr j) = 0 := by
    intro j hj
    rcases hz (GetTableEntry addr j) with h | h
    · by_cases he : GetTableEntry addr j = GetTableEntry addr d
      · right; rw [h, he]; simp
      · left; rw [h]
        simp only [Function.update_noteq he]
        exact hlinked j (Nat.zero_le j) hj
    · right; exact h
  obtain ⟨k, hk, hloop⟩ := WalkLoop_zero _ addr d hzero hanc 4 0 0 (Nat.zero_le d) (by omega)
  have hwalk := Walk_not_found _ addr k hchk' (by omega) hloop
  refine ⟨s', hU, ⟨_, hwalk, rfl⟩, ?_⟩
  unfold Read
  simp only [hchk', hwalk]
  simp

/-- C6 (witness): unmapping `0x8000001000` on `sparseMachine`. -/
theorem Unset_then_not_found_witness :
    ∃ s', Unset sparseMachine 0x8000001000 = .ok (true, s') ∧
      (∃ w', Walk s' 0x8000001000 = .ok w' ∧ w'.depth = -1) ∧
      (∃ rr, Read s' 0x8000001000 = .ok rr ∧ rr.found = false) :=
  Unset_then_not_found sparseMachine 0x8000001000
    { depth := 3, entry := 0x9003, size := 0x1000 } (by decide) rfl (by decide)

theorem GetTableEntry_congr (a b d : Nat) (h : a % 0x1000000000000 = b % 0x1000000000000) :
    GetTableEntry a d = GetTableEntry b d := by
  unfold GetTableEntry
  simp only [and_ffffffffffff, h]

/-- With the present bit in `parentMask`, the ancestor loop of `Set` leaves every ancestor
of the address present. -/
theorem SetLoop_present (y parentMask D : Nat) (s s1 : State) (hD : D ≤ 3)
    (hy : ¬ InFractalSlot y) (hpm0 : parentMask % 2 = 1)
    (h : SetLoop y parentMask D 0 s = .ok (true, s1)) :
    ∀ j, j < D → s1.mem (GetTableEntry y j) % 2 = 1 := by
  have key := SetLoop_rule y parentMask D
    (fun k t => ∀ j, j < k → t.mem (GetTableEntry y j) % 2 = 1)
    ?_ ?_ D 0 s true s1 (by omega) (fun j hj => absurd hj (Nat.not_lt_zero j)) h
  · exact key.1 rfl
  · intro k t fresh a hk hp _ _ j hj
    have hout : ¬ (GetTableStart y (k + 1) ≤ GetTableEntry y j ∧
        GetTableEntry y j < GetTableStart y (k + 1) + 0x1000) := by
      intro hin
      have := entry_in_table_level y y j (k + 1) (by omega) (by omega) hy hy hin.1 hin.2
      omega
    simp only [Bzero, hout, if_false]
    by_cases hjk : j = k
    · subst hjk
      simp only [Function.update_same]
      exact (or_bit0_iff _ _).2 (Or.inr hpm0)
    · have hne : GetTableEntry y j ≠ GetTableEntry y k := fun he =>
        hjk (entry_level_inj y y j k (by omega) (by omega) hy hy he)
      simp only [Function.update_noteq hne]
      exact hp j (by omega)
  · intro k t hk hp _ _ j hj
    by_cases hjk : j = k
    · subst hjk
      simp only [Function.update_same]
      exact (or_bit0_iff _ _).2 (Or.inr hpm0)
    · have hne : GetTableEntry y j ≠ GetTableEntry y k := fun he =>
        hjk (entry_level_inj y y j k (by omega) (by omega) hy hy he)
      simp only [Function.update_noteq hne]
      exact hp j (by omega)

/-- The ancestor loop of `Set` on `y` keeps a mapping of `x` that is in place. -/
theorem SetLoop_keeps (x y parentMask D v : Nat) (s s1 : State) (hD : D ≤ 3)
    (hx : ¬ InFractalSlot x) (hy : ¬ InFractalSlot y) (hpm0 : parentMask % 2 = 1)
    (hinst : Installed s.mem x D v)
    (h : SetLoop y parentMask D 0 s = .ok (true, s1)) :
    Installed s1.mem x D v := by
  have key := SetLoop_rule y parentMask D (fun _ t => Installed t.mem x D v)
    ?_ ?_ D 0 s true s1 (by omega) hinst h
  · exact key.1 rfl
  · intro k t fresh a hk hp habs _
    have hne : ∀ j, j ≤ D → GetTableEntry x j ≠ GetTableEntry y k := by
      intro j hj he
      have hjk := entry_level_inj x y j k (by omega) (by omega) hx hy he
      subst hjk
      have := hp.1 j hk
      rw [he] at this
      omega
    have hout : ∀ j, j ≤ D → ¬ (GetTableStart y (k + 1) ≤ GetTableEntry x j ∧
        GetTableEntry x j < GetTableStart y (k + 1) + 0x1000) := by
      intro j hj hin
      have hjk := entry_in_table_level x y j (k + 1) (by omega) (by omega) hx hy hin.1 hin.2
      subst hjk
      have he := entry_in_table_parent x y k (by omega) hin.1 hin.2
      have := hp.1 k (by omega)
      rw [he] at this
      omega
    refine ⟨fun j hj => ?_, ?_⟩
    · simp only [Bzero, hout j (by omega), if_false, Function.update_noteq (hne j (by omega))]
      exact hp.1 j hj
    · simp only [Bzero, hout D (Nat.le_refl D), if_false,
        Function.update_noteq (hne D (Nat.le_refl D))]
      exact hp.2
  · intro k t hk hp hpres _
    refine ⟨fun j hj => ?_, ?_⟩
    · by_cases he : GetTableEntry x j = GetTableEntry y k
      · rw [he]
        simp only [Function.update_same]
        exact (or_bit0_iff _ _).2 (Or.inr hpm0)
      · simp only [Function.update_noteq he]
        exact hp.1 j hj
    · have hne : GetTableEntry x D ≠ GetTableEntry y k := fun he => by
        have := entry_level_inj x y D k (by omega) (by omega) hx hy he
        omega
      simp only [Function.update_noteq hne]
      exact hp.2

/-- A successful `Set` on `y` puts its mapping in place and keeps every mapping of the
same depth whose leaf entry is another word. -/
theorem Set_installs (s : State) (y entry parentMask D : Nat) (ow : Option Bool)
    (r : SetResult) (hy : ¬ InFractalSlot y) (hpm0 : parentMask % 2 = 1)
    (h : Set s y entry parentMask D ow = .ok r) (hok : r.ok = true) :
    Installed r.state.mem y D entry ∧
    ∀ x v, ¬ InFractalSlot x → GetTableEntry x D ≠ GetTableEntry y D →
      Installed s.mem x D v → Installed r.state.mem x D v := by
  obtain ⟨-, hD, -, s1, hloop, -, hst⟩ := Set_true_inv s y entry parentMask D ow r h hok
  have hlevel : ∀ x j, ¬ InFractalSlot x → j < D → GetTableEntry x j ≠ GetTableEntry y D := by
    intro x j hx hj he
    have := entry_level_inj x y j D (by omega) (by omega) hx hy he
    omega
  refine ⟨⟨fun j hj => ?_, ?_⟩, fun x v hx hne hinst => ?_⟩
  · rw [hst]
    simp only [Function.update_noteq (hlevel y j hy hj)]
    exact SetLoop_present y parentMask D s s1 (by omega) hy hpm0 hloop j hj
  · rw [hst]
    simp
  · have hk := SetLoop_keeps x y parentMask D v s s1 (by omega) hx hy hpm0 hinst hloop
    rw [hst]
    refine ⟨fun j hj => ?_, ?_⟩
    · simp only [Function.update_noteq (hlevel x j hx hj)]
      exact hk.1 j hj
    · simp only [Function.update_noteq hne]
      exact hk.2

theorem CalcDepth_ok_iff (size D : Nat) : CalcDepth size = .ok D ↔ SizeDepth size D := by
  unfold CalcDepth SizeDepth
  constructor
  · intro h
    split_ifs at h with h1 h2 h3
    · exact Or.inl ⟨h1, (Except.ok.inj h).symm⟩
    · exact Or.inr (Or.inl ⟨h2, (Except.ok.inj h).symm⟩)
    · exact Or.inr (Or.inr ⟨h3, (Except.ok.inj h).symm⟩)
  · rintro (⟨rfl, rfl⟩ | ⟨rfl, rfl⟩ | ⟨rfl, rfl⟩) <;> simp

theorem Installed_congr (mem : Nat → Nat) (a b D v : Nat)
    (h : a % 0x1000000000000 = b % 0x1000000000000) (hi : Installed mem a D v) :
    Installed mem b D v := by
  unfold Installed at hi ⊢
  simp only [GetTableEntry_congr b a _ h.symm]
  exact hi

theorem run_not_fractal (size D cv n : Nat) (hsD : SizeDepth size D)
    (hb : cv % 0x1000000000000 + (n + 1) * size ≤ 0xFF8000000000) : ¬ InFractalSlot cv := by
  rw [inFractalSlot_iff]
  rcases hsD with ⟨rfl, rfl⟩ | ⟨rfl, rfl⟩ | ⟨rfl, rfl⟩ <;> omega

theorem run_next_bound (size D cv n : Nat) (hsD : SizeDepth size D)
    (hb : cv % 0x1000000000000 + (n + 1) * size ≤ 0xFF8000000000) :
    ((cv + size) % 2 ^ 64) % 0x1000000000000 + n * size ≤ 0xFF8000000000 := by
  rcases hsD with ⟨rfl, rfl⟩ | ⟨rfl, rfl⟩ | ⟨rfl, rfl⟩ <;> omega

theorem run_next_addr (size D cv n i : Nat) (hsD : SizeDepth size D)
    (hb : cv % 0x1000000000000 + (n + 1) * size ≤ 0xFF8000000000) :
    ((cv + size) % 2 ^ 64 + i * size) % 0x1000000000000 =
      (cv + (i + 1) * size) % 0x1000000000000 := by
  rcases hsD with ⟨rfl, rfl⟩ | ⟨rfl, rfl⟩ | ⟨rfl, rfl⟩ <;> omega

theorem run_next_phys (size D cp n i : Nat) (hsD : SizeDepth size D)
    (hb : cp + (n + 1) * size < 2 ^ 64 + size) (hi : i < n) :
    (cp + size) % 2 ^ 64 + i * size = cp + (i + 1) * size := by
  rcases hsD with ⟨rfl, rfl⟩ | ⟨rfl, rfl⟩ | ⟨rfl, rfl⟩ <;> omega

theorem run_next_phys_bound (size D cp n : Nat) (hsD : SizeDepth size D)
    (hb : cp + (n + 1) * size < 2 ^ 64 + size) :
    (cp + size) % 2 ^ 64 + n * size < 2 ^ 64 + size := by
  rcases hsD with ⟨rfl, rfl⟩ | ⟨rfl, rfl⟩ | ⟨rfl, rfl⟩ <;> omega

theorem run_leaf_distinct (size D cv n i k : Nat) (hsD : SizeDepth size D)
    (hb : cv % 0x1000000000000 + n * size ≤ 0xFF8000000000) (hi : i < n) (hk : k < n)
    (hik : i ≠ k) :
    GetTableEntry (cv + i * size) D ≠ GetTableEntry (cv + k * size) D := by
  rcases hsD with ⟨rfl, rfl⟩ | ⟨rfl, rfl⟩ | ⟨rfl, rfl⟩ <;>
    simp only [GetTableEntry_one, GetTableEntry_two, GetTableEntry_three] <;> omega

/-- The loop of `SetList`: when it ends without a halt, each page of the run is in place
with its entry, and mappings of the same depth outside the run are kept. -/
theorem SetListLoop_run (size parentMask D : Nat) (hsD : SizeDepth size D)
    (hpm0 : parentMask % 2 = 1) :
    ∀ fuel cv cp ptr out s out' s',
      cv % 0x1000000000000 + fuel * size ≤ 0xFF8000000000 →
      cp + fuel * size < 2 ^ 64 + size →
      SetListLoop size parentMask D fuel cv cp ptr out s = .ok (out', s') →
      (∀ i, i < fuel → Installed s'.mem (cv + i * size) D (cp + i * size)) ∧
      (∀ x v, ¬ InFractalSlot x →
        (∀ i, i < fuel → GetTableEntry x D ≠ GetTableEntry (cv + i * size) D) →
        Installed s.mem x D v → Installed s'.mem x D v) := by
  intro fuel
  induction fuel with
  | zero =>
    intro cv cp ptr out s out' s' _ _ h
    simp only [SetListLoop, Except.ok.injEq, Prod.mk.injEq] at h
    obtain ⟨-, rfl⟩ := h
    exact ⟨fun i hi => absurd hi (Nat.not_lt_zero i), fun x v _ _ hx => hx⟩
  | succ n ih =>
    intro cv cp ptr out s out' s' hb hpb h
    simp only [SetListLoop] at h
    split at h
    · simp at h
    · rename_i r hset
      split at h
      · simp at h
      · rename_i hok
        simp only [Bool.not_eq_false] at hok
        have hnf := run_not_fractal size D cv n hsD hb
        obtain ⟨hself, hkeep⟩ := Set_installs s cv cp parentMask D ptr r hnf hpm0 hset hok
        have hb' := run_next_bound size D cv n hsD hb
        have hpb' := run_next_phys_bound size D cp n hsD hpb
        obtain ⟨ih1, ih2⟩ := ih _ _ _ _ r.state out' s' hb' hpb' h
        have hconv : ∀ i, i < n → ∀ d,
            GetTableEntry ((cv + size) % 2 ^ 64 + i * size) d =
              GetTableEntry (cv + (i + 1) * size) d := fun i _ d =>
          GetTableEntry_congr _ _ d (run_next_addr size D cv n i hsD hb)
        refine ⟨fun i hi => ?_, fun x v hx hne hinst => ?_⟩
        · cases i with
          | zero =>
            simp only [Nat.zero_mul, Nat.add_zero]
            refine ih2 cv cp hnf (fun k hk => ?_) hself
            rw [hconv k hk]
            have := run_leaf_distinct size D cv (n + 1) 0 (k + 1) hsD hb (by omega) (by omega)
              (by omega)
            simpa using this
          | succ i' =>
            have h1 := ih1 i' (by omega)
            rw [run_next_phys size D cp n i' hsD hpb (by omega)] at h1
            exact Installed_congr _ _ _ D _ (run_next_addr size D cv n i' hsD hb) h1
        · refine ih2 x v hx (fun k hk => ?_) (hkeep x v hx ?_ hinst)
          · rw [hconv k hk]
            exact hne (k + 1) (by omega)
          · have := hne 0 (by omega)
            simpa using this

theorem CalcMask_lt (size : Nat) (kernel : Bool) (attrs : Attributes) :
    CalcMask size kernel attrs < 0x10000000000000000 := by
  obtain ⟨e, w, c⟩ := attrs
  by_cases hs : size = 0x1000 <;> cases kernel <;> cases e <;> cases w <;>
    simp [CalcMask, hs]

/-- The machine after `Set` and whether it returned `true` do not depend on the
`overwrote` pointer; the flag written through a non-null pointer does not either. -/
theorem Set_pointer (s : State) (addr entry parentMask D : Nat) (ow : Option Bool) :
    (∀ h, Set s addr entry parentMask D (some false) = .error h →
      Set s addr entry parentMask D ow = .error h) ∧
    (∀ r, Set s addr entry parentMask D (some false) = .ok r →
      ∃ r', Set s addr entry parentMask D ow = .ok r' ∧ r'.ok = r.ok ∧ r'.state = r.state ∧
        (r.ok = true → r'.overwrote = ow.map (fun _ => r.overwrote == some true))) := by
  unfold Set
  split
  · simp
  · split
    · simp
    · split
      · simp
      · split
        · simp
        · refine ⟨by simp, fun r hr => ?_⟩
          simp only [Except.ok.injEq] at hr
          subst hr
          exact ⟨_, rfl, rfl, rfl, by simp⟩
        · refine ⟨by simp, fun r hr => ?_⟩
          simp only [Except.ok.injEq] at hr
          subst hr
          refine ⟨_, rfl, rfl, rfl, fun _ => ?_⟩
          cases ow <;> simp

/-- The loop of `SetList` against the flags of its individual `Set` calls. -/
theorem SetListLoop_flags (size parentMask D : Nat) :
    ∀ fuel cv cp ptr out s out' s',
      SetListLoop size parentMask D fuel cv cp ptr out s = .ok (out', s') →
      ∃ flags, SetListFlags size parentMask D fuel cv cp s = .ok flags ∧
        flags.length = fuel ∧
        (ptr = none → out' = out) ∧
        (ptr.isSome = true → out' = if fuel = 0 then out else some (flags.any id)) := by
  intro fuel
  induction fuel with
  | zero =>
    intro cv cp ptr out s out' s' h
    simp only [SetListLoop, Except.ok.injEq, Prod.mk.injEq] at h
    obtain ⟨rfl, -⟩ := h
    exact ⟨[], rfl, rfl, fun _ => rfl, fun _ => by simp⟩
  | succ n ih =>
    intro cv cp ptr out s out' s' h
    simp only [SetListLoop] at h
    split at h
    · simp at h
    · rename_i r hset
      split at h
      · simp at h
      · rename_i hok
        simp only [Bool.not_eq_false] at hok
        obtain ⟨herr, hokk⟩ := Set_pointer s cv cp parentMask D ptr
        cases hq : Set s cv cp parentMask D (some false) with
        | error e =>
          rw [herr e hq] at hset
          simp at hset
        | ok q =>
          obtain ⟨r', hr', hrok, hrst, hrow⟩ := hokk q hq
          rw [hset] at hr'
          simp only [Except.ok.injEq] at hr'
          subst hr'
          have hqok : q.ok = true := by rw [← hrok]; exact hok
          have hrow' := hrow hqok
          obtain ⟨flags, hf, hlen, hnone, hsome⟩ := ih _ _ _ _ _ _ _ h
          refine ⟨(q.overwrote == some true) :: flags, ?_, by simp [hlen], ?_, ?_⟩
          · simp only [SetListFlags, hq, hqok]
            rw [← hrst, hf]
            simp
          · intro hp
            subst hp
            simp only [Option.map_none'] at hrow'
            simp only [hrow'] at hnone hsome
            simp only [Option.isSome_none, Bool.false_eq_true, if_false] at hnone
            exact hnone (by simp)
          · intro hp
            obtain ⟨b, rfl⟩ := Option.isSome_iff_exists.1 hp
            simp only [Option.map_some'] at hrow'
            simp only [hrow', Option.isSome_some, if_true] at hnone hsome
            simp only [Nat.add_one_ne_zero, if_false, List.any_cons, id_eq]
            cases hb : (q.overwrote == some true)
            · simp only [hb] at hnone hsome
              simp only [Bool.false_or]
              have := hsome (by simp)
              rw [this]
              by_cases hn : n = 0
              · subst hn
                have : flags = [] := List.length_eq_zero.1 hlen
                subst this
                simp
              · simp [hn]
            · simp only [hb] at hnone hsome
              simp only [Bool.true_or]
              exact hnone (by simp)

/-- C8: for a run of at least one page with a non-null `overwrote` pointer, the flag left
behind the pointer when `SetList` returns is `true` exactly when at least one of the
`pageCount` individual `Set` calls reported an overwrite (`any` of their flags). -/
theorem SetList_overwrote (s s' : State) (virt phys : Nat) (size : Size) (parentMask : Nat)
    (b : Bool) (out : Option Bool) (hcount : 1 ≤ size.pageCount)
    (h : SetList s virt phys size parentMask (some b) = .ok (out, s')) :
    ∃ D flags, CalcDepth size.pageSize = .ok D ∧
      SetListFlags size.pageSize parentMask D size.pageCount virt phys s = .ok flags ∧
      flags.length = size.pageCount ∧ out = some (flags.any id) := by
  unfold SetList at h
  split at h
  · simp at h
  · split at h
    · simp at h
    · rename_i D hD
      obtain ⟨flags, hf, hlen, -, hsome⟩ :=
        SetListLoop_flags size.pageSize parentMask D _ _ _ _ _ _ _ _ h
      refine ⟨D, flags, hD, hf, hlen, ?_⟩
      have := hsome rfl
      rw [this]
      have : size.pageCount ≠ 0 := by omega
      simp [this]

/-- C8 (witness): three pages mapped over `sparseMachine`, the second of which was mapped
before. -/
theorem SetList_overwrote_witness :
    ∃ D flags, CalcDepth 0x1000 = .ok D ∧
      SetListFlags 0x1000 7 D 3 0x8000000000 0x5003 sparseMachine = .ok flags ∧
      flags.length = 3 ∧ threeOver.1 = some (flags.any id) :=
  SetList_overwrote sparseMachine threeOver.2 0x8000000000 0x5003 ⟨0x1000, 3⟩ 7 false
    threeOver.1 (by decide) rfl

theorem TableEmpty_iff (mem : Nat → Nat) (p : Nat) :
    TableEmpty mem p = true ↔ ∀ i, i < 0x200 → mem (p + 8 * i) = 0 := by
  simp [TableEmpty]

theorem GetTableEntry_mod8 (a d : Nat) : GetTableEntry a d % 8 = 0 := by
  unfold GetTableEntry
  simp only [and_not7]
  split_ifs <;> omega

/-- An entry is one of the 512 words of its table. -/
theorem entry_in_table_index (a d : Nat) :
    GetTableEntry a d = GetTableStart a d + 8 * (GetTableEntry a d % 4096 / 8) ∧
      GetTableEntry a d % 4096 / 8 < 0x200 := by
  have h := GetTableEntry_mod8 a d
  rw [GetTableStart_eq]
  omega

theorem TableEmpty_entry (mem : Nat → Nat) (a d : Nat)
    (h : TableEmpty mem (GetTableStart a d) = true) : mem (GetTableEntry a d) = 0 := by
  obtain ⟨h1, h2⟩ := entry_in_table_index a d
  rw [h1]
  exact (TableEmpty_iff mem _).1 h _ h2

theorem TableEmpty_mono (m m' : Nat → Nat) (p : Nat) (hz : ∀ a, m' a = m a ∨ m' a = 0)
    (h : TableEmpty m p = true) : TableEmpty m' p = true := by
  rw [TableEmpty_iff] at h ⊢
  intro i hi
  rcases hz (p + 8 * i) with h1 | h1
  · rw [h1]; exact h i hi
  · exact h1

theorem prunedFrames_succ (m0 m1 : Nat → Nat) (addr d n : Nat) (hn : n ≤ d)
    (h : ∀ k, d - n ≤ k → k < d → m1 (GetTableEntry addr k) = m0 (GetTableEntry addr k)) :
    prunedFrames m1 addr d n ++ [m0 (GetTableEntry addr d) &&& 0x7FFFFFFFFFFFF000] =
      prunedFrames m0 addr (d + 1) (n + 1) := by
  unfold prunedFrames
  rw [List.range_succ, List.map_append]
  have e1 : d + 1 - (n + 1) = d - n := by omega
  have e2 : d - n + n = d := by omega
  simp only [List.map_cons, List.map_nil, e1, e2]
  congr 1
  apply List.map_congr_left
  intro i hi
  rw [List.mem_range] at hi
  rw [h (d - n + i) (by omega) (by omega)]

theorem prunedInvlpg_succ (addr d n : Nat) (hn : n ≤ d) :
    prunedInvlpg addr d n ++ [(GetTableStart addr (d + 1), 0x1000)] =
      prunedInvlpg addr (d + 1) (n + 1) := by
  unfold prunedInvlpg
  rw [List.range_succ, List.map_append]
  have e1 : d + 1 - (n + 1) = d - n := by omega
  have e2 : d - n + n + 1 = d + 1 := by omega
  simp only [List.map_cons, List.map_nil, e1, e2]

/-- The pruning loop of `Unset` from depth `d`: it prunes the `n` tables at depths
`d - n + 1 .. d`, all empty, stops at the root or at a table that is not empty, frees
the frames held in the parents, and changes no other word. -/
theorem UnsetPrune_spec (addr : Nat) (hnf : ¬ InFractalSlot addr) :
    ∀ d s, d ≤ 3 → ∃ n, n ≤ d ∧
      (∀ k, d - n < k → k ≤ d →
        TableEmpty (UnsetPrune addr d s).mem (GetTableStart addr k) = true ∧
        (UnsetPrune addr d s).mem (GetTableEntry addr (k - 1)) = 0) ∧
      (n < d → TableEmpty (UnsetPrune addr d s).mem (GetTableStart addr (d - n)) = false) ∧
      (∀ a, (∀ k, d - n ≤ k → k < d → a ≠ GetTableEntry addr k) →
        (UnsetPrune addr d s).mem a = s.mem a) ∧
      (UnsetPrune addr d s).allocator.freed = prunedFrames s.mem addr d n ++ s.allocator.freed ∧
      (UnsetPrune addr d s).allocator.pool = s.allocator.pool ∧
      (UnsetPrune addr d s).allocator.allocated = s.allocator.allocated ∧
      (UnsetPrune addr d s).invlpg = prunedInvlpg addr d n ++ s.invlpg := by
  intro d
  induction d with
  | zero =>
    intro s _
    exact ⟨0, Nat.le_refl 0, fun k h1 h2 => by omega, fun h => by omega,
      fun a _ => rfl, rfl, rfl, rfl, rfl⟩
  | succ m ih =>
    intro s hm
    by_cases hempty : TableEmpty s.mem (GetTableStart addr (m + 1)) = true
    · have hunf : UnsetPrune addr (m + 1) s = UnsetPrune addr m
          { s with mem := Function.update s.mem (GetTableEntry addr m) 0
                   invlpg := (GetTableStart addr (m + 1), 0x1000) :: s.invlpg
                   allocator := s.allocator.Free
                    (s.mem (GetTableEntry addr m) &&& 0x7FFFFFFFFFFFF000) } := by
        simp only [UnsetPrune, hempty, if_true]
      rw [hunf]
      generalize hs1 : ({ s with
          mem := Function.update s.mem (GetTableEntry addr m) 0,
          invlpg := (GetTableStart addr (m + 1), 0x1000) :: s.invlpg,
          allocator := s.allocator.Free
            (s.mem (GetTableEntry addr m) &&& 0x7FFFFFFFFFFFF000) } : State) = s1
      have hm1 : s1.mem = Function.update s.mem (GetTableEntry addr m) 0 := by rw [← hs1]
      have hf1 : s1.allocator.freed =
          (s.mem (GetTableEntry addr m) &&& 0x7FFFFFFFFFFFF000) :: s.allocator.freed := by
        rw [← hs1]; rfl
      have hp1 : s1.allocator.pool = s.allocator.pool := by rw [← hs1]; rfl
      have ha1 : s1.allocator.allocated = s.allocator.allocated := by rw [← hs1]; rfl
      have hi1 : s1.invlpg = (GetTableStart addr (m + 1), 0x1000) :: s.invlpg := by rw [← hs1]
      obtain ⟨n, hn, c1, c2, c3, c4, c5, c6, c7⟩ := ih s1 (by omega)
      have hz := (UnsetPrune_zeros addr m s1).1
      refine ⟨n + 1, by omega, ?_, ?_, ?_, ?_, ?_, ?_, ?_⟩
      · intro k hk1 hk2
        by_cases hk : k = m + 1
        · subst hk
          refine ⟨?_, ?_⟩
          · apply TableEmpty_mono _ _ _ hz
            apply TableEmpty_mono s.mem _ _ _ hempty
            intro a
            rw [hm1]
            by_cases ha : a = GetTableEntry addr m
            · right; rw [ha]; simp
            · left; simp [Function.update_noteq ha]
          · simp only [Nat.add_sub_cancel]
            rcases hz (GetTableEntry addr m) with h | h
            · rw [h, hm1]; simp
            · exact h
        · exact c1 k (by omega) (by omega)
      · intro hlt
        have e : m + 1 - (n + 1) = m - n := by omega
        rw [e]
        exact c2 (by omega)
      · intro a ha
        have e : m + 1 - (n + 1) = m - n := by omega
        rw [c3 a (fun k h1 h2 => ha k (by omega) (by omega)), hm1]
        exact Function.update_noteq (ha m (by omega) (by omega)) _ _
      · rw [c4, hf1, ← prunedFrames_succ s.mem s1.mem addr m n hn]
        · simp
        · intro k h1 h2
          rw [hm1]
          have hne : GetTableEntry addr k ≠ GetTableEntry addr m := fun he => by
            have := entry_level_inj addr addr k m (by omega) (by omega) hnf hnf he
            omega
          exact Function.update_noteq hne _ _
      · rw [c5, hp1]
      · rw [c6, ha1]
      · rw [c7, hi1, ← prunedInvlpg_succ addr m n hn]
        simp
    · have hunf : UnsetPrune addr (m + 1) s = s := by
        simp only [UnsetPrune, hempty]
        simp
      rw [hunf]
      refine ⟨0, by omega, fun k h1 h2 => by omega, fun _ => ?_, fun a _ => rfl, rfl, rfl, rfl,
        rfl⟩
      simpa using hempty

/-- The first loop of `Unset`, when it ends without a panic, stops at a depth below which
every entry is present and not large. -/
theorem UnsetLoop_spec (mem : Nat → Nat) (addr : Nat) :
    ∀ fuel depth d, UnsetLoop mem addr fuel depth = .ok d →
      depth ≤ d ∧ d ≤ depth + fuel ∧
      ∀ j, depth ≤ j → j < d →
        mem (GetTableEntry addr j) % 2 = 1 ∧ mem (GetTableEntry addr j) / 128 % 2 = 0 := by
  intro fuel
  induction fuel with
  | zero =>
    intro depth d h
    simp only [UnsetLoop, Except.ok.injEq] at h
    subst h
    exact ⟨Nat.le_refl _, by omega, fun j h1 h2 => by omega⟩
  | succ n ih =>
    intro depth d h
    rw [UnsetLoop_step] at h
    split at h
    · simp only [Except.ok.injEq] at h
      subst h
      exact ⟨Nat.le_refl _, by omega, fun j h1 h2 => by omega⟩
    · rename_i h7
      split at h
      · simp at h
      · rename_i h0
        obtain ⟨h1, h2, h3⟩ := ih (depth + 1) d h
        refine ⟨by omega, by omega, fun j hj1 hj2 => ?_⟩
        by_cases hj : j = depth
        · subst hj; omega
        · exact h3 j (by omega) hj2

/-- Inversion of an `Unset` that returned. -/
theorem Unset_inv (s s' : State) (addr : Nat) (b : Bool) (h : Unset s addr = .ok (b, s')) :
    entryChecks s = .ok () ∧ addr &&& 0xfff = 0 ∧ b = true ∧
    ∃ d, UnsetLoop s.mem addr 3 0 = .ok d ∧
      s' = UnsetPrune addr d { s with mem := Function.update s.mem (GetTableEntry addr d) 0 } := by
  unfold Unset at h
  split at h
  · simp at h
  · rename_i u hchk
    split at h
    · simp at h
    · rename_i hal
      split at h
      · simp at h
      · rename_i d hd
        simp only [Except.ok.injEq, Prod.mk.injEq] at h
        cases u
        exact ⟨hchk, by simpa using hal, h.1.symm, d, hd, h.2.symm⟩

/-- C9 (amended): `Unset` outside the self-referential slot, having removed the entry at
the depth `d` where the mapping ends, prunes the `n` tables at depths `d - n + 1 .. d` and
no other: a table on the path is all zero afterwards exactly when it is one of these; the
parent entry of each pruned table is zero and the frame it held was passed to `Free`
once (`prunedFrames` has one frame per pruned table, and the log grows by exactly these);
the entries above the first table that is not empty are unchanged and still present; no
other word changes; and the root is not freed when no entry on the path holds the address
of the root. -/
theorem Unset_prunes (s s' : State) (addr : Nat) (b : Bool) (hnf : ¬ InFractalSlot addr)
    (h : Unset s addr = .ok (b, s')) :
    ∃ d n, UnsetLoop s.mem addr 3 0 = .ok d ∧ d ≤ 3 ∧ n ≤ d ∧ b = true ∧
      s'.mem (GetTableEntry addr d) = 0 ∧
      (∀ k, 1 ≤ k → k ≤ d →
        (TableEmpty s'.mem (GetTableStart addr k) = true ↔ d - n < k)) ∧
      (∀ k, d - n < k → k ≤ d → s'.mem (GetTableEntry addr (k - 1)) = 0) ∧
      (∀ k, k < d - n → s'.mem (GetTableEntry addr k) = s.mem (GetTableEntry addr k) ∧
        s.mem (GetTableEntry addr k) &&& 1 ≠ 0) ∧
      (∀ a, (∀ k, d - n ≤ k → k ≤ d → a ≠ GetTableEntry addr k) → s'.mem a = s.mem a) ∧
      s'.allocator.freed = prunedFrames s.mem addr d n ++ s.allocator.freed ∧
      (prunedFrames s.mem addr d n).length = n ∧
      s'.allocator.pool = s.allocator.pool ∧
      s'.allocator.allocated = s.allocator.allocated ∧
      s'.invlpg = prunedInvlpg addr d n ++ s.invlpg ∧
      ((∀ k, k < d → s.mem (GetTableEntry addr k) &&& 0x7FFFFFFFFFFFF000 ≠ s.pml4) →
        s.pml4 ∉ prunedFrames s.mem addr d n) := by
  obtain ⟨-, -, hb, d, hd, hs'⟩ := Unset_inv s s' addr b h
  obtain ⟨-, hd3, hlinked⟩ := UnsetLoop_spec s.mem addr 3 0 d hd
  have hd3' : d ≤ 3 := by omega
  obtain ⟨n, hn, c1, c2, c3, c4, c5, c6, c7⟩ := UnsetPrune_spec addr hnf d
    { s with mem := Function.update s.mem (GetTableEntry addr d) 0 } hd3'
  rw [← hs'] at c1 c2 c3 c4 c5 c6 c7
  simp only at c3 c4 c5 c6 c7
  have hz := (UnsetPrune_zeros addr d
    { s with mem := Function.update s.mem (GetTableEntry addr d) 0 }).1
  rw [← hs'] at hz
  simp only at hz
  have hne : ∀ k, k < d → GetTableEntry addr k ≠ GetTableEntry addr d := fun k hk he => by
    have := entry_level_inj addr addr k d (by omega) (by omega) hnf hnf he
    omega
  have hkeep : ∀ k, k < d - n → s'.mem (GetTableEntry addr k) = s.mem (GetTableEntry addr k) := by
    intro k hk
    rw [c3 _ (fun j h1 h2 he => by
      have := entry_level_inj addr addr k j (by omega) (by omega) hnf hnf he
      omega)]
    exact Function.update_noteq (hne k (by omega)) _ _
  have hfr : prunedFrames (Function.update s.mem (GetTableEntry addr d) 0) addr d n =
      prunedFrames s.mem addr d n := by
    unfold prunedFrames
    apply List.map_congr_left
    intro i hi
    rw [List.mem_range] at hi
    rw [Function.update_noteq (hne (d - n + i) (by omega))]
  refine ⟨d, n, hd, hd3', hn, hb, ?_, ?_, fun k h1 h2 => (c1 k h1 h2).2, ?_, ?_, ?_, ?_, c5, c6,
    c7, ?_⟩
  · rcases hz (GetTableEntry addr d) with h1 | h1
    · rw [h1]; simp
    · exact h1
  · intro k hk1 hk2
    constructor
    · intro he
      by_contra hcon
      by_cases hkn : k = d - n
      · have := c2 (by omega)
        rw [← hkn, he] at this
        simp at this
      · have h0 := TableEmpty_entry s'.mem addr k he
        rw [hkeep k (by omega)] at h0
        have := (hlinked k (Nat.zero_le k) (by omega)).1
        omega
    · intro hk
      exact (c1 k hk hk2).1
  · intro k hk
    refine ⟨hkeep k hk, ?_⟩
    rw [Nat.and_one_is_mod]
    have := (hlinked k (Nat.zero_le k) (by omega)).1
    omega
  · intro a ha
    rw [c3 a (fun k h1 h2 => ha k h1 (by omega))]
    exact Function.update_noteq (ha d (by omega) (Nat.le_refl d)) _ _
  · rw [c4, hfr]
  · simp [prunedFrames]
  · intro hroot hmem
    unfold prunedFrames at hmem
    rw [List.mem_map] at hmem
    obtain ⟨i, hi, he⟩ := hmem
    rw [List.mem_range] at hi
    exact hroot (d - n + i) (by omega) he

/-- C9 (witness): unmapping the only page of `singleMapping` prunes its three tables. -/
theorem Unset_prunes_witness :
    ∃ d n, UnsetLoop singleMapping.mem 0x8000000000 3 0 = .ok d ∧ d ≤ 3 ∧ n ≤ d ∧
      unmappedSingle.1 = true ∧
      unmappedSingle.2.mem (GetTableEntry 0x8000000000 d) = 0 ∧
      (∀ k, 1 ≤ k → k ≤ d →
        (TableEmpty unmappedSingle.2.mem (GetTableStart 0x8000000000 k) = true ↔ d - n < k)) ∧
      (∀ k, d - n < k → k ≤ d →
        unmappedSingle.2.mem (GetTableEntry 0x8000000000 (k - 1)) = 0) ∧
      (∀ k, k < d - n →
        unmappedSingle.2.mem (GetTableEntry 0x8000000000 k)
          = singleMapping.mem (GetTableEntry 0x8000000000 k) ∧
        singleMapping.mem (GetTableEntry 0x8000000000 k) &&& 1 ≠ 0) ∧
      (∀ a, (∀ k, d - n ≤ k → k ≤ d → a ≠ GetTableEntry 0x8000000000 k) →
        unmappedSingle.2.mem a = singleMapping.mem a) ∧
      unmappedSingle.2.allocator.freed
        = prunedFrames singleMapping.mem 0x8000000000 d n ++ singleMapping.allocator.freed ∧
      (prunedFrames singleMapping.mem 0x8000000000 d n).length = n ∧
      unmappedSingle.2.allocator.pool = singleMapping.allocator.pool ∧
      unmappedSingle.2.allocator.allocated = singleMapping.allocator.allocated ∧
      unmappedSingle.2.invlpg = prunedInvlpg 0x8000000000 d n ++ singleMapping.invlpg ∧
      ((∀ k, k < d → singleMapping.mem (GetTableEntry 0x8000000000 k) &&& 0x7FFFFFFFFFFFF000
          ≠ singleMapping.pml4) →
        singleMapping.pml4 ∉ prunedFrames singleMapping.mem 0x8000000000 d n) :=
  Unset_prunes singleMapping unmappedSingle.2 0x8000000000 unmappedSingle.1 (by decide)
    rfl

/-- C10 (the code at the failing input): an address space maps one 4 KiB page at
`0x8000000000` with `MapAt` (three tables are allocated: `0x2000`, `0x3000`, `0x4000`),
then maps a 2 MiB page at the same address with `MapAt` (the entry that pointed at the
page table `0x4000` is replaced by the large-page entry), and is destroyed.  The frames
obtained were `0x1000 .. 0x4000`; the frames freed are `0x1000`, `0x2000`, `0x3000`:
the page table `0x4000` is never passed to `Free`. -/
theorem MapAt_large_over_small_leaks_table :
    smallThenLarge.toOption.map (fun s => (s.allocator.allocated, s.allocator.freed,
      s.mem (GetTableEntry 0x8000000000 2), pathTables s))
      = some ([0x4000, 0x3000, 0x2000, 0x1000], [], 0x8000000000600087,
          [(0x1000, 0xFFFFFFFFFFFFF000), (0x2000, 0xFFFFFFFFFFE01000),
           (0x3000, 0xFFFFFFFFC0200000)]) ∧
    smallThenLargeDestroyed.toOption.map (fun s => (s.allocator.allocated, s.allocator.freed))
      = some ([0x4000, 0x3000, 0x2000, 0x1000], [0x1000, 0x2000, 0x3000]) ∧
    0x4000 ∉ [0x1000, 0x2000, 0x3000] := by
  refine ⟨rfl, rfl, by decide⟩

theorem Reachable_congr (mem : Nat → Nat) (a b D v : Nat)
    (h : a % 0x1000000000000 = b % 0x1000000000000) (hi : Reachable mem a D v) :
    Reachable mem b D v := by
  unfold Reachable AncestorsLinked at hi ⊢
  simp only [GetTableEntry_congr b a _ h.symm]
  exact hi

/-- The ancestor loop of `Set` only shortens the pool of the allocator. -/
theorem SetLoop_pool (y parentMask D : Nat) (s s1 : State) (b : Bool)
    (h : SetLoop y parentMask D 0 s = .ok (b, s1)) :
    ∀ f, f ∈ s1.allocator.pool → f ∈ s.allocator.pool := by
  have key := SetLoop_rule y parentMask D
    (fun _ t => ∀ f, f ∈ t.allocator.pool → f ∈ s.allocator.pool)
    ?_ ?_ D 0 s b s1 (by omega) (fun f hf => hf) h
  · cases b
    · obtain ⟨k, -, hk, -⟩ := key.2 rfl
      exact hk
    · exact key.1 rfl
  · intro k t fresh a _ hp _ hal f hf
    obtain ⟨hpl, -, -⟩ := Alloc_some hal
    exact hp f (by simp [hpl, hf])
  · intro k t _ hp _ _
    exact hp

/-- The ancestor loop of `Set` on `y` keeps a mapping of `x` that can be walked. -/
theorem SetLoop_keeps_linked (x y parentMask D v : Nat) (s s1 : State) (hD : D ≤ 3)
    (hx : ¬ InFractalSlot x) (hy : ¬ InFractalSlot y) (hpm7 : parentMask / 128 % 2 = 0)
    (hinst : Reachable s.mem x D v)
    (h : SetLoop y parentMask D 0 s = .ok (true, s1)) :
    Reachable s1.mem x D v := by
  have key := SetLoop_rule y parentMask D (fun _ t => Reachable t.mem x D v)
    ?_ ?_ D 0 s true s1 (by omega) hinst h
  · exact key.1 rfl
  · intro k t fresh a hk hp habs _
    have hne : ∀ j, j ≤ D → GetTableEntry x j ≠ GetTableEntry y k := by
      intro j hj he
      have hjk := entry_level_inj x y j k (by omega) (by omega) hx hy he
      subst hjk
      have := (hp.1 j hk).1
      rw [he] at this
      omega
    have hout : ∀ j, j ≤ D → ¬ (GetTableStart y (k + 1) ≤ GetTableEntry x j ∧
        GetTableEntry x j < GetTableStart y (k + 1) + 0x1000) := by
      intro j hj hin
      have hjk := entry_in_table_level x y j (k + 1) (by omega) (by omega) hx hy hin.1 hin.2
      subst hjk
      have he := entry_in_table_parent x y k (by omega) hin.1 hin.2
      have := (hp.1 k (by omega)).1
      rw [he] at this
      omega
    refine ⟨fun j hj => ?_, ?_⟩
    · simp only [Bzero, hout j (by omega), if_false, Function.update_noteq (hne j (by omega))]
      exact hp.1 j hj
    · simp only [Bzero, hout D (Nat.le_refl D), if_false,
        Function.update_noteq (hne D (Nat.le_refl D))]
      exact hp.2
  · intro k t hk hp hpres hsmall
    refine ⟨fun j hj => ?_, ?_⟩
    · by_cases he : GetTableEntry x j = GetTableEntry y k
      · rw [he]
        simp only [Function.update_same]
        refine ⟨(or_bit0_iff _ _).2 (Or.inl hpres), ?_⟩
        have := or_bit7_iff (t.mem (GetTableEntry y k)) parentMask
        omega
      · simp only [Function.update_noteq he]
        exact hp.1 j hj
    · have hne : GetTableEntry x D ≠ GetTableEntry y k := fun he => by
        have := entry_level_inj x y D k (by omega) (by omega) hx hy he
        omega
      simp only [Function.update_noteq hne]
      exact hp.2

/-- A successful `Set` on `y` makes its mapping walkable, keeps every walkable mapping of
the same depth whose leaf entry is another word, and keeps the pool aligned. -/
theorem Set_installs_linked (s : State) (y entry parentMask D : Nat) (ow : Option Bool)
    (r : SetResult) (hy : ¬ InFractalSlot y)
    (hpm0 : parentMask % 2 = 1) (hpm7 : parentMask / 128 % 2 = 0)
    (hpool : ∀ f ∈ s.allocator.pool, f % 0x1000 = 0)
    (h : Set s y entry parentMask D ow = .ok r) (hok : r.ok = true) :
    Reachable r.state.mem y D entry ∧
    (∀ x v, ¬ InFractalSlot x → GetTableEntry x D ≠ GetTableEntry y D →
      Reachable s.mem x D v → Reachable r.state.mem x D v) ∧
    (∀ f ∈ r.state.allocator.pool, f % 0x1000 = 0) ∧
    entryChecks r.state = entryChecks s := by
  obtain ⟨-, hD, -, s1, hloop, -, hst⟩ := Set_true_inv s y entry parentMask D ow r h hok
  have hlevel : ∀ x j, ¬ InFractalSlot x → j < D → GetTableEntry x j ≠ GetTableEntry y D := by
    intro x j hx hj he
    have := entry_level_inj x y j D (by omega) (by omega) hx hy he
    omega
  obtain ⟨f1, f2, f3, -⟩ := SetLoop_fields y parentMask D s s1 true hloop
  refine ⟨⟨fun j hj => ?_, ?_⟩, fun x v hx hne hinst => ?_, fun f hf => ?_, ?_⟩
  · rw [hst]
    simp only [Function.update_noteq (hlevel y j hy hj)]
    exact SetLoop_links y parentMask D s s1 (by omega) hy hpm0 hpm7 hpool hloop j hj
  · rw [hst]
    simp
  · have hk := SetLoop_keeps_linked x y parentMask D v s s1 (by omega) hx hy hpm7 hinst hloop
    rw [hst]
    refine ⟨fun j hj => ?_, ?_⟩
    · simp only [Function.update_noteq (hlevel x j hx hj)]
      exact hk.1 j hj
    · simp only [Function.update_noteq hne]
      exact hk.2
  · rw [hst] at hf
    exact hpool f (SetLoop_pool y parentMask D s s1 true hloop f hf)
  · apply entryChecks_congr <;> simp [hst, f1, f2, f3]

/-- The loop of `SetList`: when it ends without a halt, each page of the run can be walked
down to its entry. -/
theorem SetListLoop_run_linked (size parentMask D : Nat) (hsD : SizeDepth size D)
    (hpm0 : parentMask % 2 = 1) (hpm7 : parentMask / 128 % 2 = 0) :
    ∀ fuel cv cp ptr out s out' s',
      cv % 0x1000000000000 + fuel * size ≤ 0xFF8000000000 →
      cp + fuel * size < 2 ^ 64 + size →
      (∀ f ∈ s.allocator.pool, f % 0x1000 = 0) →
      SetListLoop size parentMask D fuel cv cp ptr out s = .ok (out', s') →
      (∀ i, i < fuel → Reachable s'.mem (cv + i * size) D (cp + i * size)) ∧
      (∀ x v, ¬ InFractalSlot x →
        (∀ i, i < fuel → GetTableEntry x D ≠ GetTableEntry (cv + i * size) D) →
        Reachable s.mem x D v → Reachable s'.mem x D v) ∧
      entryChecks s' = entryChecks s := by
  intro fuel
  induction fuel with
  | zero =>
    intro cv cp ptr out s out' s' _ _ _ h
    simp only [SetListLoop, Except.ok.injEq, Prod.mk.injEq] at h
    obtain ⟨-, rfl⟩ := h
    exact ⟨fun i hi => absurd hi (Nat.not_lt_zero i), fun x v _ _ hx => hx, rfl⟩
  | succ n ih =>
    intro cv cp ptr out s out' s' hb hpb hpool h
    simp only [SetListLoop] at h
    split at h
    · simp at h
    · rename_i r hset
      split at h
      · simp at h
      · rename_i hok
        simp only [Bool.not_eq_false] at hok
        have hnf := run_not_fractal size D cv n hsD hb
        obtain ⟨hself, hkeep, hpool', hchk⟩ :=
          Set_installs_linked s cv cp parentMask D ptr r hnf hpm0 hpm7 hpool hset hok
        have hb' := run_next_bound size D cv n hsD hb
        have hpb' := run_next_phys_bound size D cp n hsD hpb
        obtain ⟨ih1, ih2, ih3⟩ := ih _ _ _ _ r.state out' s' hb' hpb' hpool' h
        have hconv : ∀ i, i < n → ∀ d,
            GetTableEntry ((cv + size) % 2 ^ 64 + i * size) d =
              GetTableEntry (cv + (i + 1) * size) d := fun i _ d =>
          GetTableEntry_congr _ _ d (run_next_addr size D cv n i hsD hb)
        refine ⟨fun i hi => ?_, fun x v hx hne hinst => ?_, ih3.trans hchk⟩
        · cases i with
          | zero =>
            simp only [Nat.zero_mul, Nat.add_zero]
            refine ih2 cv cp hnf (fun k hk => ?_) hself
            rw [hconv k hk]
            have := run_leaf_distinct size D cv (n + 1) 0 (k + 1) hsD hb (by omega) (by omega)
              (by omega)
            simpa using this
          | succ i' =>
            have h1 := ih1 i' (by omega)
            rw [run_next_phys size D cp n i' hsD hpb (by omega)] at h1
            exact Reachable_congr _ _ _ D _ (run_next_addr size D cv n i' hsD hb) h1
        · refine ih2 x v hx (fun k hk => ?_) (hkeep x v hx ?_ hinst)
          · rw [hconv k hk]
            exact hne (k + 1) (by omega)
          · have := hne 0 (by omega)
            simpa using this

/-- `Read` of a walkable mapping whose leaf entry was built with `CalcMask`. -/
theorem Read_of_reachable (s : State) (addr p size D : Nat) (kernel : Bool)
    (attrs : Attributes) (hchk : entryChecks s = .ok ())
    (hsize : size = 0x1000 ∨ size = 0x200000) (hD : CalcDepth size = .ok D)
    (hp : p % size = 0) (hp63 : p < 2 ^ 63)
    (hr : Reachable s.mem addr D (p ||| CalcMask size kernel attrs)) :
    Read s addr = .ok
      { found := true
        phys := some p
        attr := some { executable := attrs.executable, writable := attrs.writable,
                       cachable := true }
        size := size } := by
  obtain ⟨m0, m7, m1, m63, mlow⟩ := CalcMask_bits size kernel attrs
  have hp4 : p % 4096 = 0 := by rcases hsize with rfl | rfl <;> omega
  have hsum := or_flags_eq_add p (CalcMask size kernel attrs) hp4 (by simpa using hp63) mlow
  have hD' : (size = 0x1000 ∧ D = 3) ∨ (size = 0x200000 ∧ D = 2) := by
    rcases hsize with rfl | rfl <;> simp [CalcDepth] at hD <;> simp [hD]
  have hleaf : (p ||| CalcMask size kernel attrs) / 128 % 2 = 1 ∨
      (D = 3 ∧ (p ||| CalcMask size kernel attrs) % 2 = 1) := by
    rw [hsum]
    rcases hD' with ⟨rfl, rfl⟩ | ⟨rfl, rfl⟩
    · right; exact ⟨rfl, by omega⟩
    · left; simp at m7; omega
  have hw := Walk_of_linked s addr D _ hchk
    (by rcases hD' with ⟨-, rfl⟩ | ⟨-, rfl⟩ <;> omega) hr.1 hr.2 hleaf
  have hne : p ||| CalcMask size kernel attrs ≠ 0 := by rw [hsum]; omega
  rw [Read_of_Walk s addr D _ _ hchk hw (by rcases hD' with ⟨-, rfl⟩ | ⟨-, rfl⟩ <;> omega) hne]
  simp only [and_7ffffffffffff000, and_7fffffffffe00000, and_bit63, and_2, hsum]
  have hsz : 0x1000 <<< (27 - 9 * D) = size := by
    rcases hD' with ⟨rfl, rfl⟩ | ⟨rfl, rfl⟩ <;> rfl
  have hph : (if D = 3 then
      4096 * ((p + CalcMask size kernel attrs) % 0x8000000000000000 / 4096)
      else 0x200000 * ((p + CalcMask size kernel attrs) % 0x8000000000000000 / 0x200000)) = p := by
    rcases hD' with ⟨rfl, rfl⟩ | ⟨rfl, rfl⟩
    · simp only [if_true]; omega
    · simp only [show ¬ (2 = 3) by decide, if_false]; omega
  have hex : decide (0x8000000000000000 *
      ((p + CalcMask size kernel attrs) % 0x10000000000000000 / 0x8000000000000000) = 0)
      = attrs.executable := by
    cases hx : attrs.executable <;> simp [hx] at m63 ⊢ <;> omega
  have hwr : decide (2 * ((p + CalcMask size kernel attrs) / 2 % 2) ≠ 0) = attrs.writable := by
    cases hx : attrs.writable <;> simp [hx] at m1 ⊢ <;> omega
  rw [hsz, hph, hex, hwr]

/-- The scenario of the specification: after `SetList` mapped `n` pages of 4 KiB or
2 MiB (run below the self-referential slot, physical run below `2 ^ 63`, parent flags
with the present bit and without the large-page bit, aligned frames), `Read` of page `i`
returns the physical address `p + i * pageSize`, the page size, and the attributes with
the executable and writable fields that were set and `cachable = true`. -/
theorem SetList_then_Read (s s' : State) (virt p n size parentMask D i : Nat) (kernel : Bool)
    (attrs : Attributes) (ow out : Option Bool)
    (hsize : size = 0x1000 ∨ size = 0x200000) (hD : CalcDepth size = .ok D)
    (hvirt : virt % 2 ^ 48 + n * size ≤ 0xFF8000000000)
    (hp : p % size = 0) (hpn : p + n * size ≤ 2 ^ 63)
    (hpm0 : parentMask &&& 1 ≠ 0) (hpm7 : parentMask &&& 0x80 = 0)
    (hpool : ∀ f ∈ s.allocator.pool, f % 0x1000 = 0)
    (h : SetList s virt (p ||| CalcMask size kernel attrs) ⟨size, n⟩ parentMask ow
      = .ok (out, s'))
    (hi : i < n) :
    Read s' ((virt + i * size) % 2 ^ 64) = .ok
      { found := true
        phys := some (p + i * size)
        attr := some { executable := attrs.executable, writable := attrs.writable,
                       cachable := true }
        size := size } := by
  rw [Nat.and_one_is_mod] at hpm0
  rw [and_80] at hpm7
  have hsD := (CalcDepth_ok_iff size D).1 hD
  obtain ⟨-, -, -, -, mlow⟩ := CalcMask_bits size kernel attrs
  have mlt := CalcMask_lt size kernel attrs
  have hi' : (p + i * size) % size = 0 ∧ (p + i * size) % 4096 = 0 ∧
      p + i * size < 0x8000000000000000 ∧ p % 4096 = 0 ∧
      p < 0x8000000000000000 ∧ p + n * size < 0x8000000000000000 + 1 := by
    rcases hsize with rfl | rfl <;> omega
  have hsum := or_flags_eq_add p (CalcMask size kernel attrs) hi'.2.2.2.1 hi'.2.2.2.2.1 mlow
  unfold SetList at h
  split at h
  · simp at h
  · rename_i u hchk
    cases u
    simp only [hD] at h
    have hrun := SetListLoop_run_linked size parentMask D hsD (by omega) (by omega) n virt
      (p ||| CalcMask size kernel attrs) ow ow s out s' (by simpa using hvirt)
      (by rw [hsum]; rcases hsD with ⟨rfl, -⟩ | ⟨rfl, -⟩ | ⟨rfl, -⟩ <;> omega) hpool h
    have h1 := hrun.1 i hi
    have h2 : Reachable s'.mem ((virt + i * size) % 2 ^ 64) D
        ((p + i * size) ||| CalcMask size kernel attrs) := by
      have := Reachable_congr _ (virt + i * size) ((virt + i * size) % 2 ^ 64) D _ (by omega) h1
      rw [or_flags_eq_add (p + i * size) (CalcMask size kernel attrs) hi'.2.1 hi'.2.2.1 mlow]
      rw [hsum] at this
      have e : p + CalcMask size kernel attrs + i * size
          = p + i * size + CalcMask size kernel attrs := by omega
      rw [e] at this
      exact this
    exact Read_of_reachable s' _ (p + i * size) size D kernel attrs
      (hrun.2.2.trans hchk) hsize hD hi'.1 (by omega) h2

/-- The first loop of `Unset` passes every linked ancestor. -/
theorem UnsetLoop_linked (mem : Nat → Nat) (addr k : Nat) (h : AncestorsLinked mem addr k) :
    ∀ n fuel, n ≤ k → UnsetLoop mem addr (k - n + fuel) n = UnsetLoop mem addr fuel k := by
  intro n fuel hn
  generalize hm : k - n = m
  induction m generalizing n with
  | zero =>
    have : k = n := by omega
    subst this
    simp
  | succ m ih =>
    have h1 := h n (by omega)
    rw [Nat.add_right_comm, UnsetLoop_step]
    have h7 : ¬ (mem (GetTableEntry addr n) / 128 % 2 = 1) := by omega
    have h0 : ¬ (mem (GetTableEntry addr n) % 2 = 0) := by omega
    rw [if_neg h7, if_neg h0]
    exact ih (n + 1) (by omega) (by omega)

/-- The part of the no-mapping check that `Unset` does make: when a table on the path is
missing (an absent entry without the large-page bit at a depth `k <= 2`, below linked
ancestors), `Unset` stops on `Panic("PageTable::Unset() - no mapping found")`. -/
theorem Unset_missing_table_panics (s : State) (addr k : Nat)
    (hchk : entryChecks s = .ok ()) (halign : addr &&& 0xfff = 0) (hk : k ≤ 2)
    (hanc : AncestorsLinked s.mem addr k)
    (h0 : s.mem (GetTableEntry addr k) &&& 1 = 0)
    (h7 : s.mem (GetTableEntry addr k) &&& 0x80 = 0) :
    Unset s addr = .error Halt.panicUnsetNoMapping := by
  rw [Nat.and_one_is_mod] at h0
  rw [and_80] at h7
  have h7' : ¬ (s.mem (GetTableEntry addr k) / 128 % 2 = 1) := by omega
  have hr : UnsetLoop s.mem addr (3 - k) k = .error Halt.panicUnsetNoMapping := by
    have e2 : 3 - k = (2 - k) + 1 := by omega
    rw [e2, UnsetLoop_step, if_neg h7', if_pos h0]
  have h1 := UnsetLoop_linked s.mem addr k hanc 0 (3 - k) (Nat.zero_le k)
  have e1 : k - 0 + (3 - k) = 3 := by omega
  rw [e1, hr] at h1
  unfold Unset
  simp only [hchk, halign, h1]
  simp

/-- C16 (counterexample): the top-level entry is `0x80`, absent with the large-page bit;
the reference walk of the claim reports not-found, `Walk` returns depth 0. -/
theorem C16_counterexample :
    (referenceWalk absentLargeMachine.mem 0x8000000000).depth = -1 ∧
    (Walk absentLargeMachine 0x8000000000).toOption.map (fun w => w.depth) = some 0 :=
  ⟨rfl, rfl⟩

theorem Walk_reference (s : State) (addr : Nat) (hchk : entryChecks s = .ok ()) :
    Walk s addr = .ok (referenceWalkLargeFirst s.mem addr) := by
  unfold Walk
  simp only [hchk, WalkLoop_step, referenceWalkLargeFirst, firstStop, Nat.and_one_is_mod, and_80]
  have c : ∀ e : Nat, (e % 2 = 0 ∨ 128 * (e / 128 % 2) ≠ 0) ↔ (e / 128 % 2 = 1 ∨ e % 2 = 0) := by
    intro e; omega
  simp only [c]
  by_cases h0 : s.mem (GetTableEntry addr 0) / 128 % 2 = 1 ∨ s.mem (GetTableEntry addr 0) % 2 = 0
  · simp only [if_pos h0]
    by_cases g : s.mem (GetTableEntry addr 0) / 128 % 2 = 1
    · have g1 : 128 * (s.mem (GetTableEntry addr 0) / 128 % 2) ≠ 0 := by omega
      simp [g1]
    · have g1 : 128 * (s.mem (GetTableEntry addr 0) / 128 % 2) = 0 := by omega
      have g2 : s.mem (GetTableEntry addr 0) % 2 = 0 := by omega
      simp [g1, g2]
  · simp only [if_neg h0]
    by_cases h1 : s.mem (GetTableEntry addr 1) / 128 % 2 = 1 ∨
        s.mem (GetTableEntry addr 1) % 2 = 0
    · simp only [if_pos h1]
      by_cases g : s.mem (GetTableEntry addr 1) / 128 % 2 = 1
      · have g1 : 128 * (s.mem (GetTableEntry addr 1) / 128 % 2) ≠ 0 := by omega
        simp [g1]
      · have g1 : 128 * (s.mem (GetTableEntry addr 1) / 128 % 2) = 0 := by omega
        have g2 : s.mem (GetTableEntry addr 1) % 2 = 0 := by omega
        simp [g1, g2]
    · simp only [if_neg h1]
      by_cases h2 : s.mem (GetTableEntry addr 2) / 128 % 2 = 1 ∨
          s.mem (GetTableEntry addr 2) % 2 = 0
      · simp only [if_pos h2]
        by_cases g : s.mem (GetTableEntry addr 2) / 128 % 2 = 1
        · have g1 : 128 * (s.mem (GetTableEntry addr 2) / 128 % 2) ≠ 0 := by omega
          simp [g1]
        · have g1 : 128 * (s.mem (GetTableEntry addr 2) / 128 % 2) = 0 := by omega
          have g2 : s.mem (GetTableEntry addr 2) % 2 = 0 := by omega
          simp [g1, g2]
      · simp only [if_neg h2]
        by_cases h3 : s.mem (GetTableEntry addr 3) / 128 % 2 = 1 ∨
            s.mem (GetTableEntry addr 3) % 2 = 0
        · simp only [if_pos h3]
          by_cases g : s.mem (GetTableEntry addr 3) / 128 % 2 = 1
          · have g1 : 128 * (s.mem (GetTableEntry addr 3) / 128 % 2) ≠ 0 := by omega
            simp [g1]
          · have g1 : 128 * (s.mem (GetTableEntry addr 3) / 128 % 2) = 0 := by omega
            have g2 : s.mem (GetTableEntry addr 3) % 2 = 0 := by omega
            simp [g1, g2]
        · simp only [if_neg h3]
          have g1 : 128 * (s.mem (GetTableEntry addr 3) / 128 % 2) = 0 := by omega
          have g2 : ¬ s.mem (GetTableEntry addr 3) % 2 = 0 := by omega
          simp [WalkLoop, g1, g2]

/-- C16 (amended): on the active table outside a critical section, `Walk` is the reference
walk that tests the large-page bit first: with `d` the smallest depth whose entry is absent
or has the large-page bit (or 3), `Walk` returns `-1` exactly when that entry is absent
and has no large-page bit, and otherwise `d`; in both cases with that entry and the size
`4 KiB << 9 * (3 - d)`. -/
theorem Walk_eq_reference (s : State) (addr : Nat) (hchk : entryChecks s = .ok ()) :
    Walk s addr = .ok (referenceWalkLargeFirst s.mem addr) :=
  Walk_reference s addr hchk

/-- C16 (witness): the walk of the mapped page of `sparseMachine`. -/
theorem Walk_eq_reference_witness :
    Walk sparseMachine 0x8000001000 = .ok (referenceWalkLargeFirst sparseMachine.mem 0x8000001000) :=
  Walk_eq_reference sparseMachine 0x8000001000 rfl

theorem firstStop_le (mem : Nat → Nat) (addr : Nat) : firstStop mem addr ≤ 3 := by
  unfold firstStop
  split_ifs <;> omega

/-- C17: `CalcDepth` maps 4 KiB to depth 3, 2 MiB to depth 2, 1 GiB to depth 1 and panics
on every other size; it inverts the size formula of `Walk`: `CalcDepth(0x1000 << (27 - 9 d))`
is `d` for `d` in `1..3`, `0x1000 << (27 - 9 CalcDepth(s))` is `s` for every accepted `s`,
and the size `Walk` reports for a mapping found at a depth `d >= 1` is sent back to `d`. -/
theorem CalcDepth_size_correspondence :
    CalcDepth 0x1000 = .ok 3 ∧ CalcDepth 0x200000 = .ok 2 ∧ CalcDepth 0x40000000 = .ok 1 ∧
    (∀ size, size ≠ 0x1000 → size ≠ 0x200000 → size ≠ 0x40000000 →
      CalcDepth size = .error Halt.panicCalcDepth) ∧
    (∀ d, 1 ≤ d → d ≤ 3 → CalcDepth (0x1000 <<< (27 - 9 * d)) = .ok d) ∧
    (∀ size d, CalcDepth size = .ok d → 0x1000 <<< (27 - 9 * d) = size) ∧
    (∀ s addr w, Walk s addr = .ok w → 1 ≤ w.depth →
      CalcDepth w.size = .ok w.depth.toNat) := by
  refine ⟨rfl, rfl, rfl, ?_, ?_, ?_, ?_⟩
  · intro size h1 h2 h3
    simp [CalcDepth, h1, h2, h3]
  · intro d h1 h3
    interval_cases d <;> rfl
  · intro size d h
    rcases (CalcDepth_ok_iff size d).1 h with ⟨rfl, rfl⟩ | ⟨rfl, rfl⟩ | ⟨rfl, rfl⟩ <;> rfl
  · intro s addr w hw hd
    have hchk := Walk_ok_checks s addr w hw
    rw [Walk_reference s addr hchk] at hw
    simp only [Except.ok.injEq] at hw
    subst hw
    have hle := firstStop_le s.mem addr
    simp only [referenceWalkLargeFirst] at hd ⊢
    split at hd
    · omega
    · rename_i hc
      simp only [if_neg hc, Int.toNat_ofNat]
      generalize firstStop s.mem addr = d at hd hle
      have hd' : 1 ≤ d := by omega
      interval_cases d <;> rfl

theorem and_1ff (x : Nat) : x &&& 0x1ff = x % 512 := by
  have := and_range x 0 9 (by decide)
  simpa using this

/-- C19: for every address and every depth `d` in `0..3`, `GetTableEntry(addr, d)` is
`windowBase d + 8 * ((addr mod 2^48) >> (39 - 9 d))`; it is 8-byte aligned, lies in the top
512 GiB slot and its word ends at or below `2^64`; its offset in its 4 KiB page is 8 times
the index `(addr >> (39 - 9 d)) & 0x1ff`; and for `d` in `0..2` the depth-3 entry of the page
`GetTableStart(addr, d + 1)` is the word `GetTableEntry(addr, d)`. -/
theorem GetTableEntry_arithmetic (addr d : Nat) (hd : d ≤ 3) :
    GetTableEntry addr d = windowBase d + 8 * ((addr % 2 ^ 48) >>> (39 - 9 * d)) ∧
    GetTableEntry addr d % 8 = 0 ∧
    0xFFFFFF8000000000 ≤ GetTableEntry addr d ∧ GetTableEntry addr d + 8 ≤ 2 ^ 64 ∧
    GetTableEntry addr d % 0x1000 = 8 * ((addr >>> (39 - 9 * d)) &&& 0x1ff) ∧
    (d ≤ 2 → GetTableEntry (GetTableStart addr (d + 1)) 3 = GetTableEntry addr d) := by
  simp only [Nat.shiftRight_eq_div_pow, and_1ff, GetTableStart_eq]
  interval_cases d <;>
    simp only [Nat.reduceAdd, Nat.reduceMul, Nat.reduceSub, Nat.reducePow, windowBase,
      GetTableEntry_zero, GetTableEntry_one, GetTableEntry_two, GetTableEntry_three] <;>
    refine ⟨by simp, by omega, by omega, by omega, by omega, fun _ => by omega⟩

/-- C19 (witness): the entries of `0xFFFF800000201000` at depth 2. -/
theorem GetTableEntry_arithmetic_witness :
    GetTableEntry 0xFFFF800000201000 2
      = windowBase 2 + 8 * ((0xFFFF800000201000 % 2 ^ 48) >>> (39 - 9 * 2)) ∧
    GetTableEntry 0xFFFF800000201000 2 % 8 = 0 ∧
    0xFFFFFF8000000000 ≤ GetTableEntry 0xFFFF800000201000 2 ∧
    GetTableEntry 0xFFFF800000201000 2 + 8 ≤ 2 ^ 64 ∧
    GetTableEntry 0xFFFF800000201000 2 % 0x1000
      = 8 * ((0xFFFF800000201000 >>> (39 - 9 * 2)) &&& 0x1ff) ∧
    (2 ≤ 2 → GetTableEntry (GetTableStart 0xFFFF800000201000 (2 + 1)) 3
      = GetTableEntry 0xFFFF800000201000 2) :=
  GetTableEntry_arithmetic 0xFFFF800000201000 2 (by decide)

theorem Set_invlpg (s : State) (addr entry parentMask D : Nat) (ow : Option Bool)
    (r : SetResult) (h : Set s addr entry parentMask D ow = .ok r) :
    r.state.invlpg = s.invlpg := by
  cases hok : r.ok
  · obtain ⟨-, -, -, hl, -⟩ := Set_false_inv s addr entry parentMask D ow r h hok
    exact (SetLoop_fields addr parentMask D s r.state false hl).2.2.2
  · obtain ⟨-, -, -, s1, hl, -, hst⟩ := Set_true_inv s addr entry parentMask D ow r h hok
    rw [hst]
    exact (SetLoop_fields addr parentMask D s s1 true hl).2.2.2

theorem SetListLoop_invlpg (size parentMask D : Nat) :
    ∀ fuel cv cp ptr out s out' s',
      SetListLoop size parentMask D fuel cv cp ptr out s = .ok (out', s') →
      s'.invlpg = s.invlpg := by
  intro fuel
  induction fuel with
  | zero =>
    intro cv cp ptr out s out' s' h
    simp only [SetListLoop, Except.ok.injEq, Prod.mk.injEq] at h
    rw [← h.2]
  | succ n ih =>
    intro cv cp ptr out s out' s' h
    simp only [SetListLoop] at h
    split at h
    · simp at h
    · rename_i r hset
      split at h
      · simp at h
      · rw [ih _ _ _ _ _ _ _ h]
        exact Set_invlpg _ _ _ _ _ _ _ hset

theorem any_map_id (f : Nat → Bool) (l : List Nat) : (l.map f).any id = l.any f := by
  induction l with
  | nil => rfl
  | cons a l ih => simp [List.any_cons, ih]

/-- The flags of the `Set` calls of a run are the tests "the replaced word is non-zero". -/
theorem SetListFlags_replaced (size parentMask D : Nat) :
    ∀ fuel cv cp s flags, SetListFlags size parentMask D fuel cv cp s = .ok flags →
      ∃ old, SetListReplaced size parentMask D fuel cv cp s = .ok old ∧
        flags = old.map (fun v => decide (v ≠ 0)) := by
  intro fuel
  induction fuel with
  | zero =>
    intro cv cp s flags h
    simp only [SetListFlags, Except.ok.injEq] at h
    exact ⟨[], rfl, by simp [← h]⟩
  | succ n ih =>
    intro cv cp s flags h
    simp only [SetListFlags] at h
    split at h
    · simp at h
    · rename_i r hset
      split at h
      · simp at h
      · rename_i hok
        have hok' : r.ok = true := by simpa using hok
        split at h
        · simp at h
        · rename_i fl hfl
          simp only [Except.ok.injEq] at h
          obtain ⟨old, hold, hmap⟩ := ih _ _ _ _ hfl
          obtain ⟨-, -, -, s1, hl, how, hst⟩ :=
            Set_true_inv s cv cp parentMask D (some false) r hset hok'
          obtain ⟨r', hset', hok2, hst2, -⟩ := (Set_pointer s cv cp parentMask D none).2 r hset
          refine ⟨s1.mem (GetTableEntry cv D) :: old, ?_, ?_⟩
          · simp only [SetListReplaced, hl, hset', hok2, hok', hst2, hold]
            simp
          · rw [← h, how, hmap]
            simp

/-- C12: a `MapAt` of at least one page that returns leaves exactly one new invalidation,
`(addr, Bytes)` with `Bytes` the product `pageSize * pageCount` (as a 64-bit value), when at
least one of the words its `Set` calls replaced was non-zero, and leaves the invalidation log
as it was when every replaced word was zero. -/
theorem MapAt_invalidates (kernelEnd : Nat) (uninit : Bool) (s s' : State) (addr phys : Nat)
    (size : Size) (attributes : Attributes) (hcount : 1 ≤ size.pageCount)
    (h : UserMap.MapAt kernelEnd uninit s addr phys size attributes = .ok s') :
    ∃ D old, CalcDepth size.pageSize = .ok D ∧
      SetListReplaced size.pageSize 7 D size.pageCount addr
        (phys ||| CalcMask size.pageSize false attributes) s = .ok old ∧
      old.length = size.pageCount ∧
      ((∃ v, v ∈ old ∧ v ≠ 0) → s'.invlpg = (addr, size.Bytes) :: s.invlpg) ∧
      ((∀ v, v ∈ old → v = 0) → s'.invlpg = s.invlpg) ∧
      (size.pageSize * size.pageCount < 2 ^ 64 →
        size.Bytes = size.pageSize * size.pageCount) := by
  unfold UserMap.MapAt at h
  split at h
  · simp at h
  · split at h
    · simp at h
    · simp only at h
      split at h
      · simp at h
      · rename_i out s1 hsl
        have hsl0 := hsl
        unfold SetList at hsl
        split at hsl
        · simp at hsl
        · split at hsl
          · simp at hsl
          · rename_i D hD
            have hinv := SetListLoop_invlpg _ _ _ _ _ _ _ _ _ _ _ hsl
            obtain ⟨flags, hf, hlen, -, hsome⟩ :=
              SetListLoop_flags size.pageSize 7 D _ _ _ _ _ _ _ _ hsl
            obtain ⟨old, hold, hmap⟩ := SetListFlags_replaced _ _ _ _ _ _ _ _ hf
            have hne : size.pageCount ≠ 0 := by omega
            have hout : out = some (flags.any id) := by
              have := hsome rfl
              simpa [hne] using this
            have key : flags.any id = old.any (fun v => decide (v ≠ 0)) := by
              rw [hmap]
              exact any_map_id _ old
            refine ⟨D, old, hD, hold, ?_, ?_, ?_, ?_⟩
            · rw [← hlen, hmap, List.length_map]
            · rintro ⟨v, hv, hv0⟩
              have hany : flags.any id = true := by
                rw [key]
                exact List.any_eq_true.2 ⟨v, hv, by simpa using hv0⟩
              rw [hout, hany] at h
              simp only [if_true, Except.ok.injEq] at h
              rw [← h]
              simp [UserMap.DistInvlpg, hinv]
            · intro hall
              have hany : flags.any id = false := by
                rw [key]
                refine List.any_eq_false.2 (fun v hv => ?_)
                simp [hall v hv]
              rw [hout, hany] at h
              simp only [Option.some.injEq, Bool.false_eq_true, if_false, Except.ok.injEq] at h
              rw [← h]
              exact hinv
            · intro hlt
              unfold Size.Bytes
              exact Nat.mod_eq_of_lt hlt

/-- C12 (witness): two pages mapped over `onePageSpace`, whose first page is mapped. -/
theorem MapAt_invalidates_witness :
    ∃ D old, CalcDepth 0x1000 = .ok D ∧
      SetListReplaced 0x1000 7 D 2 0x8000000000
        (0xa000 ||| CalcMask 0x1000 false ⟨false, true, true⟩) onePageSpace = .ok old ∧
      old.length = 2 ∧
      ((∃ v, v ∈ old ∧ v ≠ 0) →
        twoPagesOver.invlpg = (0x8000000000, Size.Bytes ⟨0x1000, 2⟩) :: onePageSpace.invlpg) ∧
      ((∀ v, v ∈ old → v = 0) → twoPagesOver.invlpg = onePageSpace.invlpg) ∧
      (0x1000 * 2 < 2 ^ 64 → Size.Bytes ⟨0x1000, 2⟩ = 0x1000 * 2) :=
  MapAt_invalidates 0x8000000000 false onePageSpace twoPagesOver 0x8000000000 0xa000
    ⟨0x1000, 2⟩ ⟨false, true, true⟩ (by decide) rfl

/-- C13 (counterexample): with the kernel region ending at `0x8000000000` and a delegate
registered, a copy from `0x1000`, inside the kernel region, goes to the delegate, and a
copy from `0x8000000000`, outside it, is made directly; the same holds for
`CopyFromKernel`. -/
theorem C13_counterexample :
    UserMap.InKernelRegion 0x8000000000 0x1000 ∧
    UserMap.CopyToKernel 0x8000000000 true 0x2000 0x1000 8 = .ok (.delegated 0x1000 false) ∧
    UserMap.CopyFromKernel 0x8000000000 true 0x1000 0x2000 8 = .ok (.delegated 0x1000 true) ∧
    ¬ UserMap.InKernelRegion 0x8000000000 0x8000000000 ∧
    UserMap.CopyToKernel 0x8000000000 true 0x2000 0x8000000000 8
      = .ok (.copied 0x2000 0x8000000000 8) ∧
    UserMap.CopyFromKernel 0x8000000000 true 0x8000000000 0x2000 8
      = .ok (.copied 0x8000000000 0x2000 8) :=
  ⟨by decide, rfl, rfl, by decide, rfl, rfl⟩

/-- C13 (amended): for 64-bit `start`, `dest` and `size`, `CopyToKernel` copies directly
exactly when `start` is outside the kernel region and `start + size` does not pass `2^64`;
when `start` is inside the kernel region or the sum passes `2^64` it calls the delegate with
`(start, false)` and makes no copy, or halts in its panic when no delegate is registered.
`CopyFromKernel` does the same on `dest`, calling the delegate with `(dest, true)`. -/
theorem Copy_routing (kernelEnd : Nat) (delegate : Bool) (dest start size : Nat)
    (hstart : start < 2 ^ 64) (hdest : dest < 2 ^ 64) (hsize : size < 2 ^ 64) :
    (¬ UserMap.InKernelRegion kernelEnd start ∧ start + size < 2 ^ 64 →
      UserMap.CopyToKernel kernelEnd delegate dest start size = .ok (.copied dest start size)) ∧
    (UserMap.InKernelRegion kernelEnd start ∨ 2 ^ 64 ≤ start + size →
      UserMap.CopyToKernel kernelEnd delegate dest start size =
        if delegate then .ok (.delegated start false)
        else .error Halt.panicCopyToKernelNoDelegate) ∧
    (¬ UserMap.InKernelRegion kernelEnd dest ∧ dest + size < 2 ^ 64 →
      UserMap.CopyFromKernel kernelEnd delegate dest start size = .ok (.copied dest start size)) ∧
    (UserMap.InKernelRegion kernelEnd dest ∨ 2 ^ 64 ≤ dest + size →
      UserMap.CopyFromKernel kernelEnd delegate dest start size =
        if delegate then .ok (.delegated dest true)
        else .error Halt.panicCopyFromKernelNoDelegate) := by
  have wrap : ∀ a : Nat, a < 2 ^ 64 → ((a + size) % 2 ^ 64 < a ↔ 2 ^ 64 ≤ a + size) := by
    intro a ha
    constructor
    · intro h
      by_contra hc
      rw [Nat.mod_eq_of_lt (by omega)] at h
      omega
    · intro h
      omega
  unfold UserMap.CopyToKernel UserMap.CopyFromKernel UserMap.InKernelRegion
  simp only [wrap start hstart, wrap dest hdest]
  refine ⟨?_, ?_, ?_, ?_⟩
  · rintro ⟨h1, h2⟩
    rw [if_neg (by omega)]
  · intro h
    rw [if_pos (by omega)]
    cases delegate <;> simp
  · rintro ⟨h1, h2⟩
    rw [if_neg (by omega)]
  · intro h
    rw [if_pos (by omega)]
    cases delegate <;> simp

/-- C13 (witness): with the kernel region ending at `0x8000000000`, copies of 8 bytes at a
user address and at a kernel address, with and without wrap-around. -/
theorem Copy_routing_witness :
    (¬ UserMap.InKernelRegion 0x8000000000 0x8000001000 ∧ 0x8000001000 + 8 < 2 ^ 64 →
      UserMap.CopyToKernel 0x8000000000 true 0x2000 0x8000001000 8
        = .ok (.copied 0x2000 0x8000001000 8)) ∧
    (UserMap.InKernelRegion 0x8000000000 0x8000001000 ∨ 2 ^ 64 ≤ 0x8000001000 + 8 →
      UserMap.CopyToKernel 0x8000000000 true 0x2000 0x8000001000 8 =
        if true then .ok (.delegated 0x8000001000 false)
        else .error Halt.panicCopyToKernelNoDelegate) ∧
    (¬ UserMap.InKernelRegion 0x8000000000 0x2000 ∧ 0x2000 + 8 < 2 ^ 64 →
      UserMap.CopyFromKernel 0x8000000000 true 0x2000 0x8000001000 8
        = .ok (.copied 0x2000 0x8000001000 8)) ∧
    (UserMap.InKernelRegion 0x8000000000 0x2000 ∨ 2 ^ 64 ≤ 0x2000 + 8 →
      UserMap.CopyFromKernel 0x8000000000 true 0x2000 0x8000001000 8 =
        if true then .ok (.delegated 0x2000 true)
        else .error Halt.panicCopyFromKernelNoDelegate) :=
  Copy_routing 0x8000000000 true 0x2000 0x8000001000 8 (by decide) (by decide) (by decide)

theorem Region.cut_has (r : UserMap.Region) (a b x : Nat) :
    (∃ p, p ∈ r.cut a b ∧ p.Has x) ↔ r.Has x ∧ ¬ (a ≤ x ∧ x < b) := by
  unfold UserMap.Region.cut UserMap.Region.Has
  constructor
  · rintro ⟨p, hp, h1, h2⟩
    rw [List.mem_append] at hp
    rcases hp with hp | hp
    · split at hp
      · simp only [List.mem_singleton] at hp
        subst hp
        simp only at h1 h2
        omega
      · simp at hp
    · split at hp
      · simp only [List.mem_singleton] at hp
        subst hp
        simp only at h1 h2
        omega
      · simp at hp
  · rintro ⟨⟨h1, h2⟩, h3⟩
    by_cases hx : x < a
    · refine ⟨{ start := r.start, size := min a (r.start + r.size) - r.start }, ?_, ?_⟩
      · rw [List.mem_append]
        left
        rw [if_pos (by omega)]
        simp
      · simp only
        omega
    · refine ⟨{ start := max b r.start, size := r.start + r.size - max b r.start }, ?_, ?_⟩
      · rw [List.mem_append]
        right
        rw [if_pos (by omega)]
        simp
      · simp only
        omega

/-- Removal from the free list is removal from the set. -/
theorem FreeList.remove_has (l : UserMap.FreeList) (a b x : Nat) :
    (l.remove a b).Has x ↔ l.Has x ∧ ¬ (a ≤ x ∧ x < b) := by
  unfold UserMap.FreeList.remove UserMap.FreeList.Has
  simp only [List.mem_flatten, List.mem_map]
  constructor
  · rintro ⟨p, ⟨ps, ⟨r, hr, rfl⟩, hp⟩, hx⟩
    have := (Region.cut_has r a b x).1 ⟨p, hp, hx⟩
    exact ⟨⟨r, hr, this.1⟩, this.2⟩
  · rintro ⟨⟨r, hr, hx⟩, hn⟩
    obtain ⟨p, hp, hpx⟩ := (Region.cut_has r a b x).2 ⟨hx, hn⟩
    exact ⟨p, ⟨_, ⟨r, hr, rfl⟩, hp⟩, hpx⟩

/-- `Free` adds the extent to the set. -/
theorem FreeList.Free_has (l : UserMap.FreeList) (addr pageSize pageCount x : Nat) :
    (l.Free addr pageSize pageCount).Has x ↔
      (addr ≤ x ∧ x < addr + pageSize * pageCount) ∨ l.Has x := by
  unfold UserMap.FreeList.Free UserMap.FreeList.Has
  simp only [List.mem_cons]
  constructor
  · rintro ⟨r, hr | hr, hx⟩
    · subst hr
      left
      exact hx
    · right
      exact ⟨r, hr, hx⟩
  · rintro (h | ⟨r, hr, hx⟩)
    · exact ⟨_, Or.inl rfl, h⟩
    · exact ⟨r, Or.inr hr, hx⟩

/-- C20: the free list the constructor leaves holds the addresses
`kernelEnd <= x < kernelEnd + 0xff * 512 GiB` and `0xFFFF800000000000 <= x <
0xFFFF87F800000000` and no other: the second extent is `0xff` pages of 32 GiB, not of
512 GiB, so no address of `[0xFFFF87F800000000, 0xFFFFFF8000000000)`, slots `0x110` to `0x1fe`
among them, is released; with the kernel ending at `0x8000000000` the two extents are
disjoint and touch neither the kernel slot nor the self-referential slot. -/
theorem seedFreeList_extents :
    (∀ kernelEnd x, (UserMap.seedFreeList kernelEnd).Has x ↔
      (kernelEnd ≤ x ∧ x < kernelEnd + 0xff * 0x8000000000) ∨
      (0xFFFF800000000000 ≤ x ∧ x < 0xFFFF87F800000000)) ∧
    (∀ x, 0xFFFF87F800000000 ≤ x → x < 0xFFFFFF8000000000 →
      ¬ (UserMap.seedFreeList 0x8000000000).Has x) ∧
    ¬ (UserMap.seedFreeList 0x8000000000).Has 0xFFFF880000000000 ∧
    (∀ x, (UserMap.seedFreeList 0x8000000000).Has x →
      0x8000000000 ≤ x ∧ x < 0xFFFFFF8000000000 ∧
      ¬ (0x800000000000 ≤ x ∧ x < 0xFFFF800000000000)) := by
  have key : ∀ kernelEnd x, (UserMap.seedFreeList kernelEnd).Has x ↔
      (kernelEnd ≤ x ∧ x < kernelEnd + 0xff * 0x8000000000) ∨
      (0xFFFF800000000000 ≤ x ∧ x < 0xFFFF87F800000000) := by
    intro kernelEnd x
    unfold UserMap.seedFreeList
    rw [FreeList.Free_has, FreeList.Free_has]
    have : ¬ UserMap.FreeList.Has { regions := [] } x := by
      simp [UserMap.FreeList.Has]
    constructor
    · rintro (h | h | h)
      · right; omega
      · left; omega
      · exact absurd h this
    · rintro (h | h)
      · right; left; omega
      · left; omega
  refine ⟨key, ?_, ?_, ?_⟩
  · intro x h1 h2 h
    rw [key] at h
    omega
  · intro h
    rw [key] at h
    omega
  · intro x h
    rw [key] at h
    omega

theorem UnmapLoop_eq (pageSize : Nat) :
    ∀ fuel next s, UserMap.UnmapAndReserveLoop pageSize fuel next s
      = UserMap.UnmapLoop pageSize fuel next s := by
  intro fuel
  induction fuel with
  | zero => intro next s; rfl
  | succ n ih =>
    intro next s
    simp only [UserMap.UnmapAndReserveLoop, UserMap.UnmapLoop]
    split
    · rfl
    · split
      · rfl
      · exact ih _ _

theorem Cleared_congr (mem : Nat → Nat) (x y : Nat)
    (h : x % 0x1000000000000 = y % 0x1000000000000) : Cleared mem x → Cleared mem y := by
  rintro ⟨d, hd, hz, hanc⟩
  refine ⟨d, hd, ?_, fun j hj => ?_⟩
  · rw [← GetTableEntry_congr x y d h]
    exact hz
  · rw [← GetTableEntry_congr x y j h]
    exact hanc j hj

/-- Writing zeros keeps a cleared path cleared. -/
theorem Cleared_zeroes (m m' : Nat → Nat) (x : Nat) (hz : ∀ a, m' a = m a ∨ m' a = 0) :
    Cleared m x → Cleared m' x := by
  rintro ⟨d, hd, h0, hanc⟩
  refine ⟨d, hd, ?_, fun j hj => ?_⟩
  · rcases hz (GetTableEntry x d) with h | h
    · rw [h]; exact h0
    · exact h
  · rcases hz (GetTableEntry x j) with h | h
    · rw [h]; exact hanc j hj
    · right; exact h

/-- On a cleared path `Walk` reports not-found. -/
theorem Walk_of_cleared (s : State) (x : Nat) (hchk : entryChecks s = .ok ())
    (h : Cleared s.mem x) : ∃ w, Walk s x = .ok w ∧ w.depth = -1 := by
  obtain ⟨d, hd, h0, hanc⟩ := h
  obtain ⟨k, hk, hloop⟩ := WalkLoop_zero s.mem x d h0 hanc 4 0 0 (Nat.zero_le d) (by omega)
  exact ⟨_, Walk_not_found s x k hchk (by omega) hloop, rfl⟩

/-- A successful `Unset` only writes zeros, passes the entry checks on to the machine it
leaves, and leaves the path of the address cleared. -/
theorem Unset_cleared (s s' : State) (addr : Nat) (b : Bool)
    (h : Unset s addr = .ok (b, s')) :
    b = true ∧ entryChecks s' = .ok () ∧ Cleared s'.mem addr ∧
      (∀ a, s'.mem a = s.mem a ∨ s'.mem a = 0) ∧
      s'.cr3 = s.cr3 ∧ s'.pml4 = s.pml4 ∧ s'.critical = s.critical := by
  obtain ⟨hchk, -, hb, d, hd, hs'⟩ := Unset_inv s s' addr b h
  obtain ⟨-, hd3, hlinked⟩ := UnsetLoop_spec s.mem addr 3 0 d hd
  obtain ⟨hz, f1, f2, f3⟩ := UnsetPrune_zeros addr d
    { s with mem := Function.update s.mem (GetTableEntry addr d) 0 }
  rw [← hs'] at hz f1 f2 f3
  simp only at hz f1 f2 f3
  have hzero : s'.mem (GetTableEntry addr d) = 0 := by
    rcases hz (GetTableEntry addr d) with h | h
    · rw [h]; simp
    · exact h
  refine ⟨hb, ?_, ⟨d, by omega, hzero, fun j hj => ?_⟩, fun a => ?_, f1, f2, f3⟩
  · rw [← hchk]
    exact entryChecks_congr _ _ f3 f1 f2
  · rcases hz (GetTableEntry addr j) with h | h
    · by_cases he : GetTableEntry addr j = GetTableEntry addr d
      · right; rw [h, he]; simp
      · left; rw [h]
        simp only [Function.update_noteq he]
        exact hlinked j (Nat.zero_le j) hj
    · right; exact h
  · rcases hz a with h | h
    · rw [h]
      by_cases ha : a = GetTableEntry addr d
      · right; rw [ha]; simp
      · left; simp [Function.update_noteq ha]
    · right; exact h

/-- The loop of `Unmap`: it only writes zeros, and the path of every page it went through
is cleared at the end. -/
theorem UnmapLoop_spec (pageSize : Nat) :
    ∀ fuel next s t, UserMap.UnmapLoop pageSize fuel next s = .ok t →
      (∀ a, t.mem a = s.mem a ∨ t.mem a = 0) ∧
      t.cr3 = s.cr3 ∧ t.pml4 = s.pml4 ∧ t.critical = s.critical ∧
      (0 < fuel → entryChecks s = .ok ()) ∧
      ∀ i, i < fuel → Cleared t.mem (next + i * pageSize) := by
  intro fuel
  induction fuel with
  | zero =>
    intro next s t h
    simp only [UserMap.UnmapLoop, Except.ok.injEq] at h
    subst h
    exact ⟨fun a => Or.inl rfl, rfl, rfl, rfl, fun h => absurd h (by omega),
      fun i hi => absurd hi (by omega)⟩
  | succ n ih =>
    intro next s t h
    simp only [UserMap.UnmapLoop] at h
    split at h
    · simp at h
    · rename_i ok s1 hU
      split at h
      · simp at h
      · obtain ⟨-, -, hcl, hz1, g1, g2, g3⟩ := Unset_cleared s s1 next ok hU
        obtain ⟨hz, f1, f2, f3, -, hrest⟩ := ih _ _ _ h
        refine ⟨fun a => ?_, by rw [f1, g1], by rw [f2, g2], by rw [f3, g3],
          fun _ => (Unset_inv s s1 next ok hU).1, fun i hi => ?_⟩
        · rcases hz a with h1 | h1
          · rcases hz1 a with h2 | h2
            · left; rw [h1, h2]
            · right; rw [h1, h2]
          · right; exact h1
        · cases i with
          | zero =>
            simp only [Nat.zero_mul, Nat.add_zero]
            exact Cleared_zeroes s1.mem t.mem next hz hcl
          | succ k =>
            have hk := hrest k (by omega)
            refine Cleared_congr t.mem _ _ ?_ hk
            rw [Nat.succ_mul]
            omega

/-- C15: `Unmap` and `UnmapAndReserve` end in the same way (same halt, or the same machine:
page table, allocator and invalidation log); `UnmapAndReserve` leaves the free list as it
was, `Unmap` adds the extent `(addr, pageSize, pageCount)` to it; the machine they leave is
the one after the unsets with the single invalidation `(addr, Bytes)` put on top of the log,
and on it `Walk` finds none of the `pageCount` page addresses. -/
theorem Unmap_UnmapAndReserve (u : UserMap.Space) (addr : Nat) (size : Size) :
    (UserMap.UnmapAndReserve u addr size).map (fun v => v.table)
      = (UserMap.Unmap u addr size).map (fun v => v.table) ∧
    (∀ v, UserMap.UnmapAndReserve u addr size = .ok v → v.freeList = u.freeList) ∧
    (∀ v, UserMap.Unmap u addr size = .ok v →
      v.freeList = u.freeList.Free addr size.pageSize size.pageCount ∧
      (∀ x, v.freeList.Has x ↔
        (addr ≤ x ∧ x < addr + size.pageSize * size.pageCount) ∨ u.freeList.Has x) ∧
      ∃ t, UserMap.UnmapLoop size.pageSize size.pageCount addr u.table = .ok t ∧
        v.table = UserMap.DistInvlpg t addr size.Bytes ∧
        v.table.invlpg = (addr, size.Bytes) :: t.invlpg ∧
        v.table.mem = t.mem ∧ v.table.allocator = t.allocator ∧
        ∀ i, i < size.pageCount →
          ∃ w, Walk v.table ((addr + i * size.pageSize) % 2 ^ 64) = .ok w ∧ w.depth = -1) := by
  refine ⟨?_, ?_, ?_⟩
  · unfold UserMap.UnmapAndReserve UserMap.Unmap
    rw [UnmapLoop_eq]
    split
    · rfl
    · split <;> rfl
  · intro v h
    unfold UserMap.UnmapAndReserve at h
    split at h
    · simp at h
    · split at h
      · simp at h
      · simp only [Except.ok.injEq] at h
        rw [← h]
  · intro v h
    unfold UserMap.Unmap at h
    split at h
    · simp at h
    · split at h
      · simp at h
      · rename_i t ht
        simp only [Except.ok.injEq] at h
        subst h
        refine ⟨rfl, fun x => FreeList.Free_has _ _ _ _ x, t, ht, rfl, rfl, rfl, rfl,
          fun i hi => ?_⟩
        obtain ⟨-, f1, f2, f3, hchk, hcl⟩ := UnmapLoop_spec _ _ _ _ _ ht
        have hchk' : entryChecks (UserMap.DistInvlpg t addr size.Bytes) = .ok () := by
          rw [← hchk (by omega)]
          exact entryChecks_congr _ _ f3 f1 f2
        refine Walk_of_cleared _ _ hchk' ?_
        refine Cleared_congr t.mem (addr + i * size.pageSize) _ ?_ (hcl i hi)
        omega

/-- The effect of the ancestor loop of a successful `Set` outside the self-referential slot:
the first `m` ancestors were present and got `parentMask` or-ed in, the others were
allocated, each with a zero-filled table, and no other word changed. -/
theorem SetLoop_effect (addr pm D : Nat) (s s1 : State) (hD : D ≤ 3)
    (hnf : ¬ InFractalSlot addr) (h : SetLoop addr pm D 0 s = .ok (true, s1)) :
    ∃ m, m ≤ D ∧
      (∀ j, j < m → s.mem (GetTableEntry addr j) % 2 = 1 ∧
        s.mem (GetTableEntry addr j) / 128 % 2 = 0 ∧
        s1.mem (GetTableEntry addr j) = s.mem (GetTableEntry addr j) ||| pm) ∧
      (m < D → s.mem (GetTableEntry addr m) % 2 = 0) ∧
      (∀ j, m ≤ j → j < D → ∃ fresh, fresh ∈ s.allocator.pool ∧
        s1.mem (GetTableEntry addr j) = fresh ||| pm) ∧
      (∀ j a, m ≤ j → j < D → GetTableStart addr (j + 1) ≤ a →
        a < GetTableStart addr (j + 1) + 0x1000 → (∀ i, i < D → a ≠ GetTableEntry addr i) →
        s1.mem a = 0) ∧
      (∀ a, (∀ j, j < D → a ≠ GetTableEntry addr j) →
        (∀ j, m ≤ j → j < D →
          ¬ (GetTableStart addr (j + 1) ≤ a ∧ a < GetTableStart addr (j + 1) + 0x1000)) →
        s1.mem a = s.mem a) ∧
      (∀ f, f ∈ s1.allocator.pool → f ∈ s.allocator.pool) := by
  have hinj : ∀ i j, i ≤ 3 → j ≤ 3 → GetTableEntry addr i = GetTableEntry addr j → i = j :=
    fun i j hi hj he => entry_level_inj addr addr i j hi hj hnf hnf he
  have hpage : ∀ i j, i ≤ 3 → j ≤ 3 → GetTableStart addr j ≤ GetTableEntry addr i →
      GetTableEntry addr i < GetTableStart addr j + 0x1000 → i = j :=
    fun i j hi hj h1 h2 => entry_in_table_level addr addr i j hi hj hnf hnf h1 h2
  have key := SetLoop_rule addr pm D
    (fun k t => ∃ m, m ≤ k ∧
      (∀ j, j < m → s.mem (GetTableEntry addr j) % 2 = 1 ∧
        s.mem (GetTableEntry addr j) / 128 % 2 = 0 ∧
        t.mem (GetTableEntry addr j) = s.mem (GetTableEntry addr j) ||| pm) ∧
      (m < k → s.mem (GetTableEntry addr m) % 2 = 0) ∧
      (∀ j, m ≤ j → j < k → ∃ fresh, fresh ∈ s.allocator.pool ∧
        t.mem (GetTableEntry addr j) = fresh ||| pm) ∧
      (∀ j a, m ≤ j → j < k → GetTableStart addr (j + 1) ≤ a →
        a < GetTableStart addr (j + 1) + 0x1000 → (∀ i, i < k → a ≠ GetTableEntry addr i) →
        t.mem a = 0) ∧
      (∀ a, (∀ j, j < k → a ≠ GetTableEntry addr j) →
        (∀ j, m ≤ j → j < k →
          ¬ (GetTableStart addr (j + 1) ≤ a ∧ a < GetTableStart addr (j + 1) + 0x1000)) →
        t.mem a = s.mem a) ∧
      (∀ f, f ∈ t.allocator.pool → f ∈ s.allocator.pool))
    ?_ ?_ D 0 s true s1 (by omega)
    ⟨0, Nat.le_refl 0, fun j hj => absurd hj (Nat.not_lt_zero j),
      fun hm => absurd hm (Nat.lt_irrefl 0), fun j _ hj => absurd hj (Nat.not_lt_zero j),
      fun j a _ hj => absurd hj (Nat.not_lt_zero j), fun a _ _ => rfl, fun f hf => hf⟩ h
  · exact key.1 rfl
  · -- an ancestor is allocated
    intro k t fresh a hk hp habs hal
    obtain ⟨m, hm, pA, pB, pC, pZ, pF, pP⟩ := hp
    obtain ⟨hpl, -, -⟩ := Alloc_some hal
    have hnotin : ∀ j, j ≤ k → ¬ (GetTableStart addr (k + 1) ≤ GetTableEntry addr j ∧
        GetTableEntry addr j < GetTableStart addr (k + 1) + 0x1000) := by
      rintro j hj ⟨h1, h2⟩
      have := hpage j (k + 1) (by omega) (by omega) h1 h2
      omega
    have hold : ∀ j, j < k →
        Bzero (Function.update t.mem (GetTableEntry addr k) (fresh ||| pm))
          (GetTableStart addr (k + 1)) 0x1000 (GetTableEntry addr j)
          = t.mem (GetTableEntry addr j) := by
      intro j hj
      have hne : GetTableEntry addr j ≠ GetTableEntry addr k := by
        intro he
        have := hinj j k (by omega) (by omega) he
        omega
      simp only [Bzero, if_neg (hnotin j (by omega)), Function.update_noteq hne]
    refine ⟨m, by omega, fun j hj => ?_, fun hmk => ?_, fun j hj1 hj2 => ?_,
      fun j a hj1 hj2 h1 h2 hne => ?_, fun a hne hout => ?_, fun f hf => ?_⟩
    · obtain ⟨q1, q2, q3⟩ := pA j hj
      refine ⟨q1, q2, ?_⟩
      simp only
      rw [hold j (by omega), q3]
    · by_cases hmk' : m < k
      · exact pB hmk'
      · have hmk2 : m = k := by omega
        subst hmk2
        have : t.mem (GetTableEntry addr m) = s.mem (GetTableEntry addr m) := by
          refine pF _ (fun j hj he => ?_) (fun j hj1 hj2 => absurd hj2 (by omega))
          have := hinj m j (by omega) (by omega) he
          omega
        rw [← this]
        exact habs
    · by_cases hjk : j = k
      · subst hjk
        refine ⟨fresh, pP fresh (by simp [hpl]), ?_⟩
        simp only [Bzero, if_neg (hnotin j (Nat.le_refl j)), Function.update_same]
      · obtain ⟨fr, q1, q2⟩ := pC j hj1 (by omega)
        refine ⟨fr, q1, ?_⟩
        simp only
        rw [hold j (by omega), q2]
    · simp only [Bzero]
      split
      · rfl
      · have hne' : a ≠ GetTableEntry addr k := hne k (by omega)
        simp only [Function.update_noteq hne']
        by_cases hjk : j = k
        · subst hjk
          rename_i hc
          exact absurd ⟨h1, h2⟩ hc
        · exact pZ j a hj1 (by omega) h1 h2 (fun i hi => hne i (by omega))
    · have hne' : a ≠ GetTableEntry addr k := hne k (by omega)
      have hout' := hout k hm (by omega)
      simp only [Bzero, if_neg hout', Function.update_noteq hne']
      exact pF a (fun j hj => hne j (by omega)) (fun j hj1 hj2 => hout j hj1 (by omega))
    · exact pP f (by simp [hpl, hf])
  · -- an ancestor is present
    intro k t hk hp hpres hsmall
    obtain ⟨m, hm, pA, pB, pC, pZ, pF, pP⟩ := hp
    have hmk : m = k := by
      by_contra hne
      have hlt : m < k := by omega
      obtain ⟨o1, o2⟩ := entry_in_own_table addr k
      have e : k - 1 + 1 = k := by omega
      have := pZ (k - 1) (GetTableEntry addr k) (by omega) (by omega)
        (by rw [e]; exact o1) (by rw [e]; exact o2)
        (fun i hi he => by
          have := hinj k i (by omega) (by omega) he
          omega)
      rw [this] at hpres
      omega
    subst hmk
    have hsame : t.mem (GetTableEntry addr m) = s.mem (GetTableEntry addr m) := by
      refine pF _ (fun j hj he => ?_) (fun j hj1 hj2 => absurd hj2 (by omega))
      have := hinj m j (by omega) (by omega) he
      omega
    refine ⟨m + 1, Nat.le_refl _, fun j hj => ?_, fun h => absurd h (Nat.lt_irrefl _),
      fun j hj1 hj2 => absurd hj2 (by omega), fun j a hj1 hj2 => absurd hj2 (by omega),
      fun a hne _ => ?_, pP⟩
    · by_cases hjm : j = m
      · subst hjm
        rw [← hsame]
        refine ⟨hpres, hsmall, ?_⟩
        simp only [Function.update_same]
      · obtain ⟨q1, q2, q3⟩ := pA j (by omega)
        refine ⟨q1, q2, ?_⟩
        have hne : GetTableEntry addr j ≠ GetTableEntry addr m := by
          intro he
          have := hinj j m (by omega) (by omega) he
          omega
        simp only [Function.update_noteq hne]
        exact q3
    · have hne' : a ≠ GetTableEntry addr m := hne m (by omega)
      simp only [Function.update_noteq hne']
      exact pF a (fun j hj => hne j (by omega)) (fun j hj1 hj2 => absurd hj2 (by omega))

theorem or_and_mask (x pm M : Nat) (h : pm &&& M = 0) : (x ||| pm) &&& M = x &&& M := by
  apply Nat.eq_of_testBit_eq
  intro i
  have hi : (pm &&& M).testBit i = false := by rw [h]; simp
  simp only [Nat.testBit_and, Nat.testBit_or] at hi ⊢
  cases hx : x.testBit i <;> cases hp : pm.testBit i <;> cases hM : M.testBit i <;> simp_all

/-- C18 (counterexample): on `freshSpace`, `Set(0xFFFFFFFFFFFFF000, 0x5003, 7, 3)` returns
`true`; the top-level entry of the path, which is also its entry at depths 1, 2 and 3, was
present (`0x1003`) and is `0x5003` afterwards, not `0x1003 | 7`. -/
theorem C18_counterexample :
    fractalSet.ok = true ∧
    freshSpace.mem (GetTableEntry 0xFFFFFFFFFFFFF000 0) = 0x1003 ∧
    fractalSet.state.mem (GetTableEntry 0xFFFFFFFFFFFFF000 0) = 0x5003 ∧
    freshSpace.mem (GetTableEntry 0xFFFFFFFFFFFFF000 0) ||| 7 = 0x1007 ∧
    GetTableEntry 0xFFFFFFFFFFFFF000 0 = GetTableEntry 0xFFFFFFFFFFFFF000 3 :=
  ⟨rfl, rfl, rfl, rfl, rfl⟩

/-- C18 (amended): for a `Set` that returns `true` on an address outside the
self-referential slot, with `m` the number of ancestors that were present: each of these
becomes its old value or-ed with `parentMask` (frame-address bits unchanged when
`parentMask` has none); the entry at depth `m`, if an ancestor, was absent; each ancestor
from depth `m` on becomes a frame taken from the allocator or-ed with `parentMask`, and the
512 words of its table are zero apart from the path entry; the entry at depth `theDepth` is
`entry`; every word that is neither a path entry nor in one of the new tables is unchanged. -/
theorem Set_effect (s : State) (addr entry parentMask theDepth : Nat) (ow : Option Bool)
    (r : SetResult) (hnf : ¬ InFractalSlot addr)
    (h : Set s addr entry parentMask theDepth ow = .ok r) (hok : r.ok = true) :
    ∃ m, m ≤ theDepth ∧
      (∀ j, j < m → s.mem (GetTableEntry addr j) % 2 = 1 ∧
        r.state.mem (GetTableEntry addr j) = s.mem (GetTableEntry addr j) ||| parentMask ∧
        (parentMask &&& 0x7FFFFFFFFFFFF000 = 0 →
          r.state.mem (GetTableEntry addr j) &&& 0x7FFFFFFFFFFFF000
            = s.mem (GetTableEntry addr j) &&& 0x7FFFFFFFFFFFF000)) ∧
      (m < theDepth → s.mem (GetTableEntry addr m) % 2 = 0) ∧
      (∀ j, m ≤ j → j < theDepth → ∃ fresh, fresh ∈ s.allocator.pool ∧
        r.state.mem (GetTableEntry addr j) = fresh ||| parentMask ∧
        ∀ i, i < 0x200 → GetTableStart addr (j + 1) + 8 * i ≠ GetTableEntry addr (j + 1) →
          r.state.mem (GetTableStart addr (j + 1) + 8 * i) = 0) ∧
      r.state.mem (GetTableEntry addr theDepth) = entry ∧
      (∀ a, (∀ j, j ≤ theDepth → a ≠ GetTableEntry addr j) →
        (∀ j, m ≤ j → j < theDepth →
          ¬ (GetTableStart addr (j + 1) ≤ a ∧ a < GetTableStart addr (j + 1) + 0x1000)) →
        r.state.mem a = s.mem a) := by
  obtain ⟨-, hD, -, s1, hloop, -, hst⟩ := Set_true_inv s addr entry parentMask theDepth ow r h hok
  obtain ⟨m, hm, pA, pB, pC, pZ, pF, -⟩ :=
    SetLoop_effect addr parentMask theDepth s s1 (by omega) hnf hloop
  have hinj : ∀ i j, i ≤ 3 → j ≤ 3 → GetTableEntry addr i = GetTableEntry addr j → i = j :=
    fun i j hi hj he => entry_level_inj addr addr i j hi hj hnf hnf he
  have hanc : ∀ j, j < theDepth →
      r.state.mem (GetTableEntry addr j) = s1.mem (GetTableEntry addr j) := by
    intro j hj
    have hne : GetTableEntry addr j ≠ GetTableEntry addr theDepth := by
      intro he
      have := hinj j theDepth (by omega) (by omega) he
      omega
    rw [hst]
    simp only [Function.update_noteq hne]
  refine ⟨m, hm, fun j hj => ?_, pB, fun j hj1 hj2 => ?_, ?_, fun a hne hout => ?_⟩
  · obtain ⟨q1, -, q3⟩ := pA j hj
    rw [hanc j (by omega), q3]
    exact ⟨q1, rfl, fun hpm => or_and_mask _ _ _ hpm⟩
  · obtain ⟨fresh, q1, q2⟩ := pC j hj1 hj2
    refine ⟨fresh, q1, by rw [hanc j hj2, q2], fun i hi hne => ?_⟩
    have hin : GetTableStart addr (j + 1) ≤ GetTableStart addr (j + 1) + 8 * i ∧
        GetTableStart addr (j + 1) + 8 * i < GetTableStart addr (j + 1) + 0x1000 := by omega
    have hother : ∀ k, k ≤ 3 → k ≠ j + 1 →
        GetTableStart addr (j + 1) + 8 * i ≠ GetTableEntry addr k := by
      intro k hk hkj he
      rw [he] at hin
      exact hkj (entry_in_table_level addr addr k (j + 1) hk (by omega) hnf hnf hin.1 hin.2)
    have hneD : GetTableStart addr (j + 1) + 8 * i ≠ GetTableEntry addr theDepth := by
      by_cases hjD : theDepth = j + 1
      · rw [hjD]; exact hne
      · exact hother theDepth (by omega) hjD
    rw [hst]
    simp only [Function.update_noteq hneD]
    refine pZ j _ hj1 hj2 hin.1 hin.2 (fun k hk => ?_)
    by_cases hkj : k = j + 1
    · rw [hkj]; exact hne
    · exact hother k (by omega) hkj
  · rw [hst]
    simp only [Function.update_same]
  · have hneD : a ≠ GetTableEntry addr theDepth := hne theDepth (Nat.le_refl _)
    rw [hst]
    simp only [Function.update_noteq hneD]
    exact pF a (fun j hj => hne j (by omega)) hout

/-- C18 (witness): mapping `0x8000200000` on `sparseMachine`. -/
theorem Set_effect_witness :
    ∃ m, m ≤ 3 ∧
      (∀ j, j < m → sparseMachine.mem (GetTableEntry 0x8000200000 j) % 2 = 1 ∧
        newTableSet.state.mem (GetTableEntry 0x8000200000 j)
          = sparseMachine.mem (GetTableEntry 0x8000200000 j) ||| 7 ∧
        (7 &&& 0x7FFFFFFFFFFFF000 = 0 →
          newTableSet.state.mem (GetTableEntry 0x8000200000 j) &&& 0x7FFFFFFFFFFFF000
            = sparseMachine.mem (GetTableEntry 0x8000200000 j) &&& 0x7FFFFFFFFFFFF000)) ∧
      (m < 3 → sparseMachine.mem (GetTableEntry 0x8000200000 m) % 2 = 0) ∧
      (∀ j, m ≤ j → j < 3 → ∃ fresh, fresh ∈ sparseMachine.allocator.pool ∧
        newTableSet.state.mem (GetTableEntry 0x8000200000 j) = fresh ||| 7 ∧
        ∀ i, i < 0x200 →
          GetTableStart 0x8000200000 (j + 1) + 8 * i ≠ GetTableEntry 0x8000200000 (j + 1) →
          newTableSet.state.mem (GetTableStart 0x8000200000 (j + 1) + 8 * i) = 0) ∧
      newTableSet.state.mem (GetTableEntry 0x8000200000 3) = 0xb003 ∧
      (∀ a, (∀ j, j ≤ 3 → a ≠ GetTableEntry 0x8000200000 j) →
        (∀ j, m ≤ j → j < 3 →
          ¬ (GetTableStart 0x8000200000 (j + 1) ≤ a ∧
            a < GetTableStart 0x8000200000 (j + 1) + 0x1000)) →
        newTableSet.state.mem a = sparseMachine.mem a) :=
  Set_effect sparseMachine 0x8000200000 0xb003 7 3 none newTableSet (by decide) rfl rfl

theorem FreeTableEntries_freed (phys : Nat → Nat) (rec : Nat → Allocator → Allocator)
    (F : Nat → List Nat) (addr : Nat)
    (hrec : ∀ sub acc, rec sub acc = { acc with freed := (F sub).reverse ++ acc.freed }) :
    ∀ count start a, FreeTableEntries phys rec addr start count a =
      { a with freed := (((List.range' start count).map (fun i =>
          if followedByTeardown (phys (addr + 8 * i)) then
            F (phys (addr + 8 * i) &&& 0x7FFFFFFFFFFFF000)
          else [])).flatten).reverse ++ a.freed } := by
  intro count
  induction count with
  | zero => intro start a; simp [FreeTableEntries]
  | succ n ih =>
    intro start a
    have ih' := ih (start + 1)
    unfold FreeTableEntries at ih' ⊢
    rw [List.range'_succ, List.foldl_cons, ih']
    simp only [List.map_cons, List.flatten_cons, List.reverse_append, followedByTeardown]
    by_cases hc : phys (addr + 8 * start) = 0 ∨ phys (addr + 8 * start) &&& 0x80 ≠ 0
    · simp [hc]
    · simp [hc, hrec]

theorem FreeTableRecursive_freed (phys : Nat → Nat) :
    ∀ levels addr start end_ a, FreeTableRecursive phys levels addr start end_ a =
      { a with freed := ((tablePaths phys levels addr start (end_ - start)).map
          (frameAt phys addr)).reverse ++ a.freed } := by
  intro levels
  induction levels with
  | zero =>
    intro addr start end_ a
    simp [FreeTableRecursive, tablePaths, frameAt, Allocator.Free]
  | succ n ih =>
    intro addr start end_ a
    have hrec : ∀ sub acc, FreeTableRecursive phys n sub defaultStart defaultEnd acc =
        { acc with freed := ((tablePaths phys n sub 0 0x200).map (frameAt phys sub)).reverse
          ++ acc.freed } := by
      intro sub acc
      rw [ih]
      rfl
    simp only [FreeTableRecursive]
    rw [FreeTableEntries_freed phys _ (fun sub => (tablePaths phys n sub 0 0x200).map
      (frameAt phys sub)) addr hrec]
    simp only [Allocator.Free, tablePaths, List.map_append, List.map_flatten, List.map_map,
      List.reverse_append, List.map_cons, List.map_nil, frameAt, List.reverse_cons,
      List.reverse_nil, List.nil_append, List.singleton_append, List.cons_append]
    congr 5
    apply List.map_congr_left
    intro i _
    simp only [Function.comp]
    split
    · simp only [List.map_map]
      rfl
    · rfl

theorem mem_tablePaths (phys : Nat → Nat) :
    ∀ levels addr start count p, p ∈ tablePaths phys levels addr start count ↔
      PathOf followedByTeardown phys levels addr start (start + count) p := by
  intro levels
  induction levels with
  | zero =>
    intro addr start count p
    cases p <;> simp [tablePaths, PathOf]
  | succ n ih =>
    intro addr start count p
    cases p with
    | nil => simp [tablePaths, PathOf]
    | cons i q =>
      simp only [tablePaths, PathOf, List.mem_append, List.mem_flatten, List.mem_map,
        List.mem_range'_1, List.mem_singleton]
      constructor
      · rintro (⟨l, ⟨j, hj, rfl⟩, hmem⟩ | h)
        · split at hmem
          · rename_i hf
            simp only [List.mem_map] at hmem
            obtain ⟨q', hq', he⟩ := hmem
            simp only [List.cons.injEq] at he
            obtain ⟨rfl, rfl⟩ := he
            refine ⟨hj.1, hj.2, hf, ?_⟩
            have := (ih _ 0 0x200 q').1 hq'
            simpa using this
          · simp at hmem
        · simp at h
      · rintro ⟨h1, h2, h3, h4⟩
        left
        refine ⟨_, ⟨i, ⟨h1, h2⟩, rfl⟩, ?_⟩
        rw [if_pos h3]
        simp only [List.mem_map]
        refine ⟨q, (ih _ 0 0x200 q).2 (by simpa using h4), rfl⟩

theorem nodup_flatten_heads (g : Nat → List (List Nat)) (hg : ∀ i, (g i).Nodup)
    (hhead : ∀ i p, p ∈ g i → ∃ q, p = i :: q) :
    ∀ l : List Nat, l.Nodup → ((l.map g).flatten).Nodup := by
  intro l
  induction l with
  | nil => intro _; simp
  | cons a l ih =>
    intro h
    rw [List.nodup_cons] at h
    simp only [List.map_cons, List.flatten_cons]
    rw [List.nodup_append]
    refine ⟨hg a, ih h.2, ?_⟩
    intro p hp1 hp2
    obtain ⟨q, rfl⟩ := hhead a p hp1
    simp only [List.mem_flatten, List.mem_map] at hp2
    obtain ⟨l', ⟨j, hj, rfl⟩, hmem⟩ := hp2
    obtain ⟨q', he⟩ := hhead j _ hmem
    simp only [List.cons.injEq] at he
    rw [he.1] at h
    exact h.1 hj

/-- The teardown goes through no path twice. -/
theorem tablePaths_nodup (phys : Nat → Nat) :
    ∀ levels addr start count, (tablePaths phys levels addr start count).Nodup := by
  intro levels
  induction levels with
  | zero => intro addr start count; simp [tablePaths]
  | succ n ih =>
    intro addr start count
    simp only [tablePaths]
    rw [List.nodup_append]
    refine ⟨?_, by simp, ?_⟩
    · refine nodup_flatten_heads _ (fun i => ?_) (fun i p hp => ?_) _ (List.nodup_range' _ _)
      · split
        · exact List.Nodup.map (fun a b hab => by simpa using hab) (ih _ _ _)
        · simp
      · split at hp
        · simp only [List.mem_map] at hp
          obtain ⟨q, -, rfl⟩ := hp
          exact ⟨q, rfl⟩
        · simp at hp
    · intro p hp1 hp2
      simp only [List.mem_singleton] at hp2
      subst hp2
      simp only [List.mem_flatten, List.mem_map] at hp1
      obtain ⟨l', ⟨j, -, rfl⟩, hmem⟩ := hp1
      split at hmem
      · simp at hmem
      · simp at hmem

theorem PathOf_top_range (follow : Nat → Bool) (phys : Nat → Nat) (levels addr a b c d : Nat)
    (p : List Nat) (hr : ∀ i, a ≤ i ∧ i < b → c ≤ i ∧ i < d)
    (h : PathOf follow phys levels addr a b p) : PathOf follow phys levels addr c d p := by
  cases levels with
  | zero =>
    cases p with
    | nil => trivial
    | cons i q => simp [PathOf] at h
  | succ n =>
    cases p with
    | nil => trivial
    | cons i q =>
      simp only [PathOf] at h ⊢
      obtain ⟨h1, h2, h3, h4⟩ := h
      have := hr i ⟨h1, h2⟩
      exact ⟨this.1, this.2, h3, h4⟩

/-- C11 (counterexample): in `aliasedAbsentEntry` the only present non-large entry is
entry 1 of the root, so the present non-large entries point to distinct table frames; entry
2 is non-zero and not present, the teardown follows it too, and `FreeTable(1)` passes the
frame `0x2000` to `Free` twice. -/
theorem C11_counterexample :
    DistinctTables presentNonLarge aliasedAbsentEntry 0x1000 ∧
    (FreeTable aliasedAbsentEntry inactiveSpace 1).toOption.map
      (fun s => s.allocator.freed) = some [0x1000, 0x2000, 0x2000] := by
  refine ⟨?_, rfl⟩
  have hroot : ∀ i, presentNonLarge (aliasedAbsentEntry (0x1000 + 8 * i)) = true → i = 1 := by
    intro i h
    unfold presentNonLarge aliasedAbsentEntry at h
    by_cases h1 : 0x1000 + 8 * i = 0x1008
    · omega
    · by_cases h2 : 0x1000 + 8 * i = 0x1010
      · simp [h1, h2] at h
      · simp [h1, h2] at h
  have hsub : ∀ i, presentNonLarge (aliasedAbsentEntry (0x2000 + 8 * i)) = false := by
    intro i
    unfold presentNonLarge aliasedAbsentEntry
    have h1 : 0x2000 + 8 * i ≠ 0x1008 := by omega
    have h2 : 0x2000 + 8 * i ≠ 0x1010 := by omega
    simp [h1, h2]
  have hpath : ∀ p, PathOf presentNonLarge aliasedAbsentEntry 3 0x1000 0 0x1ff p →
      p = [] ∨ p = [1] := by
    intro p hp
    cases p with
    | nil => left; rfl
    | cons i q =>
      right
      simp only [PathOf] at hp
      obtain ⟨-, -, h3, h4⟩ := hp
      have hi := hroot i h3
      subst hi
      cases q with
      | nil => rfl
      | cons j q' =>
        simp only [PathOf] at h4
        have e : aliasedAbsentEntry (0x1000 + 8 * 1) &&& 0x7FFFFFFFFFFFF000 = 0x2000 := by decide
        rw [e, hsub j] at h4
        simp at h4
  intro p q hp hq he
  rcases hpath p hp with rfl | rfl <;> rcases hpath q hq with rfl | rfl
  · rfl
  · exact absurd he (by decide)
  · exact absurd he (by decide)
  · rfl

/-- C11 (amended): on a table that is not the active one, outside a critical section,
whose followed entries (non-zero, no large-page bit: the test of the teardown, which does
not look at the present bit) point to distinct table frames, `FreeTable(start)` returns
and passes to `Free` exactly the frames at the end of the paths of followed entries with
top-level index `start <= i < 0x1ff` (the root, at the end of the empty path, among
them), each once; it frees no frame reached through a top-level entry below `start`, and
no frame that no such path leads to (a leaf frame of a well-formed tree). -/
theorem FreeTable_frees (phys : Nat → Nat) (s : State) (start : Nat)
    (hcrit : s.critical = false) (hset : IsSet s = false)
    (hwf : DistinctTables followedByTeardown phys s.pml4) :
    ∃ s' frames, FreeTable phys s start = .ok s' ∧
      s'.allocator.freed = frames ++ s.allocator.freed ∧
      s'.allocator.pool = s.allocator.pool ∧
      s'.allocator.allocated = s.allocator.allocated ∧
      frames.Nodup ∧
      (∀ f, f ∈ frames ↔ ∃ p, PathOf followedByTeardown phys 3 s.pml4 start 0x1ff p ∧
        frameAt phys s.pml4 p = f) ∧
      s.pml4 ∈ frames ∧
      (∀ i q, i < start → PathOf followedByTeardown phys 3 s.pml4 0 0x1ff (i :: q) →
        frameAt phys s.pml4 (i :: q) ∉ frames) ∧
      (∀ l, (∀ p, PathOf followedByTeardown phys 3 s.pml4 0 0x1ff p →
        frameAt phys s.pml4 p ≠ l) → l ∉ frames) := by
  have hmem : ∀ f, f ∈ ((tablePaths phys 3 s.pml4 start (0x1ff - start)).map
      (frameAt phys s.pml4)).reverse ↔
      ∃ p, PathOf followedByTeardown phys 3 s.pml4 start 0x1ff p ∧
        frameAt phys s.pml4 p = f := by
    intro f
    simp only [List.mem_reverse, List.mem_map, mem_tablePaths]
    constructor
    · rintro ⟨p, hp, rfl⟩
      exact ⟨p, PathOf_top_range _ _ _ _ _ _ _ _ _ (fun i hi => by omega) hp, rfl⟩
    · rintro ⟨p, hp, rfl⟩
      exact ⟨p, PathOf_top_range _ _ _ _ _ _ _ _ _ (fun i hi => by omega) hp, rfl⟩
  have hwide : ∀ p, PathOf followedByTeardown phys 3 s.pml4 start 0x1ff p →
      PathOf followedByTeardown phys 3 s.pml4 0 0x1ff p :=
    fun p hp => PathOf_top_range _ _ _ _ _ _ _ _ _ (fun i hi => by omega) hp
  refine ⟨{ s with allocator := FreeTableRecursive phys 3 s.pml4 start 0x1ff s.allocator },
    ((tablePaths phys 3 s.pml4 start (0x1ff - start)).map (frameAt phys s.pml4)).reverse,
    ?_, ?_, ?_, ?_, ?_, hmem, ?_, ?_, ?_⟩
  · unfold FreeTable
    simp [hcrit, hset]
  · rw [FreeTableRecursive_freed]
  · rw [FreeTableRecursive_freed]
  · rw [FreeTableRecursive_freed]
  · rw [List.nodup_reverse]
    refine List.Nodup.map_on (fun p hp q hq he => ?_) (tablePaths_nodup _ _ _ _ _)
    rw [mem_tablePaths] at hp hq
    exact hwf p q (PathOf_top_range _ _ _ _ _ _ _ _ _ (fun i hi => by omega) hp)
      (PathOf_top_range _ _ _ _ _ _ _ _ _ (fun i hi => by omega) hq) he
  · exact (hmem _).2 ⟨[], trivial, rfl⟩
  · intro i q hi hp hin
    obtain ⟨p, hp', he⟩ := (hmem _).1 hin
    have := hwf p (i :: q) (hwide p hp') hp he
    subst this
    simp only [PathOf] at hp'
    omega
  · intro l hl hin
    obtain ⟨p, hp', he⟩ := (hmem _).1 hin
    exact hl p (hwide p hp') he

/-- C11 (witness): the teardown of `oneTableTree` from top-level entry 1. -/
theorem FreeTable_frees_witness :
    ∃ s' frames, FreeTable oneTableTree inactiveSpace 1 = .ok s' ∧
      s'.allocator.freed = frames ++ inactiveSpace.allocator.freed ∧
      s'.allocator.pool = inactiveSpace.allocator.pool ∧
      s'.allocator.allocated = inactiveSpace.allocator.allocated ∧
      frames.Nodup ∧
      (∀ f, f ∈ frames ↔ ∃ p,
        PathOf followedByTeardown oneTableTree 3 inactiveSpace.pml4 1 0x1ff p ∧
        frameAt oneTableTree inactiveSpace.pml4 p = f) ∧
      inactiveSpace.pml4 ∈ frames ∧
      (∀ i q, i < 1 →
        PathOf followedByTeardown oneTableTree 3 inactiveSpace.pml4 0 0x1ff (i :: q) →
        frameAt oneTableTree inactiveSpace.pml4 (i :: q) ∉ frames) ∧
      (∀ l, (∀ p, PathOf followedByTeardown oneTableTree 3 inactiveSpace.pml4 0 0x1ff p →
        frameAt oneTableTree inactiveSpace.pml4 p ≠ l) → l ∉ frames) :=
  FreeTable_frees oneTableTree inactiveSpace 1 rfl rfl (by
    have hroot : ∀ i, i < 0x1ff →
        followedByTeardown (oneTableTree (0x1000 + 8 * i)) = true → i = 1 := by
      intro i hi h
      unfold followedByTeardown oneTableTree at h
      by_cases h1 : 0x1000 + 8 * i = 0x1008
      · omega
      · have h2 : 0x1000 + 8 * i ≠ 0x1ff8 := by omega
        simp [h1, h2] at h
    have hsub : ∀ i, followedByTeardown (oneTableTree (0x2000 + 8 * i)) = false := by
      intro i
      unfold followedByTeardown oneTableTree
      have h1 : 0x2000 + 8 * i ≠ 0x1008 := by omega
      have h2 : 0x2000 + 8 * i ≠ 0x1ff8 := by omega
      simp [h1, h2]
    have hpath : ∀ p, PathOf followedByTeardown oneTableTree 3 0x1000 0 0x1ff p →
        p = [] ∨ p = [1] := by
      intro p hp
      cases p with
      | nil => left; rfl
      | cons i q =>
        right
        simp only [PathOf] at hp
        obtain ⟨-, hlt, h3, h4⟩ := hp
        have hi := hroot i hlt h3
        subst hi
        cases q with
        | nil => rfl
        | cons j q' =>
          simp only [PathOf] at h4
          have e : oneTableTree (0x1000 + 8 * 1) &&& 0x7FFFFFFFFFFFF000 = 0x2000 := by decide
          rw [e, hsub j] at h4
          simp at h4
    intro p q hp hq he
    rcases hpath p hp with rfl | rfl <;> rcases hpath q hq with rfl | rfl
    · rfl
    · exact absurd he (by decide)
    · exact absurd he (by decide)
    · rfl)

/-- A cleared path carries no mapping. -/
theorem Cleared_not_Mapped (mem : Nat → Nat) (x : Nat) (h : Cleared mem x) :
    ¬ Mapped mem x := by
  rintro ⟨d', hd', hanc', hleaf⟩
  obtain ⟨d, hd, hz, hanc⟩ := h
  by_cases h1 : d < d'
  · have := (hanc' d h1).1
    rw [hz] at this
    omega
  · by_cases h2 : d = d'
    · subst h2
      rcases hleaf with h7 | ⟨h3, h0⟩
      · rw [hz] at h7; omega
      · subst h3; rw [hz] at h0; omega
    · have hlt : d' < d := by omega
      rcases hanc d' hlt with ⟨h0, h7⟩ | h0
      · rcases hleaf with g7 | ⟨g3, -⟩
        · omega
        · omega
      · rcases hleaf with g7 | ⟨g3, -⟩
        · rw [h0] at g7; omega
        · omega

/-- Writing zeros creates no mapping. -/
theorem Mapped_zeroes (m m' : Nat → Nat) (x : Nat) (hz : ∀ a, m' a = m a ∨ m' a = 0)
    (h : Mapped m' x) : Mapped m x := by
  obtain ⟨d, hd, hanc, hleaf⟩ := h
  have hsame : ∀ a, m' a ≠ 0 → m' a = m a := by
    intro a ha
    rcases hz a with h | h
    · exact h
    · exact absurd h ha
  refine ⟨d, hd, fun j hj => ?_, ?_⟩
  · have := hanc j hj
    have hne : m' (GetTableEntry x j) ≠ 0 := by
      intro h0
      rw [h0] at this
      omega
    rw [← hsame _ hne]
    exact this
  · have hne : m' (GetTableEntry x d) ≠ 0 := by
      intro h0
      rw [h0] at hleaf
      rcases hleaf with h | ⟨rfl, h⟩
      · omega
      · rw [h0] at h; omega
    rcases hleaf with h | ⟨rfl, h⟩
    · left; rw [← hsame _ hne]; exact h
    · right; exact ⟨rfl, by rw [← hsame _ hne]; exact h⟩

/-- `Walk` reports a depth `>= 0` exactly on the mapped addresses. -/
theorem Mapped_iff_Walk (s : State) (x : Nat) (hchk : entryChecks s = .ok ()) :
    Mapped s.mem x ↔ ∃ w, Walk s x = .ok w ∧ 0 ≤ w.depth := by
  constructor
  · rintro ⟨d, hd, hanc, hleaf⟩
    have hleaf' : s.mem (GetTableEntry x d) / 128 % 2 = 1 ∨
        (d = 3 ∧ s.mem (GetTableEntry x d) % 2 = 1) := by
      rcases hleaf with h | ⟨rfl, h⟩
      · exact Or.inl h
      · exact Or.inr ⟨rfl, h⟩
    exact ⟨_, Walk_of_linked s x d _ hchk hd hanc rfl hleaf', by simp⟩
  · rintro ⟨w, hw, hd⟩
    rw [Walk_reference s x hchk] at hw
    simp only [Except.ok.injEq] at hw
    subst hw
    simp only [referenceWalkLargeFirst, firstStop, Nat.and_one_is_mod, and_80] at hd
    by_cases c0 : s.mem (GetTableEntry x 0) % 2 = 0 ∨
        128 * (s.mem (GetTableEntry x 0) / 128 % 2) ≠ 0
    · simp only [if_pos c0] at hd
      refine ⟨0, by omega, fun j hj => absurd hj (Nat.not_lt_zero j), ?_⟩
      left
      by_contra hc
      have : s.mem (GetTableEntry x 0) % 2 = 0 ∧
          128 * (s.mem (GetTableEntry x 0) / 128 % 2) = 0 := by omega
      simp [this] at hd
    · simp only [if_neg c0] at hd
      by_cases c1 : s.mem (GetTableEntry x 1) % 2 = 0 ∨
          128 * (s.mem (GetTableEntry x 1) / 128 % 2) ≠ 0
      · simp only [if_pos c1] at hd
        refine ⟨1, by omega, fun j hj => ?_, ?_⟩
        · have : j = 0 := by omega
          subst this
          omega
        · left
          by_contra hc
          have : s.mem (GetTableEntry x 1) % 2 = 0 ∧
              128 * (s.mem (GetTableEntry x 1) / 128 % 2) = 0 := by omega
          simp [this] at hd
      · simp only [if_neg c1] at hd
        by_cases c2 : s.mem (GetTableEntry x 2) % 2 = 0 ∨
            128 * (s.mem (GetTableEntry x 2) / 128 % 2) ≠ 0
        · simp only [if_pos c2] at hd
          refine ⟨2, by omega, fun j hj => ?_, ?_⟩
          · have : j = 0 ∨ j = 1 := by omega
            rcases this with rfl | rfl <;> omega
          · left
            by_contra hc
            have : s.mem (GetTableEntry x 2) % 2 = 0 ∧
                128 * (s.mem (GetTableEntry x 2) / 128 % 2) = 0 := by omega
            simp [this] at hd
        · simp only [if_neg c2] at hd
          refine ⟨3, by omega, fun j hj => ?_, ?_⟩
          · have : j = 0 ∨ j = 1 ∨ j = 2 := by omega
            rcases this with rfl | rfl | rfl <;> omega
          · by_cases h7 : s.mem (GetTableEntry x 3) / 128 % 2 = 1
            · exact Or.inl h7
            · right
              refine ⟨rfl, ?_⟩
              by_contra hc
              have : s.mem (GetTableEntry x 3) % 2 = 0 ∧
                  128 * (s.mem (GetTableEntry x 3) / 128 % 2) = 0 := by omega
              simp [this] at hd

theorem entry_upto (x y i j : Nat) (h : GetTableEntry x i = GetTableEntry y i)
    (hji : j ≤ i) (hi : i ≤ 3) : GetTableEntry x j = GetTableEntry y j := by
  interval_cases i <;> interval_cases j <;>
    simp only [GetTableEntry_zero, GetTableEntry_one, GetTableEntry_two,
      GetTableEntry_three] at h ⊢ <;> omega

theorem table_of_parent (x y j : Nat) (h : GetTableEntry x j = GetTableEntry y j)
    (hj : j < 3) : GetTableStart x (j + 1) = GetTableStart y (j + 1) := by
  rw [GetTableStart_eq, GetTableStart_eq]
  interval_cases j <;>
    simp only [Nat.reduceAdd, GetTableEntry_zero, GetTableEntry_one, GetTableEntry_two,
      GetTableEntry_three] at h ⊢ <;> omega

/-- Two canonical addresses with the same entry at depth `D` lie in the same page of the
size of that depth. -/
theorem same_page_of_entry (x a D : Nat) (hD : D ≤ 3) (hx : Canonical x) (ha : Canonical a)
    (hal : a % (0x1000 <<< (27 - 9 * D)) = 0)
    (h : GetTableEntry x D = GetTableEntry a D) :
    a ≤ x ∧ x < a + 0x1000 <<< (27 - 9 * D) := by
  unfold Canonical at hx ha
  interval_cases D <;>
    simp only [Nat.reduceMul, Nat.reduceSub, Nat.reducePow, Nat.shiftLeft_eq, Nat.reduceMul,
      GetTableEntry_zero, GetTableEntry_one, GetTableEntry_two, GetTableEntry_three]
      at h hal hx ha ⊢ <;> omega

/-- The addresses of one page have the same entries down to the depth of the page size. -/
theorem entry_of_same_page (x a D j : Nat) (hD : D ≤ 3) (hj : j ≤ D)
    (hal : a % (0x1000 <<< (27 - 9 * D)) = 0)
    (h1 : a ≤ x) (h2 : x < a + 0x1000 <<< (27 - 9 * D)) :
    GetTableEntry x j = GetTableEntry a j := by
  interval_cases D <;> interval_cases j <;>
    simp only [Nat.reduceMul, Nat.reduceSub, Nat.reducePow, Nat.shiftLeft_eq, Nat.reduceMul,
      GetTableEntry_zero, GetTableEntry_one, GetTableEntry_two, GetTableEntry_three]
      at h2 hal ⊢ <;> omega

/-- A successful `Set` creates no mapping outside the page it maps: an address outside the
self-referential slot whose entry at the depth of the `Set` is another word and which is
mapped afterwards was mapped before. -/
theorem Set_keeps_unmapped (s : State) (addr entry pm D : Nat) (ow : Option Bool)
    (r : SetResult) (x : Nat) (hnf : ¬ InFractalSlot addr) (hx : ¬ InFractalSlot x)
    (hpm0 : pm % 2 = 1) (hpm7 : pm / 128 % 2 = 0)
    (hpool : ∀ f, f ∈ s.allocator.pool → f % 0x1000 = 0)
    (hout : GetTableEntry x D ≠ GetTableEntry addr D)
    (h : Set s addr entry pm D ow = .ok r) (hok : r.ok = true)
    (hm : Mapped r.state.mem x) : Mapped s.mem x := by
  obtain ⟨-, hD, -, s1, hloop, -, hst⟩ := Set_true_inv s addr entry pm D ow r h hok
  obtain ⟨m, hmD, pA, -, -, pZ, pF, -⟩ := SetLoop_effect addr pm D s s1 (by omega) hnf hloop
  have hlinks := SetLoop_links addr pm D s s1 (by omega) hnf hpm0 hpm7 hpool hloop
  have hex : ∃ k, GetTableEntry x k ≠ GetTableEntry addr k := ⟨D, hout⟩
  obtain ⟨k, hk, hkD, hlt⟩ : ∃ k, GetTableEntry x k ≠ GetTableEntry addr k ∧ k ≤ D ∧
      ∀ j, j < k → GetTableEntry x j = GetTableEntry addr j :=
    ⟨Nat.find hex, Nat.find_spec hex, Nat.find_min' hex hout,
      fun j hj => by_contra (fun hne => Nat.find_min hex hj hne)⟩
  have hdiv : ∀ i, k ≤ i → i ≤ 3 → GetTableEntry x i ≠ GetTableEntry addr i :=
    fun i hki hi he => hk (entry_upto x addr i k he hki hi)
  have hne_all : ∀ i j, k ≤ i → i ≤ 3 → j ≤ 3 → GetTableEntry x i ≠ GetTableEntry addr j := by
    intro i j hki hi hj he
    have := entry_level_inj x addr i j hi hj hx hnf he
    subst this
    exact hdiv i hki hi he
  have hpage : ∀ i j, k ≤ i → i ≤ 3 → j < D →
      GetTableStart addr (j + 1) ≤ GetTableEntry x i →
      GetTableEntry x i < GetTableStart addr (j + 1) + 0x1000 → i = k ∧ k = j + 1 := by
    intro i j hki hi hj h1 h2
    have e := entry_in_table_level x addr i (j + 1) hi (by omega) hx hnf h1 h2
    subst e
    have hp := entry_in_table_parent x addr j (by omega) h1 h2
    have hjk : j < k := by
      by_contra hc
      exact hdiv j (by omega) (by omega) hp
    omega
  have hanc' : ∀ j, j < k → r.state.mem (GetTableEntry x j) = s1.mem (GetTableEntry addr j) := by
    intro j hj
    have hne : GetTableEntry addr j ≠ GetTableEntry addr D := by
      intro he
      have := entry_level_inj addr addr j D (by omega) (by omega) hnf hnf he
      omega
    rw [hlt j hj, hst]
    simp only [Function.update_noteq hne]
  by_cases hkm : m < k
  · -- the path of `x` leaves the path of `addr` inside a table allocated by this call
    exfalso
    refine Cleared_not_Mapped r.state.mem x ⟨k, by omega, ?_, fun j hj => ?_⟩ hm
    · have hstart : GetTableStart x k = GetTableStart addr k := by
        have e : k - 1 + 1 = k := by omega
        have := table_of_parent x addr (k - 1) (hlt (k - 1) (by omega)) (by omega)
        rwa [e] at this
      obtain ⟨o1, o2⟩ := entry_in_own_table x k
      rw [hstart] at o1 o2
      have hz := pZ (k - 1) (GetTableEntry x k) (by omega) (by omega)
        (by rw [show k - 1 + 1 = k by omega]; exact o1)
        (by rw [show k - 1 + 1 = k by omega]; exact o2)
        (fun i hi => hne_all k i (Nat.le_refl k) (by omega) (by omega))
      rw [hst]
      simp only [Function.update_noteq (hne_all k D (Nat.le_refl k) (by omega) (by omega))]
      exact hz
    · left
      rw [hanc' j hj]
      exact hlinks j (by omega)
  · -- the path of `x` leaves the path of `addr` in a table that was there before
    have hsame : ∀ i, k ≤ i → i ≤ 3 →
        r.state.mem (GetTableEntry x i) = s.mem (GetTableEntry x i) := by
      intro i hki hi
      rw [hst]
      simp only [Function.update_noteq (hne_all i D hki hi (by omega))]
      refine pF _ (fun j hj => hne_all i j hki hi (by omega)) (fun j hj1 hj2 hin => ?_)
      have := hpage i j hki hi hj2 hin.1 hin.2
      omega
    obtain ⟨d, hd, hanc, hleaf⟩ := hm
    have hdk : k ≤ d := by
      by_contra hc
      have hlt' : d < k := by omega
      have hl := hlinks d (by omega)
      rw [← hanc' d hlt'] at hl
      rcases hleaf with h7 | ⟨h3, -⟩
      · omega
      · omega
    refine ⟨d, hd, fun j hj => ?_, ?_⟩
    · by_cases hjk : j < k
      · rw [hlt j hjk]
        obtain ⟨q1, q2, -⟩ := pA j (by omega)
        exact ⟨q1, q2⟩
      · rw [← hsame j (by omega) (by omega)]
        exact hanc j hj
    · rcases hleaf with h7 | ⟨h3, h0⟩
      · left
        rw [← hsame d hdk hd]
        exact h7
      · right
        subst h3
        exact ⟨rfl, by rw [← hsame 3 hdk hd]; exact h0⟩

theorem Set_pool (s : State) (addr entry pm D : Nat) (ow : Option Bool) (r : SetResult)
    (h : Set s addr entry pm D ow = .ok r) :
    ∀ f, f ∈ r.state.allocator.pool → f ∈ s.allocator.pool := by
  cases hok : r.ok
  · obtain ⟨-, -, -, hl, -⟩ := Set_false_inv s addr entry pm D ow r h hok
    exact SetLoop_pool addr pm D s r.state false hl
  · obtain ⟨-, -, -, s1, hl, -, hst⟩ := Set_true_inv s addr entry pm D ow r h hok
    rw [hst]
    exact SetLoop_pool addr pm D s s1 true hl

/-- A run of `SetList` over pages of user addresses creates no mapping outside the run. -/
theorem SetListLoop_keeps_unmapped (size pm D : Nat) (hsD : SizeDepth size D)
    (hpm0 : pm % 2 = 1) (hpm7 : pm / 128 % 2 = 0) (x : Nat) (hx : UserAddress x) :
    ∀ fuel cv cp ptr out s out' s',
      (∀ f, f ∈ s.allocator.pool → f % 0x1000 = 0) →
      (∀ i, i < fuel → UserAddress (cv + i * size)) →
      ¬ (cv ≤ x ∧ x < cv + fuel * size) →
      SetListLoop size pm D fuel cv cp ptr out s = .ok (out', s') →
      (Mapped s'.mem x → Mapped s.mem x) ∧
      (∀ f, f ∈ s'.allocator.pool → f ∈ s.allocator.pool) := by
  have hsize : size = 0x1000 <<< (27 - 9 * D) ∧ D ≤ 3 ∧ 0 < size := by
    rcases hsD with ⟨rfl, rfl⟩ | ⟨rfl, rfl⟩ | ⟨rfl, rfl⟩ <;> decide
  intro fuel
  induction fuel with
  | zero =>
    intro cv cp ptr out s out' s' _ _ _ h
    simp only [SetListLoop, Except.ok.injEq, Prod.mk.injEq] at h
    obtain ⟨-, rfl⟩ := h
    exact ⟨fun h => h, fun f hf => hf⟩
  | succ n ih =>
    intro cv cp ptr out s out' s' hpool huser hout h
    simp only [SetListLoop] at h
    split at h
    · simp at h
    · rename_i r hset
      split at h
      · simp at h
      · rename_i hok
        have hok' : r.ok = true := by simpa using hok
        obtain ⟨-, -, hal, -⟩ := Set_true_inv s cv cp pm D ptr r hset hok'
        have hpool1 := Set_pool s cv cp pm D ptr r hset
        have hcv0 := huser 0 (by omega)
        simp only [Nat.zero_mul, Nat.add_zero] at hcv0
        have hnext : n = 0 ∨ (cv + size) % 2 ^ 64 = cv + size := by
          by_cases hn : n = 0
          · exact Or.inl hn
          · right
            have h1 := (huser 1 (by omega)).1
            simp only [Nat.one_mul] at h1
            unfold Canonical at h1
            omega
        have htail := ih ((cv + size) % 2 ^ 64) _ _ _ r.state out' s'
          (fun f hf => hpool f (hpool1 f hf))
          (fun i hi => by
            rcases hnext with hn | he
            · omega
            · rw [he]
              have := huser (i + 1) (by omega)
              rw [Nat.succ_mul] at this
              rw [Nat.add_assoc, Nat.add_comm size]
              exact this)
          (by
            rcases hnext with hn | he
            · subst hn
              omega
            · rw [he]
              rw [Nat.succ_mul] at hout
              omega)
          h
        refine ⟨fun hm => ?_, fun f hf => hpool1 f (htail.2 f hf)⟩
        have hm1 := htail.1 hm
        have hne : GetTableEntry x D ≠ GetTableEntry cv D := by
          intro he
          have := same_page_of_entry x cv D hsize.2.1 hx.1 hcv0.1 hal he
          rw [← hsize.1] at this
          rw [Nat.succ_mul] at hout
          have : 0 ≤ n * size := Nat.zero_le _
          omega
        exact Set_keeps_unmapped s cv cp pm D ptr r x hcv0.2 hx.2 hpm0 hpm7 hpool hne hset hok' hm1

theorem alignUp_ge (start ps : Nat) : start ≤ UserMap.alignUp start ps := by
  unfold UserMap.alignUp
  split
  · exact Nat.le_refl _
  · rename_i hps
    have hpos : 0 < ps := Nat.pos_of_ne_zero hps
    have h := Nat.lt_mul_div_succ (start + ps - 1) hpos
    rw [Nat.mul_add, Nat.mul_one, Nat.mul_comm] at h
    omega

/-- `Alloc` of the free list: on failure nothing changes; on success the extent was free
and is taken out of the set. -/
theorem FreeList.Alloc_spec (l : UserMap.FreeList) (ps pc : Nat) :
    ((l.Alloc ps pc).1 = 0 → (l.Alloc ps pc).2 = l) ∧
    ((l.Alloc ps pc).1 ≠ 0 →
      (∀ x, (l.Alloc ps pc).2.Has x ↔
        l.Has x ∧ ¬ ((l.Alloc ps pc).1 ≤ x ∧ x < (l.Alloc ps pc).1 + ps * pc)) ∧
      ∀ x, (l.Alloc ps pc).1 ≤ x → x < (l.Alloc ps pc).1 + ps * pc → l.Has x) := by
  unfold UserMap.FreeList.Alloc
  split
  · rename_i r hfind
    have hp := List.find?_some hfind
    have hr := List.mem_of_find?_eq_some hfind
    simp only [decide_eq_true_eq] at hp
    refine ⟨fun h0 => absurd h0 hp.1, fun _ => ⟨fun x => FreeList.remove_has l _ _ x,
      fun x h1 h2 => ⟨r, hr, ?_⟩⟩⟩
    have := alignUp_ge r.start ps
    unfold UserMap.Region.Has
    simp only at h1 h2
    omega
  · exact ⟨fun _ => rfl, fun h => absurd rfl h⟩

/-- `AllocAt` of the free list: on failure nothing changes; on success the extent is
taken out of the set. -/
theorem FreeList.AllocAt_spec (l : UserMap.FreeList) (addr ps pc : Nat) :
    ((l.AllocAt addr ps pc).1 = false → (l.AllocAt addr ps pc).2 = l) ∧
    ((l.AllocAt addr ps pc).1 = true →
      ∀ x, (l.AllocAt addr ps pc).2.Has x ↔
        l.Has x ∧ ¬ (addr ≤ x ∧ x < addr + ps * pc)) := by
  unfold UserMap.FreeList.AllocAt
  split
  · exact ⟨fun h => by simp at h, fun _ x => FreeList.remove_has l _ _ x⟩
  · exact ⟨fun _ => rfl, fun h => by simp at h⟩

theorem UnsetPrune_pool (addr : Nat) :
    ∀ depth s, (UnsetPrune addr depth s).allocator.pool = s.allocator.pool := by
  intro depth
  induction depth with
  | zero => intro s; rfl
  | succ n ih =>
    intro s
    simp only [UnsetPrune]
    split
    · rw [ih]
      rfl
    · rfl

/-- A successful `Unset` in detail: the entry at the depth `d` where its first loop ended
is zero afterwards, the entries above it were present and not large before and are zero or
unchanged afterwards; no word is changed but to zero, and the pool is untouched. -/
theorem Unset_clears (s s' : State) (addr : Nat) (b : Bool)
    (h : Unset s addr = .ok (b, s')) :
    (∃ d, d ≤ 3 ∧ s'.mem (GetTableEntry addr d) = 0 ∧
      (∀ j, j < d → (s'.mem (GetTableEntry addr j) % 2 = 1 ∧
        s'.mem (GetTableEntry addr j) / 128 % 2 = 0) ∨ s'.mem (GetTableEntry addr j) = 0) ∧
      (∀ j, j < d → s.mem (GetTableEntry addr j) % 2 = 1 ∧
        s.mem (GetTableEntry addr j) / 128 % 2 = 0)) ∧
    (∀ a, s'.mem a = s.mem a ∨ s'.mem a = 0) ∧
    s'.allocator.pool = s.allocator.pool := by
  obtain ⟨-, -, -, d, hd, hs'⟩ := Unset_inv s s' addr b h
  obtain ⟨-, hd3, hlinked⟩ := UnsetLoop_spec s.mem addr 3 0 d hd
  obtain ⟨hz, -, -, -⟩ := UnsetPrune_zeros addr d
    { s with mem := Function.update s.mem (GetTableEntry addr d) 0 }
  have hp := UnsetPrune_pool addr d
    { s with mem := Function.update s.mem (GetTableEntry addr d) 0 }
  rw [← hs'] at hz hp
  simp only at hz hp
  have hzero : s'.mem (GetTableEntry addr d) = 0 := by
    rcases hz (GetTableEntry addr d) with h | h
    · rw [h]; simp
    · exact h
  refine ⟨⟨d, by omega, hzero, fun j hj => ?_, fun j hj => hlinked j (Nat.zero_le j) hj⟩,
    fun a => ?_, hp⟩
  · rcases hz (GetTableEntry addr j) with h | h
    · by_cases he : GetTableEntry addr j = GetTableEntry addr d
      · right; rw [h, he]; simp
      · left; rw [h]
        simp only [Function.update_noteq he]
        exact hlinked j (Nat.zero_le j) hj
    · right; exact h
  · rcases hz a with h | h
    · rw [h]
      by_cases ha : a = GetTableEntry addr d
      · right; rw [ha]; simp
      · left; simp [Function.update_noteq ha]
    · right; exact h

/-- The loop of `Unmap` in detail: for every page it went through there is a depth `d` at
which the entry of the page is zero at the end, above which the entries are zero or
linked at the end and were linked at the start. -/
theorem UnmapLoop_clears (pageSize : Nat) :
    ∀ fuel next s t, UserMap.UnmapLoop pageSize fuel next s = .ok t →
      (∀ a, t.mem a = s.mem a ∨ t.mem a = 0) ∧
      t.allocator.pool = s.allocator.pool ∧
      ∀ i, i < fuel → ∃ d, d ≤ 3 ∧ t.mem (GetTableEntry (next + i * pageSize) d) = 0 ∧
        (∀ j, j < d → (t.mem (GetTableEntry (next + i * pageSize) j) % 2 = 1 ∧
          t.mem (GetTableEntry (next + i * pageSize) j) / 128 % 2 = 0) ∨
          t.mem (GetTableEntry (next + i * pageSize) j) = 0) ∧
        (∀ j, j < d → s.mem (GetTableEntry (next + i * pageSize) j) % 2 = 1 ∧
          s.mem (GetTableEntry (next + i * pageSize) j) / 128 % 2 = 0) := by
  intro fuel
  induction fuel with
  | zero =>
    intro next s t h
    simp only [UserMap.UnmapLoop, Except.ok.injEq] at h
    subst h
    exact ⟨fun a => Or.inl rfl, rfl, fun i hi => absurd hi (by omega)⟩
  | succ n ih =>
    intro next s t h
    simp only [UserMap.UnmapLoop] at h
    split at h
    · simp at h
    · rename_i ok s1 hU
      split at h
      · simp at h
      · obtain ⟨⟨d, hd, hz0, hanc0, hpre0⟩, hz1, hp1⟩ := Unset_clears s s1 next ok hU
        obtain ⟨hz, hp, hrest⟩ := ih _ _ _ h
        have hsame1 : ∀ a, s1.mem a ≠ 0 → s1.mem a = s.mem a := by
          intro a ha
          rcases hz1 a with h | h
          · exact h
          · exact absurd h ha
        refine ⟨fun a => ?_, by rw [hp, hp1], fun i hi => ?_⟩
        · rcases hz a with h1 | h1
          · rcases hz1 a with h2 | h2
            · left; rw [h1, h2]
            · right; rw [h1, h2]
          · right; exact h1
        · cases i with
          | zero =>
            simp only [Nat.zero_mul, Nat.add_zero]
            refine ⟨d, hd, ?_, fun j hj => ?_, hpre0⟩
            · rcases hz (GetTableEntry next d) with h | h
              · rw [h]; exact hz0
              · exact h
            · rcases hz (GetTableEntry next j) with h | h
              · rw [h]; exact hanc0 j hj
              · right; exact h
          | succ k =>
            obtain ⟨d', hd', q1, q2, q3⟩ := hrest k (by omega)
            have hc : ∀ j, GetTableEntry ((next + pageSize) % 2 ^ 64 + k * pageSize) j
                = GetTableEntry (next + (k + 1) * pageSize) j := by
              intro j
              apply GetTableEntry_congr
              rw [Nat.succ_mul]
              omega
            simp only [hc] at q1 q2 q3
            refine ⟨d', hd', q1, q2, fun j hj => ?_⟩
            have := q3 j hj
            have hne : s1.mem (GetTableEntry (next + (k + 1) * pageSize) j) ≠ 0 := by
              intro h0
              rw [h0] at this
              omega
            rw [← hsame1 _ hne]
            exact this

theorem SetListLoop_pool (size pm D : Nat) :
    ∀ fuel cv cp ptr out s out' s',
      SetListLoop size pm D fuel cv cp ptr out s = .ok (out', s') →
      ∀ f, f ∈ s'.allocator.pool → f ∈ s.allocator.pool := by
  intro fuel
  induction fuel with
  | zero =>
    intro cv cp ptr out s out' s' h
    simp only [SetListLoop, Except.ok.injEq, Prod.mk.injEq] at h
    obtain ⟨-, rfl⟩ := h
    exact fun f hf => hf
  | succ n ih =>
    intro cv cp ptr out s out' s' h
    simp only [SetListLoop] at h
    split at h
    · simp at h
    · rename_i r hset
      split at h
      · simp at h
      · exact fun f hf => Set_pool s cv cp pm D ptr r hset f (ih _ _ _ _ _ _ _ h f hf)

/-- `SetList` with the parent flags `7` on an extent of user addresses creates no mapping
at a user address outside the extent, and takes its frames from the pool. -/
theorem SetList_keeps_unmapped (s t : State) (addr entry : Nat) (size : Size)
    (ow out : Option Bool)
    (hpool : ∀ f, f ∈ s.allocator.pool → f % 0x1000 = 0)
    (hext : UserExtent addr (size.pageSize * size.pageCount))
    (h : SetList s addr entry size 7 ow = .ok (out, t)) :
    (∀ x, UserAddress x → ¬ (addr ≤ x ∧ x < addr + size.pageSize * size.pageCount) →
      Mapped t.mem x → Mapped s.mem x) ∧
    (∀ f, f ∈ t.allocator.pool → f ∈ s.allocator.pool) := by
  unfold SetList at h
  split at h
  · simp at h
  · split at h
    · simp at h
    · rename_i D hD
      have hsD := (CalcDepth_ok_iff size.pageSize D).1 hD
      refine ⟨fun x hx hout hm => ?_, SetListLoop_pool _ _ _ _ _ _ _ _ _ _ _ h⟩
      refine (SetListLoop_keeps_unmapped size.pageSize 7 D hsD (by decide) (by decide) x hx
        size.pageCount addr entry ow ow s out t hpool (fun i hi => ?_) ?_ h).1 hm
      · refine hext _ (by omega) ?_
        have h1 : (i + 1) * size.pageSize ≤ size.pageCount * size.pageSize :=
          Nat.mul_le_mul_right _ (by omega)
        have hpos : 0 < size.pageSize := by
          rcases hsD with ⟨h, -⟩ | ⟨h, -⟩ | ⟨h, -⟩ <;> omega
        rw [Nat.succ_mul] at h1
        rw [Nat.mul_comm size.pageSize]
        omega
      · rw [Nat.mul_comm size.pageCount]
        exact hout

/-- The loop of `Unmap` over an aligned extent none of whose pages is covered by a table of
smaller pages leaves no address of the extent mapped. -/
theorem UnmapLoop_unmaps (size : Size) (addr D : Nat) (s t : State)
    (hsD : SizeDepth size.pageSize D) (hal : addr % size.pageSize = 0)
    (hcover : ∀ i, i < size.pageCount → D = 3 ∨
      ¬ (s.mem (GetTableEntry (addr + i * size.pageSize) D) % 2 = 1 ∧
        s.mem (GetTableEntry (addr + i * size.pageSize) D) / 128 % 2 = 0))
    (h : UserMap.UnmapLoop size.pageSize size.pageCount addr s = .ok t) :
    ∀ x, addr ≤ x → x < addr + size.pageSize * size.pageCount → ¬ Mapped t.mem x := by
  intro x h1 h2
  obtain ⟨-, -, hpages⟩ := UnmapLoop_clears _ _ _ _ _ h
  have hps : size.pageSize = 0x1000 <<< (27 - 9 * D) ∧ D ≤ 3 ∧ 0 < size.pageSize := by
    rcases hsD with ⟨h, rfl⟩ | ⟨h, rfl⟩ | ⟨h, rfl⟩ <;> rw [h] <;> decide
  have hi : (x - addr) / size.pageSize < size.pageCount :=
    Nat.div_lt_of_lt_mul (by omega)
  have hlo : (x - addr) / size.pageSize * size.pageSize ≤ x - addr := Nat.div_mul_le_self _ _
  have hhi : x - addr < ((x - addr) / size.pageSize + 1) * size.pageSize := by
    have := Nat.lt_mul_div_succ (x - addr) hps.2.2
    rw [Nat.mul_comm] at this
    exact this
  rw [Nat.succ_mul] at hhi
  generalize (x - addr) / size.pageSize = i at hi hlo hhi
  obtain ⟨d, hd, hz, hanc, hpre⟩ := hpages i hi
  have hdD : d ≤ D := by
    rcases hcover i hi with h3 | hn
    · omega
    · by_contra hc
      exact hn (hpre D (by omega))
  have hpal : (addr + i * size.pageSize) % (0x1000 <<< (27 - 9 * D)) = 0 := by
    rw [← hps.1]
    rw [Nat.add_mod, hal, Nat.mul_mod_left, Nat.add_zero, Nat.zero_mod]
  have he : ∀ j, j ≤ d → GetTableEntry x j = GetTableEntry (addr + i * size.pageSize) j := by
    intro j hj
    refine entry_of_same_page x _ D j hps.2.1 (by omega) hpal (by omega) ?_
    rw [← hps.1]
    omega
  refine Cleared_not_Mapped t.mem x ⟨d, hd, ?_, fun j hj => ?_⟩
  · rw [he d (Nat.le_refl d)]
    exact hz
  · rw [he j (by omega)]
    exact hanc j hj

theorem Inv_Map (kernelEnd : Nat) (u : UserMap.Space) (phys : Nat) (size : Size)
    (attributes : Attributes) (r : Bool × Nat × UserMap.Space) (hinv : UserMap.Inv u)
    (h : UserMap.Map kernelEnd u phys size attributes = .ok r) : UserMap.Inv r.2.2 := by
  obtain ⟨hfail, hsucc⟩ := FreeList.Alloc_spec u.freeList size.pageSize size.pageCount
  unfold UserMap.Map at h
  split at h
  · simp at h
  · simp only at h
    split at h
    · rename_i h0
      simp only [Except.ok.injEq] at h
      subst h
      simp only
      rw [hfail h0]
      exact hinv
    · rename_i h0
      split at h
      · simp at h
      · split at h
        · simp at h
        · rename_i out t hsl
          simp only [Except.ok.injEq] at h
          subst h
          simp only
          obtain ⟨hhas, hfree⟩ := hsucc h0
          have hext : UserExtent (u.freeList.Alloc size.pageSize size.pageCount).1
              (size.pageSize * size.pageCount) :=
            fun x h1 h2 => hinv.freeUser x (hfree x h1 h2)
          obtain ⟨hkeep, hpool⟩ := SetList_keeps_unmapped u.table t _ _ size none out
            hinv.poolAligned hext hsl
          refine ⟨fun x hm hx => ?_, fun x hx => ?_, fun f hf => ?_⟩
          · have hx' := (hhas x).1 hx
            exact hinv.disjoint x (hkeep x (hinv.freeUser x hx'.1) hx'.2 hm) hx'.1
          · exact hinv.freeUser x ((hhas x).1 hx).1
          · exact hinv.poolAligned f (hpool f hf)

theorem Inv_MapAt (kernelEnd : Nat) (uninit : Bool) (u : UserMap.Space) (addr phys : Nat)
    (size : Size) (attributes : Attributes) (t : State) (hinv : UserMap.Inv u)
    (hext : UserExtent addr (size.pageSize * size.pageCount))
    (hfree : ∀ x, addr ≤ x → x < addr + size.pageSize * size.pageCount → ¬ u.freeList.Has x)
    (h : UserMap.MapAt kernelEnd uninit u.table addr phys size attributes = .ok t) :
    UserMap.Inv { u with table := t } := by
  unfold UserMap.MapAt at h
  split at h
  · simp at h
  · split at h
    · simp at h
    · simp only at h
      split at h
      · simp at h
      · rename_i out s1 hsl
        obtain ⟨hkeep, hpool⟩ := SetList_keeps_unmapped u.table s1 _ _ size (some uninit) out
          hinv.poolAligned hext hsl
        have hmem : t.mem = s1.mem ∧ t.allocator = s1.allocator := by
          split at h
          · simp only [Except.ok.injEq] at h
            rw [← h]
            exact ⟨rfl, rfl⟩
          · simp only [Except.ok.injEq] at h
            rw [← h]
            exact ⟨rfl, rfl⟩
        refine ⟨fun x hm hx => ?_, hinv.freeUser, fun f hf => ?_⟩
        · simp only at hm hx
          rw [hmem.1] at hm
          have hout : ¬ (addr ≤ x ∧ x < addr + size.pageSize * size.pageCount) :=
            fun hin => hfree x hin.1 hin.2 hx
          exact hinv.disjoint x (hkeep x (hinv.freeUser x hx) hout hm) hx
        · simp only at hf
          rw [hmem.2] at hf
          exact hinv.poolAligned f (hpool f hf)

theorem Inv_Unmap (u v : UserMap.Space) (addr D : Nat) (size : Size) (hinv : UserMap.Inv u)
    (hext : UserExtent addr (size.pageSize * size.pageCount))
    (hal : addr % size.pageSize = 0) (hD : CalcDepth size.pageSize = .ok D)
    (hcover : ∀ i, i < size.pageCount → D = 3 ∨
      ¬ (u.table.mem (GetTableEntry (addr + i * size.pageSize) D) % 2 = 1 ∧
        u.table.mem (GetTableEntry (addr + i * size.pageSize) D) / 128 % 2 = 0))
    (h : UserMap.Unmap u addr size = .ok v) : UserMap.Inv v := by
  unfold UserMap.Unmap at h
  split at h
  · simp at h
  · split at h
    · simp at h
    · rename_i t ht
      simp only [Except.ok.injEq] at h
      subst h
      have hsD := (CalcDepth_ok_iff size.pageSize D).1 hD
      have hun := UnmapLoop_unmaps size addr D u.table t hsD hal hcover ht
      obtain ⟨hz, hp, -⟩ := UnmapLoop_clears _ _ _ _ _ ht
      refine ⟨fun x hm hx => ?_, fun x hx => ?_, fun f hf => ?_⟩
      · simp only [UserMap.DistInvlpg] at hm
        rcases (FreeList.Free_has _ _ _ _ x).1 hx with hin | hold
        · exact hun x hin.1 hin.2 hm
        · exact hinv.disjoint x (Mapped_zeroes u.table.mem t.mem x hz hm) hold
      · rcases (FreeList.Free_has _ _ _ _ x).1 hx with hin | hold
        · exact hext x hin.1 hin.2
        · exact hinv.freeUser x hold
      · simp only [UserMap.DistInvlpg] at hf
        rw [hp] at hf
        exact hinv.poolAligned f hf

theorem Inv_UnmapAndReserve (u v : UserMap.Space) (addr : Nat) (size : Size)
    (hinv : UserMap.Inv u) (h : UserMap.UnmapAndReserve u addr size = .ok v) :
    UserMap.Inv v := by
  unfold UserMap.UnmapAndReserve at h
  rw [UnmapLoop_eq] at h
  split at h
  · simp at h
  · split at h
    · simp at h
    · rename_i t ht
      simp only [Except.ok.injEq] at h
      subst h
      obtain ⟨hz, hp, -⟩ := UnmapLoop_clears _ _ _ _ _ ht
      refine ⟨fun x hm hx => ?_, hinv.freeUser, fun f hf => ?_⟩
      · simp only [UserMap.DistInvlpg] at hm
        exact hinv.disjoint x (Mapped_zeroes u.table.mem t.mem x hz hm) hx
      · simp only [UserMap.DistInvlpg] at hf
        rw [hp] at hf
        exact hinv.poolAligned f hf

theorem Inv_Reserve (u : UserMap.Space) (size : Size) (r : Bool × Nat × UserMap.Space)
    (hinv : UserMap.Inv u) (h : UserMap.Reserve u size = .ok r) : UserMap.Inv r.2.2 := by
  obtain ⟨hfail, hsucc⟩ := FreeList.Alloc_spec u.freeList size.pageSize size.pageCount
  unfold UserMap.Reserve at h
  split at h
  · simp at h
  · simp only [Except.ok.injEq] at h
    subst h
    simp only
    by_cases h0 : (u.freeList.Alloc size.pageSize size.pageCount).1 = 0
    · rw [hfail h0]
      exact hinv
    · obtain ⟨hhas, -⟩ := hsucc h0
      exact ⟨fun x hm hx => hinv.disjoint x hm ((hhas x).1 hx).1,
        fun x hx => hinv.freeUser x ((hhas x).1 hx).1, hinv.poolAligned⟩

theorem Inv_ReserveAt (kernelEnd : Nat) (u v : UserMap.Space) (addr : Nat) (size : Size)
    (hinv : UserMap.Inv u) (h : UserMap.ReserveAt kernelEnd u addr size = .ok v) :
    UserMap.Inv v := by
  obtain ⟨-, hsucc⟩ := FreeList.AllocAt_spec u.freeList addr size.pageSize size.pageCount
  unfold UserMap.ReserveAt at h
  split at h
  · simp at h
  · split at h
    · simp at h
    · simp only at h
      split at h
      · simp at h
      · rename_i hok
        simp only [Except.ok.injEq] at h
        subst h
        have hhas := hsucc (by simpa using hok)
        exact ⟨fun x hm hx => hinv.disjoint x hm ((hhas x).1 hx).1,
          fun x hx => hinv.freeUser x ((hhas x).1 hx).1, hinv.poolAligned⟩

theorem Inv_Unreserve (u v : UserMap.Space) (addr : Nat) (size : Size)
    (hinv : UserMap.Inv u)
    (hext : UserExtent addr (size.pageSize * size.pageCount))
    (hun : ∀ x, addr ≤ x → x < addr + size.pageSize * size.pageCount →
      ¬ Mapped u.table.mem x)
    (h : UserMap.Unreserve u addr size = .ok v) : UserMap.Inv v := by
  unfold UserMap.Unreserve at h
  split at h
  · simp at h
  · simp only [Except.ok.injEq] at h
    subst h
    refine ⟨fun x hm hx => ?_, fun x hx => ?_, hinv.poolAligned⟩
    · rcases (FreeList.Free_has _ _ _ _ x).1 hx with hin | hold
      · exact hun x hin.1 hin.2 hm
      · exact hinv.disjoint x hm hold
    · rcases (FreeList.Free_has _ _ _ _ x).1 hx with hin | hold
      · exact hext x hin.1 hin.2
      · exact hinv.freeUser x hold

/-- Every operation keeps the joint invariant when it is `Safe` and does not halt. -/
theorem Inv_step (kernelEnd : Nat) (u u' : UserMap.Space) (op : UserMap.Op)
    (hinv : UserMap.Inv u) (hsafe : op.Safe u)
    (h : UserMap.step kernelEnd u op = .ok u') : UserMap.Inv u' := by
  cases op with
  | map phys size attributes =>
    simp only [UserMap.step] at h
    split at h
    · simp at h
    · rename_i r hr
      simp only [Except.ok.injEq] at h
      rw [← h]
      exact Inv_Map kernelEnd u phys size attributes r hinv hr
  | mapAt addr phys size attributes uninit =>
    simp only [UserMap.step] at h
    split at h
    · simp at h
    · rename_i t ht
      simp only [Except.ok.injEq] at h
      rw [← h]
      exact Inv_MapAt kernelEnd uninit u addr phys size attributes t hinv hsafe.1 hsafe.2 ht
  | unmap addr size =>
    obtain ⟨hext, hal, D, hD, hcover⟩ := hsafe
    exact Inv_Unmap u u' addr D size hinv hext hal hD hcover h
  | unmapAndReserve addr size => exact Inv_UnmapAndReserve u u' addr size hinv h
  | reserve size =>
    simp only [UserMap.step] at h
    split at h
    · simp at h
    · rename_i r hr
      simp only [Except.ok.injEq] at h
      rw [← h]
      exact Inv_Reserve u size r hinv hr
  | reserveAt addr size => exact Inv_ReserveAt kernelEnd u u' addr size hinv h
  | unreserve addr size => exact Inv_Unreserve u u' addr size hinv hsafe.1 hsafe.2 h

theorem Inv_run (kernelEnd : Nat) :
    ∀ ops u u', UserMap.Inv u → UserMap.SafeRun kernelEnd u ops →
      UserMap.run kernelEnd u ops = .ok u' → UserMap.Inv u' := by
  intro ops
  induction ops with
  | nil =>
    intro u u' hinv _ h
    simp only [UserMap.run, Except.ok.injEq] at h
    rw [← h]
    exact hinv
  | cons op ops ih =>
    intro u u' hinv hsafe h
    simp only [UserMap.run] at h
    split at h
    · simp at h
    · rename_i u1 hstep
      exact ih u1 u' (Inv_step kernelEnd u u1 op hinv hsafe.1 hstep) (hsafe.2 u1 hstep) h

/-- A freshly constructed space satisfies the joint invariant. -/
theorem Inv_of_Fresh (u : UserMap.Space) (h : UserMap.Fresh u) : UserMap.Inv u := by
  obtain ⟨hfl, hpool, hzero⟩ := h
  have hhas : ∀ x, u.freeList.Has x →
      (0x8000000000 ≤ x ∧ x < 0x800000000000) ∨
      (0xFFFF800000000000 ≤ x ∧ x < 0xFFFF87F800000000) := by
    intro x hx
    rw [hfl] at hx
    unfold UserMap.seedFreeList at hx
    rw [FreeList.Free_has, FreeList.Free_has] at hx
    rcases hx with h | h | h
    · right; omega
    · left; omega
    · simp [UserMap.FreeList.Has] at h
  refine ⟨fun x hm hx => ?_, fun x hx => ?_, hpool⟩
  · have hx' := hhas x hx
    have hidx : 1 ≤ x % 0x1000000000000 / 0x8000000000 ∧
        x % 0x1000000000000 / 0x8000000000 < 0x1ff := by omega
    have h0 : u.table.mem (GetTableEntry x 0) = 0 := by
      rw [GetTableEntry_zero]
      exact hzero _ hidx.1 hidx.2
    obtain ⟨d, hd, hanc, hleaf⟩ := hm
    by_cases hd0 : d = 0
    · subst hd0
      rcases hleaf with h7 | ⟨h3, -⟩
      · rw [h0] at h7; omega
      · omega
    · have := (hanc 0 (by omega)).1
      rw [h0] at this
      omega
  · have hx' := hhas x hx
    refine ⟨?_, ?_⟩
    · unfold Canonical
      omega
    · rw [inFractalSlot_iff]
      omega

theorem Inv_initial_runs (kernelEnd : Nat) :
    ∀ ops u u', UserMap.Inv u → UserMap.SafeRun kernelEnd u ops →
      UserMap.run kernelEnd u ops = .ok u' →
      ∀ n, ∃ un, UserMap.run kernelEnd u (ops.take n) = .ok un ∧ UserMap.Inv un := by
  intro ops
  induction ops with
  | nil =>
    intro u u' hinv _ _ n
    exact ⟨u, by simp [UserMap.run], hinv⟩
  | cons op ops ih =>
    intro u u' hinv hsafe h n
    cases n with
    | zero => exact ⟨u, by simp [UserMap.run], hinv⟩
    | succ k =>
      simp only [UserMap.run] at h
      split at h
      · simp at h
      · rename_i u1 hstep
        obtain ⟨un, hun, hi⟩ := ih u1 u' (Inv_step kernelEnd u u1 op hinv hsafe.1 hstep)
          (hsafe.2 u1 hstep) h k
        refine ⟨un, ?_, hi⟩
        simp only [List.take_succ_cons, UserMap.run, hstep]
        exact hun

/-- C14 (counterexample): on the new space, whose free list holds `0x8000000000`, `MapAt`
of one page at that address does not halt; afterwards the address is mapped (`Walk`
reports depth 3) and is still in the free list. -/
theorem C14_counterexample :
    (UserMap.run 0x8000000000 UserMap.newSpace
      [UserMap.Op.mapAt 0x8000000000 0x9000 ⟨0x1000, 1⟩ ⟨false, true, true⟩ false]).toOption.isSome
      = true ∧
    UserMap.newSpace.freeList.Has 0x8000000000 ∧
    (Walk UserMap.mappedWhileFree.table 0x8000000000).toOption.map (fun w => w.depth) = some 3 ∧
    UserMap.mappedWhileFree.freeList.Has 0x8000000000 :=
  ⟨rfl, by decide, rfl, by decide⟩

/-- C14 (amended): from a freshly constructed space (kernel region ending at
`0x8000000000`), along every sequence of `Map`, `MapAt`, `Unmap`, `UnmapAndReserve`,
`Reserve`, `ReserveAt`, `Unreserve` that does not halt and in which `MapAt` is applied to
user addresses that are not free, `Unmap` to an aligned extent of user addresses not
covered by tables of smaller pages, and `Unreserve` to user addresses that are not mapped
(`SafeRun`), the space at the end and after each operation satisfies the joint invariant:
no mapped address is in the free list and no address of the free list is mapped, be it
through `Mapped` or through `Walk`. -/
theorem UserMap_invariant (u0 u' : UserMap.Space) (ops : List UserMap.Op)
    (hfresh : UserMap.Fresh u0) (hsafe : UserMap.SafeRun 0x8000000000 u0 ops)
    (h : UserMap.run 0x8000000000 u0 ops = .ok u') :
    UserMap.Inv u' ∧
    (∀ x, u'.freeList.Has x → ¬ Mapped u'.table.mem x) ∧
    (∀ x w, Walk u'.table x = .ok w → 0 ≤ w.depth → ¬ u'.freeList.Has x) ∧
    (∀ n, ∃ un, UserMap.run 0x8000000000 u0 (ops.take n) = .ok un ∧ UserMap.Inv un) := by
  have hinv := Inv_run 0x8000000000 ops u0 u' (Inv_of_Fresh u0 hfresh) hsafe h
  refine ⟨hinv, fun x hx hm => hinv.disjoint x hm hx, fun x w hw hd => ?_,
    Inv_initial_runs 0x8000000000 ops u0 u' (Inv_of_Fresh u0 hfresh) hsafe h⟩
  exact hinv.disjoint x
    ((Mapped_iff_Walk u'.table x (Walk_ok_checks u'.table x w hw)).2 ⟨w, hw, hd⟩)

/-- C14 (witness): one page mapped with `Map` on the new space and unmapped with `Unmap`. -/
theorem UserMap_invariant_witness :
    UserMap.Inv (UserMap.spaceAfter UserMap.newSpace
      (UserMap.run 0x8000000000 UserMap.newSpace UserMap.mapThenUnmap)) ∧
    (∀ x, (UserMap.spaceAfter UserMap.newSpace
        (UserMap.run 0x8000000000 UserMap.newSpace UserMap.mapThenUnmap)).freeList.Has x →
      ¬ Mapped (UserMap.spaceAfter UserMap.newSpace
        (UserMap.run 0x8000000000 UserMap.newSpace UserMap.mapThenUnmap)).table.mem x) ∧
    (∀ x w, Walk (UserMap.spaceAfter UserMap.newSpace
        (UserMap.run 0x8000000000 UserMap.newSpace UserMap.mapThenUnmap)).table x = .ok w →
      0 ≤ w.depth →
      ¬ (UserMap.spaceAfter UserMap.newSpace
        (UserMap.run 0x8000000000 UserMap.newSpace UserMap.mapThenUnmap)).freeList.Has x) ∧
    (∀ n, ∃ un, UserMap.run 0x8000000000 UserMap.newSpace (UserMap.mapThenUnmap.take n)
      = .ok un ∧ UserMap.Inv un) :=
  UserMap_invariant UserMap.newSpace
    (UserMap.spaceAfter UserMap.newSpace
      (UserMap.run 0x8000000000 UserMap.newSpace UserMap.mapThenUnmap))
    UserMap.mapThenUnmap
    ⟨rfl, by decide, fun i h1 h2 => by
      have e1 : 0xFFFFFFFFFFFFF000 + 8 * i ≠ 0xFFFFFFFFFFFFF000 := by omega
      have e2 : 0xFFFFFFFFFFFFF000 + 8 * i ≠ 0xFFFFFFFFFFFFFFF8 := by omega
      simp [UserMap.newSpace, freshSpace, e1, e2]⟩
    ⟨trivial, fun u1 _ => ⟨⟨fun x h1 h2 => by
        have h3 : x < 0xFFFF800000000000 + 0x1000 := h2
        exact ⟨by unfold Canonical; omega, by rw [inFractalSlot_iff]; omega⟩,
      by decide, 3, rfl, fun i _ => Or.inl rfl⟩, fun _ _ => trivial⟩⟩
    rfl

/-- The ancestor loop of a successful `Set` that allocates nothing: every ancestor was
present and not large, got `parentMask` or-ed in, and no other word changed. -/
theorem SetLoop_noalloc (addr pm D : Nat) (s s1 : State) (hD : D ≤ 3)
    (hnf : ¬ InFractalSlot addr) (h : SetLoop addr pm D 0 s = .ok (true, s1))
    (hal : s1.allocator = s.allocator) :
    (∀ j, j < D → s.mem (GetTableEntry addr j) % 2 = 1 ∧
      s.mem (GetTableEntry addr j) / 128 % 2 = 0 ∧
      s1.mem (GetTableEntry addr j) = s.mem (GetTableEntry addr j) ||| pm) ∧
    (∀ a, (∀ j, j < D → a ≠ GetTableEntry addr j) → s1.mem a = s.mem a) := by
  have hinj : ∀ i j, i ≤ 3 → j ≤ 3 → GetTableEntry addr i = GetTableEntry addr j → i = j :=
    fun i j hi hj he => entry_level_inj addr addr i j hi hj hnf hnf he
  have key := SetLoop_rule addr pm D
    (fun k t => s.allocator.allocated.length ≤ t.allocator.allocated.length ∧
      (t.allocator.allocated.length = s.allocator.allocated.length →
        (∀ j, j < k → s.mem (GetTableEntry addr j) % 2 = 1 ∧
          s.mem (GetTableEntry addr j) / 128 % 2 = 0 ∧
          t.mem (GetTableEntry addr j) = s.mem (GetTableEntry addr j) ||| pm) ∧
        (∀ a, (∀ j, j < k → a ≠ GetTableEntry addr j) → t.mem a = s.mem a)))
    ?_ ?_ D 0 s true s1 (by omega)
    ⟨Nat.le_refl _, fun _ => ⟨fun j hj => absurd hj (Nat.not_lt_zero j), fun a _ => rfl⟩⟩ h
  · exact (key.1 rfl).2 (by rw [hal])
  · intro k t fresh a hk hp _ halloc
    obtain ⟨-, hall, -⟩ := Alloc_some halloc
    refine ⟨?_, fun he => ?_⟩
    · simp only [hall, List.length_cons]
      omega
    · simp only [hall, List.length_cons] at he
      omega
  · intro k t hk hp hpres hsmall
    obtain ⟨hle, himp⟩ := hp
    refine ⟨hle, fun he => ?_⟩
    obtain ⟨pA, pF⟩ := himp he
    have hsame : t.mem (GetTableEntry addr k) = s.mem (GetTableEntry addr k) := by
      refine pF _ (fun j hj heq => ?_)
      have := hinj k j (by omega) (by omega) heq
      omega
    refine ⟨fun j hj => ?_, fun a hne => ?_⟩
    · by_cases hjk : j = k
      · subst hjk
        rw [← hsame]
        exact ⟨hpres, hsmall, by simp only [Function.update_same]⟩
      · obtain ⟨q1, q2, q3⟩ := pA j (by omega)
        have hne : GetTableEntry addr j ≠ GetTableEntry addr k := by
          intro heq
          have := hinj j k (by omega) (by omega) heq
          omega
        exact ⟨q1, q2, by simp only [Function.update_noteq hne]; exact q3⟩
    · have hne' : a ≠ GetTableEntry addr k := hne k (by omega)
      simp only [Function.update_noteq hne']
      exact pF a (fun j hj => hne j (by omega))

/-- After a successful `Set` outside the self-referential slot, with parent flags that
have the present bit or in a call that allocated no table, every ancestor of the address
is present and not large. -/
theorem Set_links (s : State) (addr entry parentMask D : Nat) (ow : Option Bool)
    (r : SetResult) (hnf : ¬ InFractalSlot addr)
    (hpm0 : parentMask % 2 = 1 ∨ r.state.allocator = s.allocator)
    (hpm7 : parentMask / 128 % 2 = 0)
    (hpool : ∀ f ∈ s.allocator.pool, f % 0x1000 = 0)
    (h : Set s addr entry parentMask D ow = .ok r) (hok : r.ok = true) :
    AncestorsLinked r.state.mem addr D := by
  obtain ⟨-, hD, -, s1, hloop, -, hst⟩ := Set_true_inv s addr entry parentMask D ow r h hok
  have hlinks : AncestorsLinked s1.mem addr D := by
    rcases hpm0 with hp | hp
    · exact SetLoop_links addr parentMask D s s1 (by omega) hnf hp hpm7 hpool hloop
    · have hal : s1.allocator = s.allocator := by rw [← hp, hst]
      obtain ⟨pA, -⟩ := SetLoop_noalloc addr parentMask D s s1 (by omega) hnf hloop hal
      intro j hj
      obtain ⟨q1, q2, q3⟩ := pA j hj
      rw [q3]
      refine ⟨(or_bit0_iff _ _).2 (Or.inl q1), ?_⟩
      have := or_bit7_iff (s.mem (GetTableEntry addr j)) parentMask
      omega
  intro j hj
  have hne : GetTableEntry addr j ≠ GetTableEntry addr D := fun he => by
    have := entry_level_inj addr addr j D (by omega) (by omega) hnf hnf he
    omega
  rw [hst]
  simp only [Function.update_noteq hne]
  exact hlinks j hj

/-- `Walk` after a successful `Set`, as `Set_then_Walk`, also for a call that allocated no
table. -/
theorem Set_then_Walk_either (s : State) (addr entry parentMask D : Nat) (ow : Option Bool)
    (r : SetResult) (hnf : ¬ InFractalSlot addr)
    (hpm0 : parentMask % 2 = 1 ∨ r.state.allocator = s.allocator)
    (hpm7 : parentMask / 128 % 2 = 0)
    (hpool : ∀ f ∈ s.allocator.pool, f % 0x1000 = 0)
    (hleaf : entry / 128 % 2 = 1 ∨ (D = 3 ∧ entry % 2 = 1))
    (h : Set s addr entry parentMask D ow = .ok r) (hok : r.ok = true) :
    entryChecks r.state = .ok () ∧
    Walk r.state addr =
      .ok { depth := (D : Int), entry := entry, size := 0x1000 <<< (27 - 9 * D) } := by
  have hlinks := Set_links s addr entry parentMask D ow r hnf hpm0 hpm7 hpool h hok
  obtain ⟨hchk, hD, -, s1, hloop, -, hst⟩ := Set_true_inv s addr entry parentMask D ow r h hok
  obtain ⟨f1, f2, f3, -⟩ := SetLoop_fields addr parentMask D s s1 true hloop
  have hchk' : entryChecks r.state = .ok () := by
    rw [← hchk]
    apply entryChecks_congr <;> simp [hst, f1, f2, f3]
  refine ⟨hchk', Walk_of_linked r.state addr D entry hchk' (by omega) hlinks ?_ hleaf⟩
  rw [hst]
  simp
/-- A mapping installed by `Set` with an entry built by `CalcMask`, walked and read back:
`Walk` finds the entry at the depth of the page size; `Read` returns it for 4 KiB and
2 MiB pages and stops on `assert(depth >= 2)` for 1 GiB pages. -/
theorem Set_then_Read_either (s : State) (addr p parentMask size D : Nat) (kernel : Bool)
    (attrs : Attributes) (ow : Option Bool) (r : SetResult)
    (hD : CalcDepth size = .ok D)
    (hnf : ¬ InFractalSlot addr) (hp : p % size = 0) (hp63 : p < 2 ^ 63)
    (hpm0 : parentMask % 2 = 1 ∨ r.state.allocator = s.allocator)
    (hpm7 : parentMask / 128 % 2 = 0)
    (hpool : ∀ f ∈ s.allocator.pool, f % 0x1000 = 0)
    (h : Set s addr (p ||| CalcMask size kernel attrs) parentMask D ow = .ok r)
    (hok : r.ok = true) :
    (size ≠ 0x40000000 → Read r.state addr = .ok
      { found := true
        phys := some p
        attr := some { executable := attrs.executable, writable := attrs.writable,
                       cachable := true }
        size := size }) ∧
    (size = 0x40000000 → Read r.state addr = .error Halt.assertDepthAtLeastTwo) := by
  obtain ⟨m0, m7, m1, m63, mlow⟩ := CalcMask_bits size kernel attrs
  have hsD := (CalcDepth_ok_iff size D).1 hD
  have hp4 : p % 4096 = 0 := by
    rcases hsD with ⟨rfl, -⟩ | ⟨rfl, -⟩ | ⟨rfl, -⟩ <;> omega
  have hsum := or_flags_eq_add p (CalcMask size kernel attrs) hp4 (by simpa using hp63) mlow
  have hleaf : (p ||| CalcMask size kernel attrs) / 128 % 2 = 1 ∨
      (D = 3 ∧ (p ||| CalcMask size kernel attrs) % 2 = 1) := by
    rw [hsum]
    rcases hsD with ⟨rfl, rfl⟩ | ⟨rfl, rfl⟩ | ⟨rfl, rfl⟩
    · right; exact ⟨rfl, by omega⟩
    · left; simp at m7; omega
    · left; simp at m7; omega
  obtain ⟨hchk', hw⟩ :=
    Set_then_Walk_either s addr _ parentMask D ow r hnf hpm0 hpm7 hpool hleaf h hok
  have hne : p ||| CalcMask size kernel attrs ≠ 0 := by rw [hsum]; omega
  refine ⟨fun h1G => ?_, fun h1G => ?_⟩
  · have hD' : (size = 0x1000 ∧ D = 3) ∨ (size = 0x200000 ∧ D = 2) := by
      rcases hsD with h | h | h
      · exact Or.inl h
      · exact Or.inr h
      · exact absurd h.1 h1G
    rw [Read_of_Walk r.state addr D _ _ hchk' hw
      (by rcases hD' with ⟨-, rfl⟩ | ⟨-, rfl⟩ <;> omega) hne]
    simp only [and_7ffffffffffff000, and_7fffffffffe00000, and_bit63, and_2, hsum]
    have hsz : 0x1000 <<< (27 - 9 * D) = size := by
      rcases hD' with ⟨rfl, rfl⟩ | ⟨rfl, rfl⟩ <;> rfl
    have hph : (if D = 3 then
        4096 * ((p + CalcMask size kernel attrs) % 0x8000000000000000 / 4096)
        else 0x200000 * ((p + CalcMask size kernel attrs) % 0x8000000000000000 / 0x200000))
        = p := by
      rcases hD' with ⟨rfl, rfl⟩ | ⟨rfl, rfl⟩
      · simp only [if_true]; omega
      · simp only [show ¬ (2 = 3) by decide, if_false]; omega
    have hex : decide (0x8000000000000000 *
        ((p + CalcMask size kernel attrs) % 0x10000000000000000 / 0x8000000000000000) = 0)
        = attrs.executable := by
      cases hx : attrs.executable <;> simp [hx] at m63 ⊢ <;> omega
    have hwr : decide (2 * ((p + CalcMask size kernel attrs) / 2 % 2) ≠ 0)
        = attrs.writable := by
      cases hx : attrs.writable <;> simp [hx] at m1 ⊢ <;> omega
    rw [hsz, hph, hex, hwr]
  · have hD1 : D = 1 := by
      rcases hsD with ⟨h, -⟩ | ⟨h, -⟩ | ⟨-, h⟩
      · omega
      · omega
      · exact h
    subst hD1
    unfold Read
    simp only [hchk', hw]
    simp [hne]

/-- C1 (counterexample): `CalcDepth` accepts 1 GiB, `Set` installs such a page, and `Read`
then stops on `assert(depth >= 2)`; a physical address with bit 63 is not read back. -/
theorem C1_counterexample :
    CalcDepth 0x40000000 = .ok 1 ∧
    readAfterSet blankMachine 0x8000000000
      (0x40000000 ||| CalcMask 0x40000000 false ⟨true, true, true⟩) 7 1
      = .error Halt.assertDepthAtLeastTwo ∧
    readAfterSet blankMachine 0x8000000000
      (0x8000000000000000 ||| CalcMask 0x1000 false ⟨true, true, true⟩) 7 3
      = .ok { found := true, phys := some 0, attr := some ⟨false, true, true⟩, size := 0x1000 } := by
  refine ⟨rfl, ?_, ?_⟩ <;> rfl

/-- C1 (amended): for a page size `CalcDepth` accepts, an address outside the
self-referential slot, a physical address `p` below `2 ^ 63` aligned to the page size,
parent flags without the large-page bit that have the present bit unless the call allocates
no table, and an allocator that hands out 4 KiB-aligned frames: after `Set` returned `true`
for the entry `p | CalcMask(size, kernel, attrs)` at depth `CalcDepth(size)`, `Read` of that
address returns `true` and reports the physical address `p` and the page size `size` when
the size is 4 KiB or 2 MiB, and stops on `assert(depth >= 2)` when it is 1 GiB. -/
theorem Set_Read_address_size (s : State) (addr p parentMask size D : Nat) (kernel : Bool)
    (attrs : Attributes) (ow : Option Bool) (r : SetResult)
    (hD : CalcDepth size = .ok D)
    (hnf : ¬ InFractalSlot addr) (hp : p % size = 0) (hp63 : p < 2 ^ 63)
    (hpm0 : parentMask &&& 1 ≠ 0 ∨ r.state.allocator = s.allocator)
    (hpm7 : parentMask &&& 0x80 = 0)
    (hpool : ∀ f ∈ s.allocator.pool, f % 0x1000 = 0)
    (h : Set s addr (p ||| CalcMask size kernel attrs) parentMask D ow = .ok r)
    (hok : r.ok = true) :
    (size ≠ 0x40000000 →
      ∃ rr, Read r.state addr = .ok rr ∧ rr.found = true ∧ rr.phys = some p ∧
        rr.size = size) ∧
    (size = 0x40000000 → Read r.state addr = .error Halt.assertDepthAtLeastTwo) := by
  have hpm0' : parentMask % 2 = 1 ∨ r.state.allocator = s.allocator := by
    rcases hpm0 with h0 | h0
    · left
      rw [Nat.and_one_is_mod] at h0
      omega
    · exact Or.inr h0
  have hpm7' : parentMask / 128 % 2 = 0 := by
    rw [and_80] at hpm7
    omega
  obtain ⟨h1, h2⟩ := Set_then_Read_either s addr p parentMask size D kernel attrs ow r hD hnf
    hp hp63 hpm0' hpm7' hpool h hok
  exact ⟨fun hs => ⟨_, h1 hs, rfl, rfl, rfl⟩, h2⟩

/-- C1 (witness): a 2 MiB page installed on the blank machine. -/
theorem Set_Read_address_size_witness :
    ((0x200000 : Nat) ≠ 0x40000000 →
      ∃ rr, Read (setResultOf blankMachine (Set blankMachine 0x8000200000
          (0x600000 ||| CalcMask 0x200000 false ⟨false, true, true⟩) 7 2 none)).state
          0x8000200000 = .ok rr ∧
        rr.found = true ∧ rr.phys = some 0x600000 ∧ rr.size = 0x200000) ∧
    ((0x200000 : Nat) = 0x40000000 →
      Read (setResultOf blankMachine (Set blankMachine 0x8000200000
          (0x600000 ||| CalcMask 0x200000 false ⟨false, true, true⟩) 7 2 none)).state
          0x8000200000 = .error Halt.assertDepthAtLeastTwo) :=
  Set_Read_address_size blankMachine 0x8000200000 0x600000 7 0x200000 2 false
    ⟨false, true, true⟩ none _ rfl (by decide) (by decide) (by decide)
    (Or.inl (by decide)) (by decide) (by decide) rfl rfl
/-- A successful `Set` never shortens the list of allocated frames, and leaves the
allocator as it was when the list has the same length afterwards. -/
theorem Set_allocated (s : State) (addr entry pm D : Nat) (ow : Option Bool) (r : SetResult)
    (h : Set s addr entry pm D ow = .ok r) (hok : r.ok = true) :
    s.allocator.allocated.length ≤ r.state.allocator.allocated.length ∧
    (r.state.allocator.allocated.length = s.allocator.allocated.length →
      r.state.allocator = s.allocator) := by
  obtain ⟨-, -, -, s1, hloop, -, hst⟩ := Set_true_inv s addr entry pm D ow r h hok
  have hal : r.state.allocator = s1.allocator := by rw [hst]
  rw [hal]
  rcases SetLoop_slot addr pm D s s1 hloop with ⟨he, -⟩ | ⟨hlt, -⟩
  · rw [he]
    exact ⟨Nat.le_refl _, fun _ => rfl⟩
  · exact ⟨by omega, fun he => by omega⟩

/-- A successful `Set` outside the self-referential slot that allocates nothing writes the
entry and changes no word off the path. -/
theorem Set_noalloc (s : State) (addr entry pm D : Nat) (ow : Option Bool) (r : SetResult)
    (hnf : ¬ InFractalSlot addr) (h : Set s addr entry pm D ow = .ok r) (hok : r.ok = true)
    (hal : r.state.allocator = s.allocator) :
    r.state.mem (GetTableEntry addr D) = entry ∧
    (∀ a, (∀ j, j ≤ D → a ≠ GetTableEntry addr j) → r.state.mem a = s.mem a) := by
  obtain ⟨-, hD, -, s1, hloop, -, hst⟩ := Set_true_inv s addr entry pm D ow r h hok
  have hal1 : s1.allocator = s.allocator := by rw [← hal, hst]
  obtain ⟨-, pF⟩ := SetLoop_noalloc addr pm D s s1 (by omega) hnf hloop hal1
  refine ⟨by rw [hst]; simp, fun a hne => ?_⟩
  rw [hst]
  simp only [Function.update_noteq (hne D (Nat.le_refl D))]
  exact pF a (fun j hj => hne j (by omega))

theorem run_page_not_fractal (size D cv n i : Nat) (hsD : SizeDepth size D)
    (hb : cv % 0x1000000000000 + n * size ≤ 0xFF8000000000) (hi : i < n) :
    ¬ InFractalSlot (cv + i * size) := by
  rw [inFractalSlot_iff]
  rcases hsD with ⟨rfl, rfl⟩ | ⟨rfl, rfl⟩ | ⟨rfl, rfl⟩ <;> omega

/-- The loop of `SetList` when it allocates no table: each page of the run holds its entry
at the end, and no word off the paths of the run has changed. -/
theorem SetListLoop_run_noalloc (size parentMask D : Nat) (hsD : SizeDepth size D) :
    ∀ fuel cv cp ptr out s out' s',
      cv % 0x1000000000000 + fuel * size ≤ 0xFF8000000000 →
      cp + fuel * size < 2 ^ 64 + size →
      SetListLoop size parentMask D fuel cv cp ptr out s = .ok (out', s') →
      s.allocator.allocated.length ≤ s'.allocator.allocated.length ∧
      (s'.allocator = s.allocator →
        (∀ i, i < fuel → s'.mem (GetTableEntry (cv + i * size) D) = cp + i * size) ∧
        (∀ a, (∀ i j, i < fuel → j ≤ D → a ≠ GetTableEntry (cv + i * size) j) →
          s'.mem a = s.mem a)) := by
  have hD3 : D ≤ 3 := by
    rcases hsD with ⟨-, rfl⟩ | ⟨-, rfl⟩ | ⟨-, rfl⟩ <;> omega
  intro fuel
  induction fuel with
  | zero =>
    intro cv cp ptr out s out' s' _ _ h
    simp only [SetListLoop, Except.ok.injEq, Prod.mk.injEq] at h
    obtain ⟨-, rfl⟩ := h
    exact ⟨Nat.le_refl _, fun _ => ⟨fun i hi => absurd hi (Nat.not_lt_zero i), fun a _ => rfl⟩⟩
  | succ n ih =>
    intro cv cp ptr out s out' s' hb hpb h
    simp only [SetListLoop] at h
    split at h
    · simp at h
    · rename_i r hset
      split at h
      · simp at h
      · rename_i hok
        simp only [Bool.not_eq_false] at hok
        have hnf := run_not_fractal size D cv n hsD hb
        obtain ⟨hle1, heq1⟩ := Set_allocated s cv cp parentMask D ptr r hset hok
        have hb' := run_next_bound size D cv n hsD hb
        have hpb' := run_next_phys_bound size D cp n hsD hpb
        obtain ⟨hle2, ih2⟩ := ih _ _ _ _ r.state out' s' hb' hpb' h
        refine ⟨by omega, fun hal => ?_⟩
        have hlen : s'.allocator.allocated.length = s.allocator.allocated.length := by rw [hal]
        have hal1 : r.state.allocator = s.allocator := heq1 (by omega)
        obtain ⟨ihp, ihf⟩ := ih2 (by rw [hal, hal1])
        obtain ⟨hself, hframe⟩ := Set_noalloc s cv cp parentMask D ptr r hnf hset hok hal1
        have hconv : ∀ i, i < n → ∀ d,
            GetTableEntry ((cv + size) % 2 ^ 64 + i * size) d =
              GetTableEntry (cv + (i + 1) * size) d := fun i _ d =>
          GetTableEntry_congr _ _ d (run_next_addr size D cv n i hsD hb)
        have hdist : ∀ i k j, i < n + 1 → k < n + 1 → i ≠ k → j ≤ D →
            GetTableEntry (cv + i * size) D ≠ GetTableEntry (cv + k * size) j := by
          intro i k j hi hk hik hj he
          have h1 := run_page_not_fractal size D cv (n + 1) i hsD hb hi
          have h2 := run_page_not_fractal size D cv (n + 1) k hsD hb hk
          have := entry_level_inj _ _ D j hD3 (by omega) h1 h2 he
          subst this
          exact run_leaf_distinct size D cv (n + 1) i k hsD hb hi hk hik he
        refine ⟨fun i hi => ?_, fun a hne => ?_⟩
        · cases i with
          | zero =>
            simp only [Nat.zero_mul, Nat.add_zero]
            rw [ihf _ (fun k j hk hj => ?_), hself]
            rw [hconv k hk]
            have := hdist 0 (k + 1) j (by omega) (by omega) (by omega) hj
            simpa using this
          | succ i' =>
            have h1 := ihp i' (by omega)
            rw [hconv i' (by omega), run_next_phys size D cp n i' hsD hpb (by omega)] at h1
            exact h1
        · rw [ihf a (fun k j hk hj => ?_)]
          · refine hframe a (fun j hj => ?_)
            have := hne 0 j (by omega) hj
            simpa using this
          · rw [hconv k hk]
            exact hne (k + 1) j (by omega) hj
/-- C7 (counterexample): with a physical start one page below `2 ^ 63` and a mask that
carries bit 63, the second entry of the run is `7`, not `(p + pageSize) | m`. -/
theorem C7_counterexample :
    (SetList blankMachine 0x8000000000
        (0x7FFFFFFFFFFFF000 ||| CalcMask 0x1000 false ⟨false, true, true⟩) ⟨0x1000, 2⟩ 7
        none).toOption.map (fun x => x.2.mem (GetTableEntry (0x8000000000 + 1 * 0x1000) 3))
      = some 7 ∧
    (0x7FFFFFFFFFFFF000 + 1 * 0x1000) ||| CalcMask 0x1000 false ⟨false, true, true⟩
      = 0x8000000000000007 :=
  ⟨rfl, rfl⟩

/-- C7 (amended): for a page size accepted by `CalcDepth`, a run that stays below the
self-referential slot (`virt mod 2^48 + n * pageSize <= 0xFF8000000000`), a 4 KiB-aligned
physical start with `p + n * pageSize <= 2 ^ 63`, and parent flags that have the present
bit unless the run allocates no table: when `SetList` ends without a halt, the leaf entry
of page `i < n`, at `virt + i * pageSize`, is `(p + i * pageSize) | m`, where
`m = CalcMask(...)`. -/
theorem SetList_run (s s' : State) (virt p n size parentMask D : Nat) (kernel : Bool)
    (attrs : Attributes) (ow out : Option Bool)
    (hD : CalcDepth size = .ok D)
    (hvirt : virt % 2 ^ 48 + n * size ≤ 0xFF8000000000)
    (hp : p % 0x1000 = 0) (hpn : p + n * size ≤ 2 ^ 63)
    (hpm0 : parentMask &&& 1 ≠ 0 ∨ s'.allocator = s.allocator)
    (h : SetList s virt (p ||| CalcMask size kernel attrs) ⟨size, n⟩ parentMask ow
      = .ok (out, s')) :
    ∀ i, i < n → s'.mem (GetTableEntry ((virt + i * size) % 2 ^ 64) D)
      = (p + i * size) ||| CalcMask size kernel attrs := by
  intro i hi
  have hsD := (CalcDepth_ok_iff size D).1 hD
  obtain ⟨-, -, -, -, mlow⟩ := CalcMask_bits size kernel attrs
  have mlt := CalcMask_lt size kernel attrs
  have hi' : (p + i * size) % 4096 = 0 ∧ p + i * size < 0x8000000000000000 ∧
      p < 0x8000000000000000 ∧ p + n * size < 0x8000000000000000 + 1 := by
    rcases hsD with ⟨rfl, -⟩ | ⟨rfl, -⟩ | ⟨rfl, -⟩ <;> omega
  have hsum := or_flags_eq_add p (CalcMask size kernel attrs) hp hi'.2.2.1 mlow
  unfold SetList at h
  split at h
  · simp at h
  · simp only [hD] at h
    have hvirt' : virt % 0x1000000000000 + n * size ≤ 0xFF8000000000 := by simpa using hvirt
    have hphys : (p ||| CalcMask size kernel attrs) + n * size < 2 ^ 64 + size := by
      rw [hsum]; rcases hsD with ⟨rfl, -⟩ | ⟨rfl, -⟩ | ⟨rfl, -⟩ <;> omega
    have h1 : s'.mem (GetTableEntry (virt + i * size) D)
        = (p ||| CalcMask size kernel attrs) + i * size := by
      rcases hpm0 with hpm | hal
      · have hpm' : parentMask % 2 = 1 := by
          rw [Nat.and_one_is_mod] at hpm
          omega
        exact ((SetListLoop_run size parentMask D hsD hpm' n virt
          (p ||| CalcMask size kernel attrs) ow ow s out s' hvirt' hphys h).1 i hi).2
      · exact ((SetListLoop_run_noalloc size parentMask D hsD n virt
          (p ||| CalcMask size kernel attrs) ow ow s out s' hvirt' hphys h).2 hal).1 i hi
    rw [GetTableEntry_congr ((virt + i * size) % 2 ^ 64) (virt + i * size) D (by omega), h1, hsum]
    rw [or_flags_eq_add (p + i * size) (CalcMask size kernel attrs) hi'.1 hi'.2.1 mlow]
    omega

/-- C7 (witness): three 4 KiB pages mapped on the blank machine; the entry of the last. -/
theorem SetList_run_witness :
    threePages.2.mem (GetTableEntry ((0x8000000000 + 2 * 0x1000) % 2 ^ 64) 3)
      = (0x5000 + 2 * 0x1000) ||| CalcMask 0x1000 false ⟨false, true, true⟩ :=
  SetList_run blankMachine threePages.2 0x8000000000 0x5000 3 0x1000 7 3 false
    ⟨false, true, true⟩ none threePages.1 rfl (by decide) (by decide) (by decide)
    (Or.inl (by decide)) rfl 2 (by decide)
/-- C9 (counterexample): on `freshSpace`, `Unset(0xFFFFFFFFFFFFF000)` returns `true` and
prunes nothing: no frame is freed, no invalidation is requested, and the table of the leaf
still holds a non-zero entry.  Yet the entry above the leaf on the path, which was present
(`0x1003`), is zero afterwards: at this address the leaf entry and the entries above it
are one word, top-level entry `0x1ff`, so the table at which the pruning stopped is not
left linked. -/
theorem C9_counterexample :
    (Unset freshSpace 0xFFFFFFFFFFFFF000).toOption.map (fun x => x.1) = some true ∧
    freshSpace.mem (GetTableEntry 0xFFFFFFFFFFFFF000 2) = 0x1003 ∧
    fractalUnset.2.allocator.freed = freshSpace.allocator.freed ∧
    fractalUnset.2.invlpg = freshSpace.invlpg ∧
    TableEmpty fractalUnset.2.mem (GetTableStart 0xFFFFFFFFFFFFF000 3) = false ∧
    fractalUnset.2.mem (GetTableEntry 0xFFFFFFFFFFFFF000 2) = 0 ∧
    GetTableEntry 0xFFFFFFFFFFFFF000 2 = GetTableEntry 0xFFFFFFFFFFFFF000 3 :=
  ⟨rfl, rfl, rfl, rfl, rfl, rfl, rfl⟩

end PageTable
